import Mathlib

/-! # Conway's Game of Life engine (`Game_of_Life/game_of_life.cpp`)

A shallow embedding of the `GameOfLife` class and of the simulation loop of
`main`, followed by the properties of the engine.

Modelling conventions.

* A `vector<vector<int>>` is a `List (List Int)`.  The C++ `operator[]` is
  unchecked, so every access goes through `Board.read` / `Board.write`, which
  return `none` when an index is negative or past the end of the vector.
* The cells are `int`s that hold `0` or `1` in every reachable state; cells
  and neighbour sums are carried as mathematical integers.
* Three `int` variables can leave the `int` range on large inputs: the counter
  `changes`, the accumulator `count` and the loop variable `generation`.  They
  are embedded twice.  `simulateGeneration`, `countAliveCells` and
  `simulationLoop` carry them as mathematical integers, which is all the
  properties of the grids need; `simulateGeneration32`, `countAliveCells32` and
  `simulationLoop32` reduce every operation on them to 32 bits (`wrapInt`), and
  the properties of the values returned and of the end of the loop are stated
  on these.  `simulateGeneration32_eq` and `countAliveCells32_eq` relate the two.
* `for (int i = lo; i <= hi; i++) body` with a bound the body does not modify
  is `forRange body lo (hi - lo + 1).toNat`.
* `rand()` is a stream `rand : Nat → Int`; the state of the generator is the
  number of calls made so far.
* The text `printBoard` writes to `cout` is a `List Char`, threaded through the
  loops like the other state.
-/

namespace GameOfLife

/-- The type of `current_board` and `next_board`: a vector of rows. -/
abbrev Board := List (List Int)

/-- Read `b[i][j]`; `none` when either index is out of range. -/
def Board.read (b : Board) (i j : Int) : Option Int :=
  if 0 ≤ i ∧ 0 ≤ j then
    match b[i.toNat]? with
    | some row => row[j.toNat]?
    | none => none
  else none

/-- Assign `b[i][j] = v`; `none` when either index is out of range. -/
def Board.write (b : Board) (i j : Int) (v : Int) : Option Board :=
  if 0 ≤ i ∧ 0 ≤ j then
    match b[i.toNat]? with
    | some row =>
      if j.toNat < row.length then some (b.set i.toNat (row.set j.toNat v)) else none
    | none => none
  else none

/-- The counted loop `for (int i = lo; i < lo + count; i++) body`. -/
def forRange {σ : Type} (body : Int → σ → Option σ) : Int → Nat → σ → Option σ
  | _, 0, s => some s
  | i, n + 1, s => (body i s).bind (forRange body (i + 1) n)

end GameOfLife

/-- The data members of `class GameOfLife`. -/
structure GameOfLife where
  size : Int
  actual_size : Int
  current_board : GameOfLife.Board
  next_board : GameOfLife.Board
  deriving DecidableEq

namespace GameOfLife

/-- The constructor `GameOfLife(int board_size)`: both boards are resized to
`actual_size` rows of `actual_size` zeros.  A negative `actual_size` makes
`resize` throw, which is `none`. -/
def new (board_size : Int) : Option GameOfLife :=
  if board_size + 2 < 0 then none
  else
    some
      { size := board_size
        actual_size := board_size + 2
        current_board :=
          List.replicate (board_size + 2).toNat (List.replicate (board_size + 2).toNat 0)
        next_board :=
          List.replicate (board_size + 2).toNat (List.replicate (board_size + 2).toNat 0) }

/-- The body of the inner loop of `initialize`:
`current_board[i][j] = (rand() % 100 < 20) ? 1 : 0`. -/
def initCell (rand : Nat → Int) (i j : Int) (st : Nat × GameOfLife) :
    Option (Nat × GameOfLife) :=
  match st.2.current_board.write i j (if (rand st.1).tmod 100 < 20 then 1 else 0) with
  | some cb => some (st.1 + 1, { st.2 with current_board := cb })
  | none => none

/-- The method `initialize()`, with the random stream made explicit.  The state
carried through the loops is the number of `rand()` calls and the object. -/
def initializeFrom (rand : Nat → Int) (calls : Nat) (g : GameOfLife) :
    Option (Nat × GameOfLife) :=
  forRange (fun i st => forRange (fun j => initCell rand i j) 1 st.2.size.toNat st)
    1 g.size.toNat (calls, g)

/-- The method `initialize()` run on the stream `rand`: the object after seeding. -/
def initializeWith (rand : Nat → Int) (g : GameOfLife) : Option GameOfLife :=
  (initializeFrom rand 0 g).map Prod.snd

/-- The method `countNeighbors(row, col)`: the sum of the eight neighbours on
`current_board`. -/
def countNeighbors (g : GameOfLife) (row col : Int) : Option Int := do
  let tl ← g.current_board.read (row - 1) (col - 1)
  let t ← g.current_board.read (row - 1) col
  let tr ← g.current_board.read (row - 1) (col + 1)
  let l ← g.current_board.read row (col - 1)
  let r ← g.current_board.read row (col + 1)
  let bl ← g.current_board.read (row + 1) (col - 1)
  let b ← g.current_board.read (row + 1) col
  let br ← g.current_board.read (row + 1) (col + 1)
  some (tl + t + tr + l + r + bl + b + br)

/-- The rule of `simulateGeneration` (the nested `if` computing `next_state`). -/
def nextState (current_state neighbors : Int) : Int :=
  if current_state = 1 then
    if neighbors ≤ 1 then 0
    else if neighbors ≥ 4 then 0
    else 1
  else
    if neighbors = 3 then 1
    else 0

/-- The body of the inner loop of `simulateGeneration`; the state is the local
`changes`, as a mathematical integer (`cellStep32` has it at 32 bits), and the
object. -/
def cellStep (i j : Int) (st : Int × GameOfLife) : Option (Int × GameOfLife) := do
  let neighbors ← countNeighbors st.2 i j
  let current_state ← st.2.current_board.read i j
  let nb ← st.2.next_board.write i j (nextState current_state neighbors)
  some (if current_state ≠ nextState current_state neighbors then st.1 + 1 else st.1,
        { st.2 with next_board := nb })

/-- The method `simulateGeneration()`: the exact number of increments of
`changes` and the object after the call (`simulateGeneration32` returns the
32-bit `int`). -/
def simulateGeneration (g : GameOfLife) : Option (Int × GameOfLife) :=
  forRange (fun i st => forRange (fun j => cellStep i j) 1 st.2.size.toNat st)
    1 g.size.toNat (0, g)

/-- The method `swapBoards()`. -/
def swapBoards (g : GameOfLife) : GameOfLife :=
  { g with current_board := g.next_board, next_board := g.current_board }

/-- The body of the inner loop of `countAliveCells`: `count += current_board[i][j]`,
with `count` a mathematical integer (`aliveCell32` has it at 32 bits). -/
def aliveCell (g : GameOfLife) (i j : Int) (count : Int) : Option Int :=
  (g.current_board.read i j).map (fun c => count + c)

/-- The method `countAliveCells()`, with the exact sum (`countAliveCells32`
returns the 32-bit `int`). -/
def countAliveCells (g : GameOfLife) : Option Int :=
  forRange (fun i count => forRange (fun j => aliveCell g i j) 1 g.size.toNat count)
    1 g.size.toNat 0

/-- What the simulation loop of `main` leaves behind: the loop variable
`generation`, the flag `stable`, the object, and two ghost counters for the
calls of `simulateGeneration` and of `swapBoards` made by the loop. -/
structure Outcome where
  generation : Int
  stable : Bool
  game : GameOfLife
  steps : Nat
  swaps : Nat
  deriving DecidableEq

/-- The simulation loop of `main`, `remaining` iterations before
`generation <= max_generations` fails, with `generation` a mathematical
integer (`simulationLoop32` has the test and the 32-bit `generation`). -/
def simulationLoop : Nat → Int → GameOfLife → Nat → Nat → Option Outcome
  | 0, generation, game, steps, swaps => some ⟨generation, false, game, steps, swaps⟩
  | remaining + 1, generation, game, steps, swaps =>
    match simulateGeneration game with
    | none => none
    | some (changes, game1) =>
      if changes = 0 then some ⟨generation, true, game1, steps + 1, swaps⟩
      else simulationLoop remaining (generation + 1) (swapBoards game1) (steps + 1) (swaps + 1)

/-- The simulation loop of `main` started at `generation = 1`. -/
def runLoop (max_generations : Int) (game : GameOfLife) : Option Outcome :=
  simulationLoop max_generations.toNat 1 game 0 0

end GameOfLife

/-! ## Predicates used to state the properties -/

namespace GameOfLife

/-- The board `b` is a square array with `n` rows of `n` cells. -/
def Board.Shaped (b : Board) (n : Nat) : Prop :=
  b.length = n ∧ ∀ row ∈ b, row.length = n

instance (b : Board) (n : Nat) : Decidable (b.Shaped n) := by
  unfold Board.Shaped; infer_instance

/-- Every cell of the board is `0` or `1`. -/
def Board.Binary (b : Board) : Prop :=
  ∀ row ∈ b, ∀ c ∈ row, c = 0 ∨ c = 1

instance (b : Board) : Decidable b.Binary := by
  unfold Board.Binary; infer_instance

/-- The class invariant established by the constructor: `actual_size` is
`size + 2` and both boards are `actual_size × actual_size`. -/
def WellFormed (g : GameOfLife) : Prop :=
  0 ≤ g.size ∧ g.actual_size = g.size + 2 ∧
    g.current_board.Shaped (g.size + 2).toNat ∧ g.next_board.Shaped (g.size + 2).toNat

instance (g : GameOfLife) : Decidable g.WellFormed := by
  unfold WellFormed; infer_instance

/-- The cell `(i, j)` is an interior cell of a board of size `n`. -/
def Interior (n i j : Int) : Prop :=
  1 ≤ i ∧ i ≤ n ∧ 1 ≤ j ∧ j ≤ n

instance (n i j : Int) : Decidable (Interior n i j) := by
  unfold Interior; infer_instance

/-- The value `simulateGeneration` computes for the cell `(i, j)`: the rule
applied to the cell and its neighbour count on `current_board`. -/
def nextCell (g : GameOfLife) (i j : Int) : Option Int := do
  let neighbors ← countNeighbors g i j
  let current_state ← g.current_board.read i j
  some (nextState current_state neighbors)

/-- One when the rule changes the cell `(i, j)` of `current_board`, zero otherwise. -/
def cellChange (g : GameOfLife) (i j : Int) : Int :=
  if g.current_board.read i j ≠ nextCell g i j then 1 else 0

/-- The object `g1` is `g` after the step kernel has processed the cells of `region`. -/
structure Stepped (g : GameOfLife) (region : Int → Int → Prop) (g1 : GameOfLife) : Prop where
  size_eq : g1.size = g.size
  actual_size_eq : g1.actual_size = g.actual_size
  current_eq : g1.current_board = g.current_board
  next_shaped : g1.next_board.Shaped (g.size + 2).toNat
  next_in : ∀ a c, region a c → g1.next_board.read a c = nextCell g a c
  next_out : ∀ a c, ¬ region a c → g1.next_board.read a c = g.next_board.read a c

end GameOfLife

namespace GameOfLife

/-- The border of the board (row `0`, row `n + 1`, column `0`, column `n + 1`)
holds only zeros. -/
def Board.GhostDead (b : Board) (n : Int) : Prop :=
  ∀ i j : Int, 0 ≤ i → i ≤ n + 1 → 0 ≤ j → j ≤ n + 1 →
    (i = 0 ∨ i = n + 1 ∨ j = 0 ∨ j = n + 1) → b.read i j = some 0

/-- The cell `(i, j)` of the board, `0` where the board has no such cell. -/
def Board.cell (b : Board) (i j : Int) : Int :=
  (b.read i j).getD 0

/-- The sum of the eight Moore neighbours of `(i, j)`, at the offsets
`(±1, ±1)`, `(±1, 0)`, `(0, ±1)`. -/
def Board.mooreSum (b : Board) (i j : Int) : Int :=
  b.cell (i - 1) (j - 1) + b.cell (i - 1) j + b.cell (i - 1) (j + 1) +
    b.cell i (j - 1) + b.cell i (j + 1) +
    b.cell (i + 1) (j - 1) + b.cell (i + 1) j + b.cell (i + 1) (j + 1)

/-- The object `g1` is `g` after `initialize` has seeded the cells of `region`. -/
structure Seeded (g : GameOfLife) (region : Int → Int → Prop) (g1 : GameOfLife) : Prop where
  size_eq : g1.size = g.size
  actual_size_eq : g1.actual_size = g.actual_size
  next_eq : g1.next_board = g.next_board
  current_shaped : g1.current_board.Shaped (g.size + 2).toNat
  current_in : ∀ a c, region a c →
    g1.current_board.read a c = some 0 ∨ g1.current_board.read a c = some 1
  current_out : ∀ a c, ¬ region a c → g1.current_board.read a c = g.current_board.read a c

/-- The engine states reachable from construction by the public operations. -/
inductive Reachable : GameOfLife → Prop
  | construct (n : Int) (g : GameOfLife) : 1 ≤ n → GameOfLife.new n = some g → Reachable g
  | seed (rand : Nat → Int) (g g1 : GameOfLife) :
      Reachable g → initializeWith rand g = some g1 → Reachable g1
  | step (g g1 : GameOfLife) (changes : Int) :
      Reachable g → simulateGeneration g = some (changes, g1) → Reachable g1
  | swap (g : GameOfLife) : Reachable g → Reachable (swapBoards g)

/-- The invariant of the reachable states: the class invariant, dead ghost cells
and `0`/`1` cells in both boards. -/
def Sound (g : GameOfLife) : Prop :=
  g.WellFormed ∧ g.current_board.GhostDead g.size ∧ g.next_board.GhostDead g.size ∧
    g.current_board.Binary ∧ g.next_board.Binary

end GameOfLife

namespace GameOfLife

/-- The ghost cells of both boards of the object are dead. -/
def GhostDeadBoth (g : GameOfLife) : Prop :=
  g.current_board.GhostDead g.size ∧ g.next_board.GhostDead g.size

end GameOfLife

namespace GameOfLife

/-- One generation of the driver loop that does not stop: a step, then a swap. -/
def generationStep (g : GameOfLife) : Option GameOfLife :=
  (simulateGeneration g).map (fun r => swapBoards r.2)

/-- The configuration obtained from `g` after `k` generations (step and swap). -/
def configAfter : Nat → GameOfLife → Option GameOfLife
  | 0, g => some g
  | k + 1, g => (generationStep g).bind (configAfter k)

end GameOfLife

namespace GameOfLife

/-- The `(n + 2) × (n + 2)` board whose cell `(i, j)` is `f i j`. -/
def boardOf (n : Int) (f : Int → Int → Int) : Board :=
  (List.range (n + 2).toNat).map (fun (i : Nat) =>
    (List.range (n + 2).toNat).map (fun (j : Nat) => f (i : Int) (j : Int)))

/-- One when `i` is `r` or `r + 1`, zero otherwise. -/
def pairInd (r i : Int) : Int :=
  if i = r ∨ i = r + 1 then 1 else 0

/-- The cells of a grid whose only alive cells are the `2 × 2` block with top
left corner `(r, c)`. -/
def blockCell (r c i j : Int) : Int :=
  if (i = r ∨ i = r + 1) ∧ (j = c ∨ j = c + 1) then 1 else 0

/-- The board of size `n` whose only alive cells are the `2 × 2` block with top
left corner `(r, c)`. -/
def blockBoard (n r c : Int) : Board :=
  boardOf n (blockCell r c)

end GameOfLife

namespace GameOfLife

/-- The Life step on a grid given by its cells: the rule of `nextState` on the
interior cells, with the eight Moore neighbours as the count, dead elsewhere. -/
def lifeStep (n : Int) (f : Int → Int → Int) (i j : Int) : Int :=
  if Interior n i j then
    nextState (f i j)
      (f (i - 1) (j - 1) + f (i - 1) j + f (i - 1) (j + 1) + f i (j - 1) + f i (j + 1) +
        f (i + 1) (j - 1) + f (i + 1) j + f (i + 1) (j + 1))
  else 0

end GameOfLife

/-! ## Concrete configurations -/

namespace GameOfLife

/-- The `7 × 7` board of Scenario A: a block at rows 2-3, columns 2-3 of the
`5 × 5` interior. -/
def block5 : Board :=
  [[0, 0, 0, 0, 0, 0, 0],
   [0, 0, 0, 0, 0, 0, 0],
   [0, 0, 1, 1, 0, 0, 0],
   [0, 0, 1, 1, 0, 0, 0],
   [0, 0, 0, 0, 0, 0, 0],
   [0, 0, 0, 0, 0, 0, 0],
   [0, 0, 0, 0, 0, 0, 0]]

/-- The `7 × 7` board of Scenario B: a horizontal blinker in row 3. -/
def blinker5 : Board :=
  [[0, 0, 0, 0, 0, 0, 0],
   [0, 0, 0, 0, 0, 0, 0],
   [0, 0, 0, 0, 0, 0, 0],
   [0, 0, 1, 1, 1, 0, 0],
   [0, 0, 0, 0, 0, 0, 0],
   [0, 0, 0, 0, 0, 0, 0],
   [0, 0, 0, 0, 0, 0, 0]]

/-- An engine of size `5` whose front grid is `front` and whose back grid is
all dead, as after construction and seeding. -/
def engine5 (front : Board) : GameOfLife :=
  { size := 5
    actual_size := 7
    current_board := front
    next_board := List.replicate 7 (List.replicate 7 0) }

end GameOfLife


namespace GameOfLife

/-- The `7 × 7` board with a vertical bar in column 3, rows 2-4: the blinker of
Scenario B after one step. -/
def vbar5 : Board :=
  [[0, 0, 0, 0, 0, 0, 0],
   [0, 0, 0, 0, 0, 0, 0],
   [0, 0, 0, 1, 0, 0, 0],
   [0, 0, 0, 1, 0, 0, 0],
   [0, 0, 0, 1, 0, 0, 0],
   [0, 0, 0, 0, 0, 0, 0],
   [0, 0, 0, 0, 0, 0, 0]]

/-- The `7 × 7` board of Scenario E: a vertical bar in column 3, rows 1-3,
touching the top ghost row. -/
def topbar5 : Board :=
  [[0, 0, 0, 0, 0, 0, 0],
   [0, 0, 0, 1, 0, 0, 0],
   [0, 0, 0, 1, 0, 0, 0],
   [0, 0, 0, 1, 0, 0, 0],
   [0, 0, 0, 0, 0, 0, 0],
   [0, 0, 0, 0, 0, 0, 0],
   [0, 0, 0, 0, 0, 0, 0]]

/-- The `7 × 7` board with a horizontal bar in row 2, columns 2-4. -/
def hbar5 : Board :=
  [[0, 0, 0, 0, 0, 0, 0],
   [0, 0, 0, 0, 0, 0, 0],
   [0, 0, 1, 1, 1, 0, 0],
   [0, 0, 0, 0, 0, 0, 0],
   [0, 0, 0, 0, 0, 0, 0],
   [0, 0, 0, 0, 0, 0, 0],
   [0, 0, 0, 0, 0, 0, 0]]

end GameOfLife

namespace GameOfLife

/-- One when `i` is `r`, zero otherwise. -/
def eqInd (r i : Int) : Int :=
  if i = r then 1 else 0

/-- The cells of a grid whose only alive cell is `(i0, j0)`. -/
def loneCell (i0 j0 i j : Int) : Int :=
  if i = i0 ∧ j = j0 then 1 else 0

/-- The board of size `n` whose only alive cell is `(i0, j0)`. -/
def loneBoard (n i0 j0 : Int) : Board :=
  boardOf n (loneCell i0 j0)

/-- The all-dead board of size `n`. -/
def deadBoard (n : Int) : Board :=
  boardOf n (fun _ _ => 0)

end GameOfLife

namespace GameOfLife

/-- The `7 × 7` board `b` is the board `b'` translated up by one row. -/
def RowShift (b b' : Board) : Prop :=
  ∀ i j : Int, 0 ≤ i → i ≤ 5 → 0 ≤ j → j ≤ 6 → b.read i j = b'.read (i + 1) j

end GameOfLife

namespace GameOfLife

/-- The character `printBoard` writes for a cell: `current_board[i][j] ? '*' : '.'`. -/
def cellChar (c : Int) : Char :=
  if c ≠ 0 then '*' else '.'

/-- The body of the inner loop of `printBoard`:
`cout << (current_board[i][j] ? '*' : '.') << ' '`.  The state is the text
written to `cout` so far. -/
def printCell (g : GameOfLife) (i j : Int) (out : List Char) : Option (List Char) :=
  (g.current_board.read i j).map (fun c => out ++ [cellChar c, ' '])

/-- The body of the outer loop of `printBoard`: the cells of row `i`, then
`cout << '\n'`. -/
def printRow (g : GameOfLife) (i : Int) (out : List Char) : Option (List Char) :=
  (forRange (fun j => printCell g i j) 1 g.size.toNat out).map (fun o => o ++ ['\n'])

/-- The method `printBoard()`: the text it writes to `cout`. -/
def printBoard (g : GameOfLife) : Option (List Char) :=
  (forRange (fun i => printRow g i) 1 g.size.toNat ("\nBoard state:\n").toList).map
    (fun o => o ++ ['\n'])

/-- The line the specification describes for row `i`: the cells of the row as
`'*'` or `'.'`, separated by single spaces, terminated by a newline. -/
def renderLine (g : GameOfLife) (i : Int) : List Char :=
  List.intersperse ' '
      ((List.range g.size.toNat).map (fun (j : Nat) =>
        cellChar (g.current_board.cell i ((j : Int) + 1)))) ++ ['\n']

/-- The text the specification describes: a picture of the interior only, one
line per interior row in order. -/
def renderPicture (g : GameOfLife) : List Char :=
  ((List.range g.size.toNat).map (fun (i : Nat) => renderLine g ((i : Int) + 1))).flatten

/-- The line `printBoard` writes for row `i`: every cell of the row followed by
a space, then a newline. -/
def printedLine (g : GameOfLife) (i : Int) : List Char :=
  ((List.range g.size.toNat).map (fun (j : Nat) =>
    [cellChar (g.current_board.cell i ((j : Int) + 1)), ' '])).flatten ++ ['\n']

/-- The text `printBoard` writes: the heading, one `printedLine` per interior
row in order, and a closing newline. -/
def printedText (g : GameOfLife) : List Char :=
  ("\nBoard state:\n").toList ++
    ((List.range g.size.toNat).map (fun (i : Nat) => printedLine g ((i : Int) + 1))).flatten ++
    ['\n']

end GameOfLife

namespace GameOfLife

/-- The sum of those of the eight Moore neighbours of `(i, j)` that are
interior cells of a board of size `n`. -/
def Board.interiorSum (b : Board) (n i j : Int) : Int :=
  (if Interior n (i - 1) (j - 1) then b.cell (i - 1) (j - 1) else 0) +
    (if Interior n (i - 1) j then b.cell (i - 1) j else 0) +
    (if Interior n (i - 1) (j + 1) then b.cell (i - 1) (j + 1) else 0) +
    (if Interior n i (j - 1) then b.cell i (j - 1) else 0) +
    (if Interior n i (j + 1) then b.cell i (j + 1) else 0) +
    (if Interior n (i + 1) (j - 1) then b.cell (i + 1) (j - 1) else 0) +
    (if Interior n (i + 1) j then b.cell (i + 1) j else 0) +
    (if Interior n (i + 1) (j + 1) then b.cell (i + 1) (j + 1) else 0)

/-- The bare `n × n` grid of the interior cells of a board, without the ghost
border; the interior cell `(i, j)` is at row `i - 1`, column `j - 1`. -/
def interiorOf (n : Int) (b : Board) : List (List Int) :=
  (List.range n.toNat).map (fun (a : Nat) =>
    (List.range n.toNat).map (fun (c : Nat) => b.cell ((a : Int) + 1) ((c : Int) + 1)))

/-- A cell of a bare `n × n` grid read with an explicit boundary check: a
position out of range is dead. -/
def bareRead (n : Int) (bare : List (List Int)) (a c : Int) : Int :=
  if 0 ≤ a ∧ a < n ∧ 0 ≤ c ∧ c < n then
    match bare[a.toNat]? with
    | some row => (row[c.toNat]?).getD 0
    | none => 0
  else 0

/-- The neighbour count of the kernel with explicit boundary checks. -/
def bareNeighbors (n : Int) (bare : List (List Int)) (a c : Int) : Int :=
  bareRead n bare (a - 1) (c - 1) + bareRead n bare (a - 1) c + bareRead n bare (a - 1) (c + 1) +
    bareRead n bare a (c - 1) + bareRead n bare a (c + 1) +
    bareRead n bare (a + 1) (c - 1) + bareRead n bare (a + 1) c + bareRead n bare (a + 1) (c + 1)

/-- The next state of a cell in the kernel with explicit boundary checks. -/
def bareNext (n : Int) (bare : List (List Int)) (a c : Int) : Int :=
  nextState (bareRead n bare a c) (bareNeighbors n bare a c)

/-- The kernel on the bare `n × n` grid with explicit boundary checks: the next
grid and the number of cells that change. -/
def bareKernel (n : Int) (bare : List (List Int)) : List (List Int) × Int :=
  ((List.range n.toNat).map (fun (a : Nat) =>
      (List.range n.toNat).map (fun (c : Nat) => bareNext n bare a c)),
    ((List.range n.toNat).map (fun (a : Nat) =>
      ((List.range n.toNat).map (fun (c : Nat) =>
        if bareRead n bare a c ≠ bareNext n bare a c then (1 : Int) else 0)).sum)).sum)

end GameOfLife

namespace GameOfLife

/-- The index pairs `countNeighbors(row, col)` reads, in the order of the source. -/
def neighborIndices (row col : Int) : List (Int × Int) :=
  [(row - 1, col - 1), (row - 1, col), (row - 1, col + 1), (row, col - 1), (row, col + 1),
    (row + 1, col - 1), (row + 1, col), (row + 1, col + 1)]

/-- Read the board at each index pair of a list, in order; `none` as soon as
one read is out of range. -/
def Board.readAll (b : Board) : List (Int × Int) → Option (List Int)
  | [] => some []
  | p :: ps =>
    match b.read p.1 p.2 with
    | none => none
    | some v => (b.readAll ps).map (fun vs => v :: vs)

end GameOfLife

/-! ## The `int` counters at machine width

The counter `changes` of `simulateGeneration`, the accumulator `count` of
`countAliveCells` and the loop variable `generation` of `main` are 32-bit
`int`s.  The definitions above carry them as mathematical integers, which
is what the properties of the grids need; the definitions below are the same
code with every operation on these three variables reduced to the `int` range. -/

namespace GameOfLife

/-- The value an `int` holds after an operation whose exact result is `x`:
two's complement wrap-around at 32 bits. -/
def wrapInt (x : Int) : Int :=
  (x + 2147483648) % 4294967296 - 2147483648

/-- The body of the inner loop of `simulateGeneration`, with `changes++` on a
32-bit `int`. -/
def cellStep32 (i j : Int) (st : Int × GameOfLife) : Option (Int × GameOfLife) := do
  let neighbors ← countNeighbors st.2 i j
  let current_state ← st.2.current_board.read i j
  let nb ← st.2.next_board.write i j (nextState current_state neighbors)
  some (if current_state ≠ nextState current_state neighbors then wrapInt (st.1 + 1) else st.1,
        { st.2 with next_board := nb })

/-- The method `simulateGeneration()` with `int changes` at 32 bits: the value
returned and the object after the call. -/
def simulateGeneration32 (g : GameOfLife) : Option (Int × GameOfLife) :=
  forRange (fun i st => forRange (fun j => cellStep32 i j) 1 st.2.size.toNat st)
    1 g.size.toNat (0, g)

/-- The body of the inner loop of `countAliveCells`, with `count += ...` on a
32-bit `int`. -/
def aliveCell32 (g : GameOfLife) (i j : Int) (count : Int) : Option Int :=
  (g.current_board.read i j).map (fun c => wrapInt (count + c))

/-- The method `countAliveCells()` with `int count` at 32 bits. -/
def countAliveCells32 (g : GameOfLife) : Option Int :=
  forRange (fun i count => forRange (fun j => aliveCell32 g i j) 1 g.size.toNat count)
    1 g.size.toNat 0

/-- The simulation loop of `main` with `int generation` at 32 bits:
`for (generation = 1; generation <= max_generations; generation++)`, the test
made at every iteration.  `fuel` bounds the number of iterations looked at;
`none` with no fuel left means that the loop has not ended within them. -/
def simulationLoop32 (max_generations : Int) :
    Nat → Int → GameOfLife → Nat → Nat → Option Outcome
  | 0, _, _, _, _ => none
  | fuel + 1, generation, game, steps, swaps =>
    if generation ≤ max_generations then
      match simulateGeneration32 game with
      | none => none
      | some (changes, game1) =>
        if changes = 0 then some ⟨generation, true, game1, steps + 1, swaps⟩
        else
          simulationLoop32 max_generations fuel (wrapInt (generation + 1)) (swapBoards game1)
            (steps + 1) (swaps + 1)
    else some ⟨generation, false, game, steps, swaps⟩

/-- The simulation loop of `main` started at `generation = 1`, looked at for
`fuel` iterations. -/
def runLoop32 (fuel : Nat) (max_generations : Int) (game : GameOfLife) : Option Outcome :=
  simulationLoop32 max_generations fuel 1 game 0 0

/-- The value returned by the `k`-th step (`k ≥ 1`) of the 32-bit kernel,
applied to the configuration obtained after `k - 1` generations. -/
def changesOfStep32 (g : GameOfLife) (k : Nat) : Option Int :=
  (configAfter (k - 1) g).bind (fun c => (simulateGeneration32 c).map Prod.fst)

end GameOfLife

namespace GameOfLife

/-- One when `1 ≤ a ≤ n`, zero otherwise. -/
def inRange (n a : Int) : Int :=
  if 1 ≤ a ∧ a ≤ n then 1 else 0

/-- One when `a` is `1` or `n`, zero otherwise. -/
def cornerInd (n a : Int) : Int :=
  if a = 1 ∨ a = n then 1 else 0

/-- The cells of the grid of size `n` whose interior cells are all alive. -/
def fullCell (n i j : Int) : Int :=
  if Interior n i j then 1 else 0

/-- The engine of size `n` whose front grid has every interior cell alive and
whose back grid is all dead, as after construction and a seeding that marks
every cell. -/
def fullEngine (n : Int) : GameOfLife :=
  { size := n
    actual_size := n + 2
    current_board := boardOf n (fullCell n)
    next_board := deadBoard n }

end GameOfLife

namespace GameOfLife

/-- An engine of size `2` whose front grid holds `2147483647` at `(1,1)` and
`1` at `(1,2)`. -/
def bigCellEngine : GameOfLife :=
  { size := 2
    actual_size := 4
    current_board := [[0, 0, 0, 0], [0, 2147483647, 1, 0], [0, 0, 0, 0], [0, 0, 0, 0]]
    next_board := List.replicate 4 (List.replicate 4 0) }

end GameOfLife

namespace GameOfLife

/-- The object is a well-formed engine of size `5` with dead ghost cells whose
front grid is one of the two boards `a` and `b`. -/
def OscPhase (a b : Board) (g : GameOfLife) : Prop :=
  g.WellFormed ∧ g.size = 5 ∧ GhostDeadBoth g ∧
    (g.current_board = a ∨ g.current_board = b)

end GameOfLife

namespace GameOfLife

/-- The number of alive interior cells of the grid of size `n` given by `f`. -/
def aliveCount (n : Int) (f : Int → Int → Int) : Int :=
  (((Finset.Icc 1 n ×ˢ Finset.Icc 1 n).filter (fun p => f p.1 p.2 = 1)).card : Int)

/-- A random stream under which `initialize` marks exactly the cells `(1,3)`,
`(2,3)`, `(3,3)` of a board of size `5`: the calls number 2, 7 and 12 return a
value below `20`. -/
def topbarRand (k : Nat) : Int :=
  if k = 2 ∨ k = 7 ∨ k = 12 then 0 else 50

end GameOfLife

/-! # Properties -/

/-! ## Boards -/

namespace GameOfLife

theorem Board.read_eq_some_of_shaped {b : Board} {n : Nat} (hb : b.Shaped n) {i j : Int}
    (hi0 : 0 ≤ i) (hi : i < n) (hj0 : 0 ≤ j) (hj : j < n) : ∃ v, b.read i j = some v := by
  obtain ⟨hlen, hrows⟩ := hb
  have hi' : i.toNat < b.length := by omega
  have hrow : (b[i.toNat]).length = n := hrows _ (List.getElem_mem _)
  have hj' : j.toNat < (b[i.toNat]).length := by omega
  refine ⟨(b[i.toNat])[j.toNat], ?_⟩
  simp [Board.read, hi0, hj0, List.getElem?_eq_getElem hi', List.getElem?_eq_getElem hj']

theorem Board.read_bounds {b : Board} {n : Nat} (hb : b.Shaped n) {i j : Int} {v : Int}
    (h : b.read i j = some v) : 0 ≤ i ∧ i < n ∧ 0 ≤ j ∧ j < n := by
  obtain ⟨hlen, hrows⟩ := hb
  unfold Board.read at h
  split at h
  · rename_i h0
    split at h
    · rename_i row hrow
      have hmem : row ∈ b := List.getElem?_mem hrow
      have hi : i.toNat < b.length := (List.getElem?_eq_some_iff.mp hrow).1
      have hj : j.toNat < row.length := (List.getElem?_eq_some_iff.mp h).1
      have := hrows row hmem
      omega
    · simp at h
  · simp at h

theorem Board.write_spec {b : Board} {n : Nat} (hb : b.Shaped n) {i j : Int} (v : Int)
    (hi0 : 0 ≤ i) (hi : i < n) (hj0 : 0 ≤ j) (hj : j < n) :
    ∃ b', b.write i j v = some b' ∧ b'.Shaped n ∧
      ∀ a c, b'.read a c = if a = i ∧ c = j then some v else b.read a c := by
  obtain ⟨hlen, hrows⟩ := hb
  have hi' : i.toNat < b.length := by omega
  have hrow : (b[i.toNat]).length = n := hrows _ (List.getElem_mem _)
  have hj' : j.toNat < (b[i.toNat]).length := by omega
  refine ⟨b.set i.toNat ((b[i.toNat]).set j.toNat v), ?_, ⟨?_, ?_⟩, ?_⟩
  · simp [Board.write, hi0, hj0, List.getElem?_eq_getElem hi', hj']
  · simpa using hlen
  · intro row hmem
    rcases List.mem_or_eq_of_mem_set hmem with h | h
    · exact hrows row h
    · rw [h, List.length_set]; exact hrow
  · intro a c
    unfold Board.read
    by_cases hac : 0 ≤ a ∧ 0 ≤ c
    · rw [if_pos hac, if_pos hac, List.getElem?_set]
      by_cases ha : i.toNat = a.toNat
      · have hai : a = i := by omega
        subst hai
        simp only [if_true, hi', true_and]
        rw [List.getElem?_eq_getElem hi']
        simp only [List.getElem?_set]
        by_cases hc : j.toNat = c.toNat
        · have hcj : c = j := by omega
          subst hcj
          simp [hj']
        · have hcj : c ≠ j := by omega
          simp [hc, hcj]
      · have hai : a ≠ i := by omega
        simp [ha, hai]
    · have : ¬ (a = i ∧ c = j) := by omega
      simp [hac, this]

/-! ## Counted loops -/

/-- Invariant rule for `forRange`: an invariant indexed by the loop variable that
holds on entry and is carried by every iteration holds on exit, and the loop
returns. -/
theorem forRange_inv {σ : Type} (body : Int → σ → Option σ) (P : Int → σ → Prop) :
    ∀ (cnt : Nat) (lo : Int) (s : σ), P lo s →
      (∀ k s, lo ≤ k → k < lo + cnt → P k s → ∃ s', body k s = some s' ∧ P (k + 1) s') →
      ∃ s', forRange body lo cnt s = some s' ∧ P (lo + cnt) s' := by
  intro cnt
  induction cnt with
  | zero =>
    intro lo s h0 _
    exact ⟨s, rfl, by simpa using h0⟩
  | succ n ih =>
    intro lo s h0 hstep
    obtain ⟨s1, hs1, hP1⟩ := hstep lo s (le_refl _) (by push_cast; omega) h0
    obtain ⟨s2, hs2, hP2⟩ := ih (lo + 1) s1 hP1 (by
      intro k s hk1 hk2 hP
      exact hstep k s (by omega) (by push_cast; omega) hP)
    refine ⟨s2, ?_, ?_⟩
    · simp [forRange, hs1, hs2]
    · have : lo + ((n + 1 : Nat) : Int) = lo + 1 + n := by push_cast; ring
      rw [this]; exact hP2

theorem sum_Ico_succ (f : Int → Int) {lo j : Int} (h : lo ≤ j) :
    ∑ c ∈ Finset.Ico lo (j + 1), f c = ∑ c ∈ Finset.Ico lo j, f c + f j := by
  have hins : Finset.Ico lo (j + 1) = insert j (Finset.Ico lo j) := by
    ext x; simp only [Finset.mem_Ico, Finset.mem_insert]; omega
  rw [hins, Finset.sum_insert (by simp), add_comm]

end GameOfLife

/-! ## The step kernel -/

namespace GameOfLife

theorem countNeighbors_congr {g g1 : GameOfLife} (h : g1.current_board = g.current_board)
    (i j : Int) : countNeighbors g1 i j = countNeighbors g i j := by
  simp [countNeighbors, h]

theorem nextCell_congr {g g1 : GameOfLife} (h : g1.current_board = g.current_board)
    (i j : Int) : nextCell g1 i j = nextCell g i j := by
  simp [nextCell, countNeighbors_congr h, h]

theorem cellChange_congr {g g1 : GameOfLife} (h : g1.current_board = g.current_board)
    (i j : Int) : cellChange g1 i j = cellChange g i j := by
  simp [cellChange, nextCell_congr h, h]

/-- On an interior cell `countNeighbors` returns, and what it returns is the sum
of the eight Moore neighbours on `current_board`. -/
theorem countNeighbors_eq_mooreSum {g : GameOfLife} {n : Int} (hn : 0 ≤ n)
    (hb : g.current_board.Shaped (n + 2).toNat) {i j : Int} (hij : Interior n i j) :
    countNeighbors g i j = some (g.current_board.mooreSum i j) := by
  obtain ⟨hi1, hi2, hj1, hj2⟩ := hij
  have hcast : (((n + 2).toNat : Nat) : Int) = n + 2 := by omega
  obtain ⟨v1, h1⟩ := Board.read_eq_some_of_shaped hb (i := i - 1) (j := j - 1)
    (by omega) (by omega) (by omega) (by omega)
  obtain ⟨v2, h2⟩ := Board.read_eq_some_of_shaped hb (i := i - 1) (j := j)
    (by omega) (by omega) (by omega) (by omega)
  obtain ⟨v3, h3⟩ := Board.read_eq_some_of_shaped hb (i := i - 1) (j := j + 1)
    (by omega) (by omega) (by omega) (by omega)
  obtain ⟨v4, h4⟩ := Board.read_eq_some_of_shaped hb (i := i) (j := j - 1)
    (by omega) (by omega) (by omega) (by omega)
  obtain ⟨v5, h5⟩ := Board.read_eq_some_of_shaped hb (i := i) (j := j + 1)
    (by omega) (by omega) (by omega) (by omega)
  obtain ⟨v6, h6⟩ := Board.read_eq_some_of_shaped hb (i := i + 1) (j := j - 1)
    (by omega) (by omega) (by omega) (by omega)
  obtain ⟨v7, h7⟩ := Board.read_eq_some_of_shaped hb (i := i + 1) (j := j)
    (by omega) (by omega) (by omega) (by omega)
  obtain ⟨v8, h8⟩ := Board.read_eq_some_of_shaped hb (i := i + 1) (j := j + 1)
    (by omega) (by omega) (by omega) (by omega)
  simp [countNeighbors, Board.mooreSum, Board.cell, h1, h2, h3, h4, h5, h6, h7, h8]

theorem countNeighbors_eq_some {g : GameOfLife} {n : Int} (hn : 0 ≤ n)
    (hb : g.current_board.Shaped (n + 2).toNat) {i j : Int} (hij : Interior n i j) :
    ∃ s, countNeighbors g i j = some s :=
  ⟨_, countNeighbors_eq_mooreSum hn hb hij⟩

theorem nextCell_eq_some {g : GameOfLife} {n : Int} (hn : 0 ≤ n)
    (hb : g.current_board.Shaped (n + 2).toNat) {i j : Int} (hij : Interior n i j) :
    ∃ c s, g.current_board.read i j = some c ∧ countNeighbors g i j = some s ∧
      nextCell g i j = some (nextState c s) := by
  obtain ⟨s, hs⟩ := countNeighbors_eq_some hn hb hij
  obtain ⟨hi1, hi2, hj1, hj2⟩ := hij
  obtain ⟨c, hc⟩ := Board.read_eq_some_of_shaped hb (i := i) (j := j)
    (by omega) (by omega) (by omega) (by omega)
  exact ⟨c, s, hc, hs, by simp [nextCell, hs, hc]⟩

theorem cellStep_spec {g g1 : GameOfLife} {n : Int} (hn : 0 ≤ n)
    (hcur : g1.current_board = g.current_board)
    (hb : g.current_board.Shaped (n + 2).toNat)
    (hnb : g1.next_board.Shaped (n + 2).toNat) {i j : Int} (hij : Interior n i j)
    (ch : Int) :
    ∃ nb, cellStep i j (ch, g1) = some (ch + cellChange g i j, { g1 with next_board := nb }) ∧
      nb.Shaped (n + 2).toNat ∧
      ∀ a c, nb.read a c = if a = i ∧ c = j then nextCell g i j else g1.next_board.read a c := by
  obtain ⟨c, s, hc, hs, hnext⟩ := nextCell_eq_some hn hb hij
  obtain ⟨hi1, hi2, hj1, hj2⟩ := hij
  obtain ⟨nb, hw, hshape, hread⟩ := Board.write_spec hnb (i := i) (j := j) (nextState c s)
    (by omega) (by omega) (by omega) (by omega)
  refine ⟨nb, ?_, hshape, ?_⟩
  · have hs1 : countNeighbors g1 i j = some s := by rw [countNeighbors_congr hcur]; exact hs
    have hc1 : g1.current_board.read i j = some c := by rw [hcur]; exact hc
    by_cases hne : c = nextState c s
    · have : cellChange g i j = 0 := by
        simp only [cellChange, hc, hnext]; rw [if_neg]; simpa using hne
      simp [cellStep, hs1, hc1, hw, this]
      exact hne
    · have : cellChange g i j = 1 := by
        simp only [cellChange, hc, hnext]; rw [if_pos]; simpa using hne
      simp [cellStep, hs1, hc1, hw, this, hne]
  · intro a c'
    rw [hread, hnext]

end GameOfLife

namespace GameOfLife

theorem stepped_congr {g g1 : GameOfLife} {r r' : Int → Int → Prop}
    (h : ∀ a c, r a c ↔ r' a c) (hst : Stepped g r g1) : Stepped g r' g1 :=
  { size_eq := hst.size_eq
    actual_size_eq := hst.actual_size_eq
    current_eq := hst.current_eq
    next_shaped := hst.next_shaped
    next_in := fun a c hr => hst.next_in a c ((h a c).mpr hr)
    next_out := fun a c hr => hst.next_out a c (fun hr' => hr ((h a c).mp hr')) }

/-- The inner loop of `simulateGeneration` on row `i`. -/
theorem rowLoop_spec {g : GameOfLife} (hwf : g.WellFormed) {i : Int} (hi1 : 1 ≤ i)
    (hi2 : i ≤ g.size) (ch : Int) (g1 : GameOfLife)
    (hst : Stepped g (fun a c => 1 ≤ a ∧ a < i ∧ 1 ≤ c ∧ c ≤ g.size) g1) :
    ∃ g2, forRange (fun j => cellStep i j) 1 g1.size.toNat (ch, g1)
        = some (ch + ∑ c ∈ Finset.Ico 1 (g.size + 1), cellChange g i c, g2) ∧
      Stepped g (fun a c => 1 ≤ a ∧ a < i + 1 ∧ 1 ≤ c ∧ c ≤ g.size) g2 := by
  obtain ⟨hsize, hact, hcb, hnb⟩ := hwf
  have key := forRange_inv (fun j => cellStep i j)
    (fun j st => Stepped g (fun a c => (1 ≤ a ∧ a < i ∧ 1 ≤ c ∧ c ≤ g.size) ∨
        (a = i ∧ 1 ≤ c ∧ c < j)) st.2 ∧
      st.1 = ch + ∑ c ∈ Finset.Ico 1 j, cellChange g i c)
    g1.size.toNat 1 (ch, g1)
    ⟨stepped_congr (fun a c => by constructor <;> intro h <;> omega) hst, by simp⟩
    (by
      rintro k ⟨ch1, g2⟩ hk1 hk2 ⟨hst2, hch⟩
      simp only at hst2 hch
      have hk3 : k ≤ g.size := by rw [hst.size_eq] at hk2; omega
      obtain ⟨nb, hstep, hshape, hread⟩ := cellStep_spec hsize hst2.current_eq hcb
        hst2.next_shaped (i := i) (j := k) ⟨hi1, hi2, hk1, hk3⟩ ch1
      refine ⟨_, hstep, ?_, ?_⟩
      · refine ⟨hst2.size_eq, hst2.actual_size_eq, hst2.current_eq, hshape, ?_, ?_⟩
        · intro a c hr
          simp only
          rw [hread]
          by_cases hac : a = i ∧ c = k
          · rw [if_pos hac, hac.1, hac.2]
          · rw [if_neg hac]
            exact hst2.next_in a c (by omega)
        · intro a c hr
          simp only
          rw [hread, if_neg (by omega)]
          exact hst2.next_out a c (by omega)
      · simp only
        rw [sum_Ico_succ _ hk1, hch]; ring)
  obtain ⟨⟨ch2, g2⟩, hrun, hst2, hch⟩ := key
  simp only at hst2 hch
  have hend : (1 : Int) + (g1.size.toNat : Int) = g.size + 1 := by
    rw [hst.size_eq]; omega
  rw [hend] at hst2 hch
  refine ⟨g2, ?_, stepped_congr (fun a c => by constructor <;> intro h <;> omega) hst2⟩
  rw [hrun, hch]

/-- The result of `simulateGeneration` on a well-formed object: it returns, the
count is the number of interior cells the rule changes, and the object is the
old one with the interior of `next_board` overwritten by the rule. -/
theorem simulateGeneration_spec {g : GameOfLife} (hwf : g.WellFormed) :
    ∃ g1, simulateGeneration g
        = some (∑ a ∈ Finset.Ico 1 (g.size + 1), ∑ c ∈ Finset.Ico 1 (g.size + 1),
            cellChange g a c, g1) ∧
      Stepped g (Interior g.size) g1 := by
  have hsize := hwf.1
  have key := forRange_inv
    (fun i st => forRange (fun j => cellStep i j) 1 st.2.size.toNat st)
    (fun i st => Stepped g (fun a c => 1 ≤ a ∧ a < i ∧ 1 ≤ c ∧ c ≤ g.size) st.2 ∧
      st.1 = ∑ a ∈ Finset.Ico 1 i, ∑ c ∈ Finset.Ico 1 (g.size + 1), cellChange g a c)
    g.size.toNat 1 (0, g)
    ⟨⟨rfl, rfl, rfl, hwf.2.2.2, fun a c hr => by omega, fun a c _ => rfl⟩, by simp⟩
    (by
      rintro k ⟨ch1, g2⟩ hk1 hk2 ⟨hst2, hch⟩
      simp only at hst2 hch
      obtain ⟨g3, hrun, hst3⟩ := rowLoop_spec hwf hk1 (by omega) ch1 g2 hst2
      refine ⟨_, hrun, hst3, ?_⟩
      simp only
      rw [sum_Ico_succ _ hk1, hch])
  obtain ⟨⟨ch2, g2⟩, hrun, hst2, hch⟩ := key
  simp only at hst2 hch
  have hend : (1 : Int) + (g.size.toNat : Int) = g.size + 1 := by omega
  rw [hend] at hst2 hch
  refine ⟨g2, ?_, stepped_congr (fun a c => by unfold Interior; constructor <;> intro h <;> omega) hst2⟩
  unfold simulateGeneration
  rw [hrun, hch]

end GameOfLife

/-! ## Invariants -/

namespace GameOfLife

theorem nextState_binary (c s : Int) : nextState c s = 0 ∨ nextState c s = 1 := by
  unfold nextState; split_ifs <;> simp

theorem Board.binary_iff_read (b : Board) :
    b.Binary ↔ ∀ i j v, b.read i j = some v → v = 0 ∨ v = 1 := by
  constructor
  · intro hb i j v h
    unfold Board.read at h
    split at h
    · split at h
      · rename_i row hrow
        exact hb row (List.getElem?_mem hrow) v (List.getElem?_mem h)
      · simp at h
    · simp at h
  · intro h row hrow c hc
    obtain ⟨i, hi⟩ := List.mem_iff_getElem?.mp hrow
    obtain ⟨j, hj⟩ := List.mem_iff_getElem?.mp hc
    apply h (i : Int) (j : Int) c
    simp [Board.read, hi, hj]

/-- Two boards of the same shape with the same cells are the same board. -/
theorem Board.ext_read {b b' : Board} {n : Nat} (hb : b.Shaped n) (hb' : b'.Shaped n)
    (h : ∀ i j : Int, 0 ≤ i → i < n → 0 ≤ j → j < n → b.read i j = b'.read i j) : b = b' := by
  apply List.ext_getElem (by rw [hb.1, hb'.1])
  intro i hi hi'
  have hr : (b[i]).length = n := hb.2 _ (List.getElem_mem _)
  have hr' : (b'[i]).length = n := hb'.2 _ (List.getElem_mem _)
  apply List.ext_getElem (by rw [hr, hr'])
  intro j hj hj'
  have hin : i < n := by rw [← hb.1]; exact hi
  have hjn : j < n := by rw [← hr]; exact hj
  have := h (i : Int) (j : Int) (by omega) (by omega) (by omega) (by omega)
  simpa [Board.read, List.getElem?_eq_getElem hi, List.getElem?_eq_getElem hi',
    List.getElem?_eq_getElem hj, List.getElem?_eq_getElem hj'] using this

theorem Board.cell_of_read {b : Board} {i j v : Int} (h : b.read i j = some v) :
    b.cell i j = v := by
  simp [Board.cell, h]

theorem replicate_shaped (n : Nat) : Board.Shaped (List.replicate n (List.replicate n 0)) n := by
  constructor
  · simp
  · intro row hrow
    rw [List.eq_of_mem_replicate hrow]; simp

theorem replicate_read {n : Nat} {i j : Int} (hi0 : 0 ≤ i) (hi : i < n) (hj0 : 0 ≤ j)
    (hj : j < n) : Board.read (List.replicate n (List.replicate n 0)) i j = some 0 := by
  have hi' : i.toNat < n := by omega
  have hj' : j.toNat < n := by omega
  simp [Board.read, hi0, hj0, List.getElem?_replicate, hi', hj']

theorem replicate_binary (n : Nat) : Board.Binary (List.replicate n (List.replicate n 0)) := by
  intro row hrow c hc
  rw [List.eq_of_mem_replicate hrow] at hc
  exact Or.inl (List.eq_of_mem_replicate hc)

/-- The constructor returns for every `board_size ≥ -2`, and the object it
builds satisfies the invariant. -/
theorem new_sound {n : Int} (hn : 0 ≤ n) :
    ∃ g, GameOfLife.new n = some g ∧ g.size = n ∧ g.Sound := by
  refine ⟨_, by unfold GameOfLife.new; rw [if_neg (by omega)], rfl, ?_⟩
  have hcast : (((n + 2).toNat : Nat) : Int) = n + 2 := by omega
  refine ⟨⟨hn, rfl, replicate_shaped _, replicate_shaped _⟩, ?_, ?_,
    replicate_binary _, replicate_binary _⟩
  · intro i j hi0 hi hj0 hj _
    simp only at hi hj
    exact replicate_read hi0 (by omega) hj0 (by omega)
  · intro i j hi0 hi hj0 hj _
    simp only at hi hj
    exact replicate_read hi0 (by omega) hj0 (by omega)

theorem stepped_sound {g g1 : GameOfLife} (hs : g.Sound) (hst : Stepped g (Interior g.size) g1) :
    g1.Sound := by
  obtain ⟨hwf, hgc, hgn, hbc, hbn⟩ := hs
  refine ⟨⟨?_, ?_, ?_, ?_⟩, ?_, ?_, ?_, ?_⟩
  · rw [hst.size_eq]; exact hwf.1
  · rw [hst.size_eq, hst.actual_size_eq]; exact hwf.2.1
  · rw [hst.size_eq, hst.current_eq]; exact hwf.2.2.1
  · rw [hst.size_eq]; exact hst.next_shaped
  · rw [hst.size_eq, hst.current_eq]; exact hgc
  · rw [hst.size_eq]
    intro i j hi0 hi hj0 hj hghost
    rw [hst.next_out i j (by unfold Interior; omega)]
    exact hgn i j hi0 hi hj0 hj hghost
  · rw [hst.current_eq]; exact hbc
  · rw [Board.binary_iff_read]
    intro i j v hv
    by_cases hint : Interior g.size i j
    · rw [hst.next_in i j hint] at hv
      obtain ⟨c, s, _, _, hnext⟩ := nextCell_eq_some hwf.1 hwf.2.2.1 hint
      rw [hnext] at hv
      have := nextState_binary c s
      simp at hv
      rw [← hv]; exact this
    · rw [hst.next_out i j hint] at hv
      exact (Board.binary_iff_read _).mp hbn i j v hv

theorem swapBoards_sound {g : GameOfLife} (hs : g.Sound) : (swapBoards g).Sound := by
  obtain ⟨⟨h1, h2, h3, h4⟩, hgc, hgn, hbc, hbn⟩ := hs
  exact ⟨⟨h1, h2, h4, h3⟩, hgn, hgc, hbn, hbc⟩

end GameOfLife

/-! ## Seeding -/

namespace GameOfLife

theorem seeded_congr {g g1 : GameOfLife} {r r' : Int → Int → Prop}
    (h : ∀ a c, r a c ↔ r' a c) (hst : Seeded g r g1) : Seeded g r' g1 :=
  { size_eq := hst.size_eq
    actual_size_eq := hst.actual_size_eq
    next_eq := hst.next_eq
    current_shaped := hst.current_shaped
    current_in := fun a c hr => hst.current_in a c ((h a c).mpr hr)
    current_out := fun a c hr => hst.current_out a c (fun hr' => hr ((h a c).mp hr')) }

theorem initCell_spec (rand : Nat → Int) {g1 : GameOfLife} {n : Int} (hn : 0 ≤ n)
    (hcb : g1.current_board.Shaped (n + 2).toNat) {i j : Int} (hij : Interior n i j)
    (calls : Nat) :
    ∃ cb v, initCell rand i j (calls, g1) = some (calls + 1, { g1 with current_board := cb }) ∧
      cb.Shaped (n + 2).toNat ∧ (v = 0 ∨ v = 1) ∧
      ∀ a c, cb.read a c = if a = i ∧ c = j then some v else g1.current_board.read a c := by
  obtain ⟨hi1, hi2, hj1, hj2⟩ := hij
  obtain ⟨cb, hw, hshape, hread⟩ := Board.write_spec hcb (i := i) (j := j)
    (if (rand calls).tmod 100 < 20 then 1 else 0) (by omega) (by omega) (by omega) (by omega)
  refine ⟨cb, _, ?_, hshape, ?_, hread⟩
  · simp [initCell, hw]
  · split_ifs <;> simp

/-- The inner loop of `initialize` on row `i`. -/
theorem seedRow_spec (rand : Nat → Int) {g : GameOfLife} (hwf : g.WellFormed) {i : Int}
    (hi1 : 1 ≤ i) (hi2 : i ≤ g.size) (calls : Nat) (g1 : GameOfLife)
    (hst : Seeded g (fun a c => 1 ≤ a ∧ a < i ∧ 1 ≤ c ∧ c ≤ g.size) g1) :
    ∃ calls2 g2, forRange (fun j => initCell rand i j) 1 g1.size.toNat (calls, g1)
        = some (calls2, g2) ∧
      Seeded g (fun a c => 1 ≤ a ∧ a < i + 1 ∧ 1 ≤ c ∧ c ≤ g.size) g2 := by
  have hsize := hwf.1
  have key := forRange_inv (fun j => initCell rand i j)
    (fun j st => Seeded g (fun a c => (1 ≤ a ∧ a < i ∧ 1 ≤ c ∧ c ≤ g.size) ∨
        (a = i ∧ 1 ≤ c ∧ c < j)) st.2)
    g1.size.toNat 1 (calls, g1)
    (seeded_congr (fun a c => by constructor <;> intro h <;> omega) hst)
    (by
      rintro k ⟨calls1, g2⟩ hk1 hk2 hst2
      simp only at hst2
      have hk3 : k ≤ g.size := by rw [hst.size_eq] at hk2; omega
      obtain ⟨cb, v, hstep, hshape, hv, hread⟩ := initCell_spec rand hsize
        hst2.current_shaped (i := i) (j := k) ⟨hi1, hi2, hk1, hk3⟩ calls1
      refine ⟨_, hstep, ?_⟩
      refine ⟨hst2.size_eq, hst2.actual_size_eq, hst2.next_eq, hshape, ?_, ?_⟩
      · intro a c hr
        simp only
        rw [hread]
        by_cases hac : a = i ∧ c = k
        · rw [if_pos hac]
          rcases hv with hv | hv <;> simp [hv]
        · rw [if_neg hac]
          exact hst2.current_in a c (by omega)
      · intro a c hr
        simp only
        rw [hread, if_neg (by omega)]
        exact hst2.current_out a c (by omega))
  obtain ⟨⟨calls2, g2⟩, hrun, hst2⟩ := key
  simp only at hst2
  have hend : (1 : Int) + (g1.size.toNat : Int) = g.size + 1 := by
    rw [hst.size_eq]; omega
  rw [hend] at hst2
  exact ⟨calls2, g2, hrun, seeded_congr (fun a c => by constructor <;> intro h <;> omega) hst2⟩

/-- The method `initialize` returns on a well-formed object, for every random
stream, and touches only the interior of `current_board`. -/
theorem initializeWith_spec (rand : Nat → Int) {g : GameOfLife} (hwf : g.WellFormed) :
    ∃ g1, initializeWith rand g = some g1 ∧ Seeded g (Interior g.size) g1 := by
  have hsize := hwf.1
  have key := forRange_inv
    (fun i st => forRange (fun j => initCell rand i j) 1 st.2.size.toNat st)
    (fun i st => Seeded g (fun a c => 1 ≤ a ∧ a < i ∧ 1 ≤ c ∧ c ≤ g.size) st.2)
    g.size.toNat 1 (0, g)
    ⟨rfl, rfl, rfl, hwf.2.2.1, fun a c hr => by omega, fun a c _ => rfl⟩
    (by
      rintro k ⟨calls1, g2⟩ hk1 hk2 hst2
      simp only at hst2
      obtain ⟨calls3, g3, hrun, hst3⟩ := seedRow_spec rand hwf hk1 (by omega) calls1 g2 hst2
      exact ⟨_, hrun, hst3⟩)
  obtain ⟨⟨calls2, g2⟩, hrun, hst2⟩ := key
  simp only at hst2
  have hend : (1 : Int) + (g.size.toNat : Int) = g.size + 1 := by omega
  rw [hend] at hst2
  refine ⟨g2, ?_, seeded_congr (fun a c => by unfold Interior; constructor <;> intro h <;> omega) hst2⟩
  unfold initializeWith initializeFrom
  rw [hrun]; rfl

theorem seeded_sound {g g1 : GameOfLife} (hs : g.Sound) (hst : Seeded g (Interior g.size) g1) :
    g1.Sound := by
  obtain ⟨hwf, hgc, hgn, hbc, hbn⟩ := hs
  refine ⟨⟨?_, ?_, ?_, ?_⟩, ?_, ?_, ?_, ?_⟩
  · rw [hst.size_eq]; exact hwf.1
  · rw [hst.size_eq, hst.actual_size_eq]; exact hwf.2.1
  · rw [hst.size_eq]; exact hst.current_shaped
  · rw [hst.size_eq, hst.next_eq]; exact hwf.2.2.2
  · rw [hst.size_eq]
    intro i j hi0 hi hj0 hj hghost
    rw [hst.current_out i j (by unfold Interior; omega)]
    exact hgc i j hi0 hi hj0 hj hghost
  · rw [hst.size_eq, hst.next_eq]; exact hgn
  · rw [Board.binary_iff_read]
    intro i j v hv
    by_cases hint : Interior g.size i j
    · rcases hst.current_in i j hint with h | h <;> rw [h] at hv <;> simp at hv <;> omega
    · rw [hst.current_out i j hint] at hv
      exact (Board.binary_iff_read _).mp hbc i j v hv
  · rw [hst.next_eq]; exact hbn

/-- Every reachable state satisfies the invariant. -/
theorem reachable_sound {g : GameOfLife} (h : Reachable g) : g.Sound := by
  induction h with
  | construct n g hn hnew =>
    obtain ⟨g', hg', _, hs⟩ := new_sound (n := n) (by omega)
    rw [hnew] at hg'
    cases hg'
    exact hs
  | seed rand g g1 _ hinit ih =>
    obtain ⟨g2, hg2, hst⟩ := initializeWith_spec rand ih.1
    rw [hinit] at hg2
    cases hg2
    exact seeded_sound ih hst
  | step g g1 changes _ hstep ih =>
    obtain ⟨g2, hg2, hst⟩ := simulateGeneration_spec ih.1
    rw [hstep] at hg2
    cases hg2
    exact stepped_sound ih hst
  | swap g _ ih => exact swapBoards_sound ih

end GameOfLife

/-! ## The step kernel: rule, change count, frame -/

namespace GameOfLife

theorem Ico_succ_eq_Icc (a b : Int) : Finset.Ico a (b + 1) = Finset.Icc a b := by
  ext x; simp only [Finset.mem_Ico, Finset.mem_Icc]; omega

/-- The change count as a number of cells. -/
theorem changes_eq_card {g g1 : GameOfLife} (hst : Stepped g (Interior g.size) g1) :
    ∑ a ∈ Finset.Ico 1 (g.size + 1), ∑ c ∈ Finset.Ico 1 (g.size + 1), cellChange g a c
      = (((Finset.Icc 1 g.size ×ˢ Finset.Icc 1 g.size).filter
          (fun p => g1.next_board.read p.1 p.2 ≠ g.current_board.read p.1 p.2)).card : Int) := by
  rw [Ico_succ_eq_Icc, Finset.card_filter, Finset.sum_product]
  push_cast
  apply Finset.sum_congr rfl
  intro a ha
  apply Finset.sum_congr rfl
  intro c hc
  rw [Finset.mem_Icc] at ha hc
  rw [hst.next_in a c ⟨ha.1, ha.2, hc.1, hc.2⟩]
  unfold cellChange
  by_cases h : g.current_board.read a c = nextCell g a c
  · simp [h]
  · rw [if_pos h, if_pos (fun h' => h h'.symm)]

/-- C1. Rule conformance: on a well-formed object whose front grid holds only
`0` and `1`, `simulateGeneration` returns and leaves at every interior cell of
the back grid the value `c'` with `c' = 1` exactly when the front cell `c` and
the sum `s` of its eight Moore neighbours satisfy `c = 1` and `s` is `2` or `3`,
or `c = 0` and `s = 3`, and `c' = 0` otherwise. -/
theorem simulateGeneration_rule (g : GameOfLife) (hwf : g.WellFormed)
    (hbin : g.current_board.Binary) :
    ∃ changes g1, simulateGeneration g = some (changes, g1) ∧
      ∀ i j, Interior g.size i j →
        ∃ c s c', g.current_board.read i j = some c ∧
          s = g.current_board.mooreSum i j ∧ countNeighbors g i j = some s ∧
          g1.next_board.read i j = some c' ∧
          (c' = 1 ↔ (c = 1 ∧ (s = 2 ∨ s = 3)) ∨ (c = 0 ∧ s = 3)) ∧
          (c' ≠ 1 → c' = 0) := by
  obtain ⟨g1, hrun, hst⟩ := simulateGeneration_spec hwf
  refine ⟨_, g1, hrun, ?_⟩
  intro i j hij
  obtain ⟨c, s, hc, hs, hnext⟩ := nextCell_eq_some hwf.1 hwf.2.2.1 hij
  have hs' := countNeighbors_eq_mooreSum hwf.1 hwf.2.2.1 hij
  have hsum : s = g.current_board.mooreSum i j := by
    rw [hs] at hs'; exact Option.some.inj hs'
  refine ⟨c, s, nextState c s, hc, hsum, hs, ?_, ?_, ?_⟩
  · rw [hst.next_in i j hij, hnext]
  · have hc01 := (Board.binary_iff_read _).mp hbin i j c hc
    unfold nextState
    rcases hc01 with h | h <;> subst h <;> split_ifs <;> omega
  · intro h
    rcases nextState_binary c s with h0 | h1
    · exact h0
    · exact absurd h1 h

end GameOfLife

namespace GameOfLife

theorem simulateGeneration_rule_witness :
    (engine5 blinker5).WellFormed ∧ (engine5 blinker5).current_board.Binary ∧
    ∃ changes g1, simulateGeneration (engine5 blinker5) = some (changes, g1) ∧
      ∀ i j, Interior (engine5 blinker5).size i j →
        ∃ c s c', (engine5 blinker5).current_board.read i j = some c ∧
          s = (engine5 blinker5).current_board.mooreSum i j ∧
          countNeighbors (engine5 blinker5) i j = some s ∧
          g1.next_board.read i j = some c' ∧
          (c' = 1 ↔ (c = 1 ∧ (s = 2 ∨ s = 3)) ∨ (c = 0 ∧ s = 3)) ∧
          (c' ≠ 1 → c' = 0) :=
  ⟨by decide, by decide, simulateGeneration_rule (engine5 blinker5) (by decide) (by decide)⟩

end GameOfLife

/-! ## Ghost cells -/

namespace GameOfLife

theorem stepped_ghost {g g1 : GameOfLife} (hst : Stepped g (Interior g.size) g1)
    (hg : GhostDeadBoth g) : GhostDeadBoth g1 := by
  unfold GhostDeadBoth
  rw [hst.size_eq, hst.current_eq]
  refine ⟨hg.1, ?_⟩
  intro i j hi0 hi hj0 hj hghost
  rw [hst.next_out i j (by unfold Interior; omega)]
  exact hg.2 i j hi0 hi hj0 hj hghost

theorem seeded_ghost {g g1 : GameOfLife} (hst : Seeded g (Interior g.size) g1)
    (hg : GhostDeadBoth g) : GhostDeadBoth g1 := by
  unfold GhostDeadBoth
  rw [hst.size_eq, hst.next_eq]
  refine ⟨?_, hg.2⟩
  intro i j hi0 hi hj0 hj hghost
  rw [hst.current_out i j (by unfold Interior; omega)]
  exact hg.1 i j hi0 hi hj0 hj hghost

theorem stepped_wellFormed {g g1 : GameOfLife} {r : Int → Int → Prop} (hwf : g.WellFormed)
    (hst : Stepped g r g1) : g1.WellFormed := by
  refine ⟨?_, ?_, ?_, ?_⟩
  · rw [hst.size_eq]; exact hwf.1
  · rw [hst.size_eq, hst.actual_size_eq]; exact hwf.2.1
  · rw [hst.size_eq, hst.current_eq]; exact hwf.2.2.1
  · rw [hst.size_eq]; exact hst.next_shaped

theorem swapBoards_wellFormed {g : GameOfLife} (hwf : g.WellFormed) :
    (swapBoards g).WellFormed :=
  ⟨hwf.1, hwf.2.1, hwf.2.2.2, hwf.2.2.1⟩

/-- Invariant rule for the simulation loop: a property carried by
`simulateGeneration` and by `swapBoards` holds of the object the loop leaves,
and the loop returns. -/
theorem simulationLoop_inv (Q : GameOfLife → Prop)
    (hstep : ∀ g, Q g → ∃ ch g1, simulateGeneration g = some (ch, g1) ∧ Q g1)
    (hswap : ∀ g, Q g → Q (swapBoards g)) :
    ∀ (remaining : Nat) (generation : Int) (g : GameOfLife) (steps swaps : Nat), Q g →
      ∃ out, simulationLoop remaining generation g steps swaps = some out ∧ Q out.game := by
  intro remaining
  induction remaining with
  | zero =>
    intro generation g steps swaps hQ
    exact ⟨_, rfl, hQ⟩
  | succ n ih =>
    intro generation g steps swaps hQ
    obtain ⟨ch, g1, hrun, hQ1⟩ := hstep g hQ
    by_cases hch : ch = 0
    · exact ⟨⟨generation, true, g1, steps + 1, swaps⟩, by simp [simulationLoop, hrun, hch], hQ1⟩
    · obtain ⟨out, hout, hQout⟩ := ih (generation + 1) (swapBoards g1) (steps + 1) (swaps + 1)
        (hswap g1 hQ1)
      exact ⟨out, by simp [simulationLoop, hrun, hch, hout], hQout⟩

/-- C3. Ghost invariance: the ghost cells of both grids are `0` after
construction; `initialize` (for every random stream), `simulateGeneration` and
`swapBoards` return, keep the ghost cells dead and change no cell outside the
interior (whatever the ghost cells hold); and the object the driver loop
leaves has dead ghost cells. -/
theorem ghost_invariance (n : Int) (hn : 1 ≤ n) :
    (∃ g, GameOfLife.new n = some g ∧ g.size = n ∧ g.WellFormed ∧ GhostDeadBoth g) ∧
    (∀ g : GameOfLife, g.WellFormed → g.size = n →
      (∀ rand : Nat → Int, ∃ g1, initializeWith rand g = some g1 ∧ g1.size = n ∧
        (GhostDeadBoth g → GhostDeadBoth g1) ∧
        (∀ i j, ¬ Interior n i j → g1.current_board.read i j = g.current_board.read i j) ∧
        g1.next_board = g.next_board) ∧
      (∃ changes g1, simulateGeneration g = some (changes, g1) ∧ g1.size = n ∧
        (GhostDeadBoth g → GhostDeadBoth g1) ∧
        g1.current_board = g.current_board ∧
        (∀ i j, ¬ Interior n i j → g1.next_board.read i j = g.next_board.read i j)) ∧
      ((swapBoards g).size = n ∧ (GhostDeadBoth g → GhostDeadBoth (swapBoards g)) ∧
        (swapBoards g).current_board = g.next_board ∧
        (swapBoards g).next_board = g.current_board) ∧
      (GhostDeadBoth g → ∀ max_generations : Int,
        ∃ out, runLoop max_generations g = some out ∧ GhostDeadBoth out.game)) := by
  refine ⟨?_, ?_⟩
  · obtain ⟨g, hg, hsz, hs⟩ := new_sound (n := n) (by omega)
    exact ⟨g, hg, hsz, hs.1, hs.2.1, hs.2.2.1⟩
  · intro g hwf hsz
    subst hsz
    refine ⟨?_, ?_, ?_, ?_⟩
    · intro rand
      obtain ⟨g1, hrun, hst⟩ := initializeWith_spec rand hwf
      exact ⟨g1, hrun, hst.size_eq, seeded_ghost hst, hst.current_out, hst.next_eq⟩
    · obtain ⟨g1, hrun, hst⟩ := simulateGeneration_spec hwf
      exact ⟨_, g1, hrun, hst.size_eq, stepped_ghost hst, hst.current_eq, hst.next_out⟩
    · exact ⟨rfl, fun h => ⟨h.2, h.1⟩, rfl, rfl⟩
    · intro hg max_generations
      obtain ⟨out, hout, hQ⟩ := simulationLoop_inv (fun g => g.WellFormed ∧ GhostDeadBoth g)
        (by
          rintro g ⟨hwf, hg⟩
          obtain ⟨g1, hrun, hst⟩ := simulateGeneration_spec hwf
          exact ⟨_, g1, hrun, stepped_wellFormed hwf hst, stepped_ghost hst hg⟩)
        (by
          rintro g ⟨hwf, hg⟩
          exact ⟨swapBoards_wellFormed hwf, hg.2, hg.1⟩)
        max_generations.toNat 1 g 0 0 ⟨hwf, hg⟩
      exact ⟨out, hout, hQ.2⟩

theorem ghost_invariance_witness :
    (1 : Int) ≤ 5 ∧
      ∃ g, GameOfLife.new 5 = some g ∧ g.size = 5 ∧ g.WellFormed ∧ GhostDeadBoth g :=
  ⟨by decide, (ghost_invariance 5 (by decide)).1⟩

end GameOfLife

/-! ## Fixed points -/

namespace GameOfLife

theorem sum_cellChange_congr {g g1 : GameOfLife} (hsz : g1.size = g.size)
    (hcur : g1.current_board = g.current_board) :
    ∑ a ∈ Finset.Ico 1 (g1.size + 1), ∑ c ∈ Finset.Ico 1 (g1.size + 1), cellChange g1 a c
      = ∑ a ∈ Finset.Ico 1 (g.size + 1), ∑ c ∈ Finset.Ico 1 (g.size + 1), cellChange g a c := by
  rw [hsz]
  exact Finset.sum_congr rfl (fun a _ => Finset.sum_congr rfl (fun c _ => cellChange_congr hcur a c))

end GameOfLife

/-! ## The driver loop -/

namespace GameOfLife

theorem configAfter_succ {g g1 : GameOfLife} {ch : Int}
    (h : simulateGeneration g = some (ch, g1)) (k : Nat) :
    configAfter (k + 1) g = configAfter k (swapBoards g1) := by
  simp [configAfter, generationStep, h]

end GameOfLife

/-! ## Swap, stale data, frame -/

namespace GameOfLife

/-- C6. Swap correctness: after `swapBoards` the front grid is the former back
grid and the back grid is the former front grid, the size fields are unchanged,
and two consecutive swaps restore the object. -/
theorem swap_correctness (g : GameOfLife) :
    (swapBoards g).current_board = g.next_board ∧
      (swapBoards g).next_board = g.current_board ∧
      (swapBoards g).size = g.size ∧
      (swapBoards g).actual_size = g.actual_size ∧
      swapBoards (swapBoards g) = g :=
  ⟨rfl, rfl, rfl, rfl, rfl⟩

/-- C7. No stale data: two well-formed objects with the same size and the same
front grid, whatever their back grids hold, get from `simulateGeneration` the
same change count and the same back-grid interior; every interior cell of the
back grid is overwritten with the value the rule computes from the front grid. -/
theorem no_stale_data (g g' : GameOfLife) (hwf : g.WellFormed) (hwf' : g'.WellFormed)
    (hsz : g'.size = g.size) (hcur : g'.current_board = g.current_board) :
    ∃ changes g1 g1', simulateGeneration g = some (changes, g1) ∧
      simulateGeneration g' = some (changes, g1') ∧
      ∀ i j, Interior g.size i j →
        g1'.next_board.read i j = g1.next_board.read i j ∧
        g1.next_board.read i j = nextCell g i j ∧
        ∃ v, g1.next_board.read i j = some v := by
  obtain ⟨g1, hrun, hst⟩ := simulateGeneration_spec hwf
  obtain ⟨g1', hrun', hst'⟩ := simulateGeneration_spec hwf'
  rw [sum_cellChange_congr hsz hcur] at hrun'
  refine ⟨_, g1, g1', hrun, hrun', ?_⟩
  intro i j hij
  obtain ⟨c, s, _, _, hnext⟩ := nextCell_eq_some hwf.1 hwf.2.2.1 hij
  refine ⟨?_, hst.next_in i j hij, ⟨_, by rw [hst.next_in i j hij, hnext]⟩⟩
  rw [hst.next_in i j hij, hst'.next_in i j (by rw [hsz]; exact hij), nextCell_congr hcur]

theorem no_stale_data_witness :
    (engine5 blinker5).WellFormed ∧
      ({ engine5 blinker5 with next_board := block5 } : GameOfLife).WellFormed ∧
      ∃ changes g1 g1', simulateGeneration (engine5 blinker5) = some (changes, g1) ∧
        simulateGeneration { engine5 blinker5 with next_board := block5 }
          = some (changes, g1') ∧
        ∀ i j, Interior (engine5 blinker5).size i j →
          g1'.next_board.read i j = g1.next_board.read i j ∧
          g1.next_board.read i j = nextCell (engine5 blinker5) i j ∧
          ∃ v, g1.next_board.read i j = some v :=
  ⟨by decide, by decide,
    no_stale_data (engine5 blinker5) { engine5 blinker5 with next_board := block5 }
      (by decide) (by decide) rfl rfl⟩

/-- C8. Frame of the step: `simulateGeneration` leaves the front grid and the
size fields unchanged and changes no cell of the back grid outside the
interior; the back grid keeps its shape. -/
theorem step_frame (g : GameOfLife) (hwf : g.WellFormed) :
    ∃ changes g1, simulateGeneration g = some (changes, g1) ∧
      g1.current_board = g.current_board ∧
      g1.size = g.size ∧ g1.actual_size = g.actual_size ∧
      g1.next_board.Shaped (g.size + 2).toNat ∧
      ∀ i j, ¬ Interior g.size i j → g1.next_board.read i j = g.next_board.read i j := by
  obtain ⟨g1, hrun, hst⟩ := simulateGeneration_spec hwf
  exact ⟨_, g1, hrun, hst.current_eq, hst.size_eq, hst.actual_size_eq, hst.next_shaped,
    hst.next_out⟩

theorem step_frame_witness :
    ({ engine5 blinker5 with next_board := block5 } : GameOfLife).WellFormed ∧
      ∃ changes g1,
        simulateGeneration { engine5 blinker5 with next_board := block5 }
          = some (changes, g1) ∧
        g1.current_board = blinker5 ∧ g1.size = 5 ∧ g1.actual_size = 7 ∧
        g1.next_board.Shaped 7 ∧
        ∀ i j, ¬ Interior 5 i j → g1.next_board.read i j = block5.read i j :=
  ⟨by decide, step_frame { engine5 blinker5 with next_board := block5 } (by decide)⟩

end GameOfLife

/-! ## Alive count -/

namespace GameOfLife

/-- The inner loop of `countAliveCells` on row `i`. -/
theorem aliveRow_spec {g : GameOfLife} (hwf : g.WellFormed) {i : Int} (hi1 : 1 ≤ i)
    (hi2 : i ≤ g.size) (count : Int) :
    forRange (fun j => aliveCell g i j) 1 g.size.toNat count
      = some (count + ∑ c ∈ Finset.Ico 1 (g.size + 1), g.current_board.cell i c) := by
  have hsize := hwf.1
  obtain ⟨r, hrun, hr⟩ := forRange_inv (fun j => aliveCell g i j)
    (fun j cnt => cnt = count + ∑ c ∈ Finset.Ico 1 j, g.current_board.cell i c)
    g.size.toNat 1 count (by simp)
    (by
      intro k cnt hk1 hk2 hcnt
      obtain ⟨v, hv⟩ := Board.read_eq_some_of_shaped hwf.2.2.1 (i := i) (j := k)
        (by omega) (by omega) (by omega) (by omega)
      refine ⟨cnt + v, by simp [aliveCell, hv], ?_⟩
      show cnt + v = count + ∑ c ∈ Finset.Ico 1 (k + 1), g.current_board.cell i c
      rw [sum_Ico_succ _ hk1, hcnt, Board.cell_of_read hv]; ring)
  have hend : (1 : Int) + (g.size.toNat : Int) = g.size + 1 := by omega
  rw [hend] at hr
  rw [hrun, hr]

/-- The method `countAliveCells` returns the sum of the interior cells. -/
theorem countAliveCells_spec {g : GameOfLife} (hwf : g.WellFormed) :
    countAliveCells g
      = some (∑ a ∈ Finset.Icc 1 g.size, ∑ c ∈ Finset.Icc 1 g.size, g.current_board.cell a c) := by
  have hsize := hwf.1
  obtain ⟨r, hrun, hr⟩ := forRange_inv
    (fun i count => forRange (fun j => aliveCell g i j) 1 g.size.toNat count)
    (fun i cnt => cnt = ∑ a ∈ Finset.Ico 1 i, ∑ c ∈ Finset.Ico 1 (g.size + 1),
      g.current_board.cell a c)
    g.size.toNat 1 0 (by simp)
    (by
      intro k cnt hk1 hk2 hcnt
      refine ⟨_, aliveRow_spec hwf hk1 (by omega) cnt, ?_⟩
      show _ = ∑ a ∈ Finset.Ico 1 (k + 1), ∑ c ∈ Finset.Ico 1 (g.size + 1),
        g.current_board.cell a c
      rw [sum_Ico_succ _ hk1, hcnt])
  have hend : (1 : Int) + (g.size.toNat : Int) = g.size + 1 := by omega
  rw [hend, Ico_succ_eq_Icc] at hr
  unfold countAliveCells
  rw [hrun, hr]

theorem Board.cell_binary {b : Board} (hb : b.Binary) (i j : Int) :
    b.cell i j = 0 ∨ b.cell i j = 1 := by
  unfold Board.cell
  cases h : b.read i j with
  | none => simp
  | some v => simpa using (Board.binary_iff_read b).mp hb i j v h

theorem card_Icc_prod (n : Int) (hn : 0 ≤ n) :
    (((Finset.Icc 1 n ×ˢ Finset.Icc 1 n).card : Nat) : Int) = n * n := by
  rw [Finset.card_product, Int.card_Icc]
  have hcast : (((n + 1 - 1).toNat : Nat) : Int) = n := by omega
  push_cast; rw [hcast]

end GameOfLife

/-! ## Boards given by a function, and the block -/

namespace GameOfLife

theorem boardOf_shaped (n : Int) (f : Int → Int → Int) :
    (boardOf n f).Shaped (n + 2).toNat := by
  constructor
  · simp [boardOf]
  · intro row hrow
    simp only [boardOf, List.mem_map] at hrow
    obtain ⟨i, _, rfl⟩ := hrow
    simp

theorem boardOf_read (n : Int) (f : Int → Int → Int) {i j : Int} (hi0 : 0 ≤ i)
    (hi : i < n + 2) (hj0 : 0 ≤ j) (hj : j < n + 2) :
    (boardOf n f).read i j = some (f i j) := by
  have hi' : i.toNat < (n + 2).toNat := by omega
  have hj' : j.toNat < (n + 2).toNat := by omega
  have hic : ((i.toNat : Nat) : Int) = i := by omega
  have hjc : ((j.toNat : Nat) : Int) = j := by omega
  simp [Board.read, boardOf, hi0, hj0, List.getElem?_map, List.getElem?_range hi',
    List.getElem?_range hj', hic, hjc]

theorem boardOf_congr (n : Int) {f f' : Int → Int → Int}
    (h : ∀ i j, 0 ≤ i → i < n + 2 → 0 ≤ j → j < n + 2 → f i j = f' i j) :
    boardOf n f = boardOf n f' := by
  apply Board.ext_read (boardOf_shaped n f) (boardOf_shaped n f')
  intro i j hi0 hi hj0 hj
  rw [boardOf_read n f hi0 (by omega) hj0 (by omega),
    boardOf_read n f' hi0 (by omega) hj0 (by omega), h i j hi0 (by omega) hj0 (by omega)]

theorem pairInd_triple (r i : Int) :
    (pairInd r (i - 1) = 0 ∧ pairInd r i = 0 ∧ pairInd r (i + 1) = 0) ∨
    (pairInd r (i - 1) = 0 ∧ pairInd r i = 0 ∧ pairInd r (i + 1) = 1) ∨
    (pairInd r (i - 1) = 0 ∧ pairInd r i = 1 ∧ pairInd r (i + 1) = 1) ∨
    (pairInd r (i - 1) = 1 ∧ pairInd r i = 1 ∧ pairInd r (i + 1) = 0) ∨
    (pairInd r (i - 1) = 1 ∧ pairInd r i = 0 ∧ pairInd r (i + 1) = 0) := by
  unfold pairInd
  split_ifs <;> omega

theorem blockCell_eq_mul (r c i j : Int) : blockCell r c i j = pairInd r i * pairInd c j := by
  unfold blockCell pairInd
  split_ifs <;> simp_all

/-- The rule leaves every cell of a block grid as it is. -/
theorem block_rule (r c i j : Int) :
    nextState (blockCell r c i j)
      (blockCell r c (i - 1) (j - 1) + blockCell r c (i - 1) j + blockCell r c (i - 1) (j + 1) +
        blockCell r c i (j - 1) + blockCell r c i (j + 1) +
        blockCell r c (i + 1) (j - 1) + blockCell r c (i + 1) j + blockCell r c (i + 1) (j + 1))
      = blockCell r c i j := by
  simp only [blockCell_eq_mul]
  rcases pairInd_triple r i with ⟨h1, h2, h3⟩ | ⟨h1, h2, h3⟩ | ⟨h1, h2, h3⟩ | ⟨h1, h2, h3⟩ |
      ⟨h1, h2, h3⟩ <;>
    rcases pairInd_triple c j with ⟨k1, k2, k3⟩ | ⟨k1, k2, k3⟩ | ⟨k1, k2, k3⟩ | ⟨k1, k2, k3⟩ |
      ⟨k1, k2, k3⟩ <;>
    rw [h1, h2, h3, k1, k2, k3] <;> decide

end GameOfLife

namespace GameOfLife

theorem nextCell_boardOf {g : GameOfLife} {n : Int} (f : Int → Int → Int)
    (hcur : g.current_board = boardOf n f) {i j : Int} (hij : Interior n i j) :
    g.current_board.read i j = some (f i j) ∧ nextCell g i j = some (lifeStep n f i j) := by
  have hint := hij
  obtain ⟨hi1, hi2, hj1, hj2⟩ := hij
  have h0 := boardOf_read n f (i := i) (j := j) (by omega) (by omega) (by omega) (by omega)
  have h1 := boardOf_read n f (i := i - 1) (j := j - 1)
    (by omega) (by omega) (by omega) (by omega)
  have h2 := boardOf_read n f (i := i - 1) (j := j) (by omega) (by omega) (by omega) (by omega)
  have h3 := boardOf_read n f (i := i - 1) (j := j + 1)
    (by omega) (by omega) (by omega) (by omega)
  have h4 := boardOf_read n f (i := i) (j := j - 1) (by omega) (by omega) (by omega) (by omega)
  have h5 := boardOf_read n f (i := i) (j := j + 1) (by omega) (by omega) (by omega) (by omega)
  have h6 := boardOf_read n f (i := i + 1) (j := j - 1)
    (by omega) (by omega) (by omega) (by omega)
  have h7 := boardOf_read n f (i := i + 1) (j := j) (by omega) (by omega) (by omega) (by omega)
  have h8 := boardOf_read n f (i := i + 1) (j := j + 1)
    (by omega) (by omega) (by omega) (by omega)
  refine ⟨by rw [hcur, h0], ?_⟩
  simp [nextCell, countNeighbors, hcur, h0, h1, h2, h3, h4, h5, h6, h7, h8, lifeStep, hint]

/-- The step of an object whose front grid is given by `f` and whose back grid
has dead ghost cells: the back grid becomes the grid given by `lifeStep n f`,
and the count is the number of interior cells `lifeStep` changes. -/
theorem step_boardOf {g : GameOfLife} {n : Int} (f : Int → Int → Int) (hwf : g.WellFormed)
    (hsz : g.size = n) (hcur : g.current_board = boardOf n f)
    (hnext : g.next_board.GhostDead n) :
    ∃ changes g1, simulateGeneration g = some (changes, g1) ∧ g1.size = n ∧ g1.WellFormed ∧
      g1.current_board = boardOf n f ∧ g1.next_board = boardOf n (lifeStep n f) ∧
      changes = ∑ a ∈ Finset.Icc 1 n, ∑ c ∈ Finset.Icc 1 n,
        (if f a c ≠ lifeStep n f a c then 1 else 0) := by
  subst hsz
  obtain ⟨g1, hrun, hst⟩ := simulateGeneration_spec hwf
  have h0 := hwf.1
  refine ⟨_, g1, hrun, hst.size_eq, stepped_wellFormed hwf hst, by rw [hst.current_eq, hcur],
    ?_, ?_⟩
  · apply Board.ext_read hst.next_shaped (boardOf_shaped _ _)
    intro i j hi0 hi hj0 hj
    rw [boardOf_read _ _ hi0 (by omega) hj0 (by omega)]
    by_cases hint : Interior g.size i j
    · rw [hst.next_in i j hint, (nextCell_boardOf f hcur hint).2]
    · rw [hst.next_out i j hint,
        hnext i j hi0 (by omega) hj0 (by omega) (by unfold Interior at hint; omega)]
      simp [lifeStep, hint]
  · rw [Ico_succ_eq_Icc]
    apply Finset.sum_congr rfl
    intro a ha
    apply Finset.sum_congr rfl
    intro c hc
    rw [Finset.mem_Icc] at ha hc
    obtain ⟨hread, hnc⟩ := nextCell_boardOf f hcur (i := a) (j := c) ⟨ha.1, ha.2, hc.1, hc.2⟩
    unfold cellChange
    rw [hread, hnc]
    by_cases h : f a c = lifeStep g.size f a c
    · rw [if_neg (by simpa using h), if_neg (by simpa using h)]
    · rw [if_pos (by simpa using h), if_pos (by simpa using h)]

theorem boardOf_ghostDead (n : Int) (f : Int → Int → Int)
    (h : ∀ i j, 0 ≤ i → i ≤ n + 1 → 0 ≤ j → j ≤ n + 1 → ¬ Interior n i j → f i j = 0) :
    (boardOf n f).GhostDead n := by
  intro i j hi0 hi hj0 hj hghost
  rw [boardOf_read n f hi0 (by omega) hj0 (by omega),
    h i j hi0 hi hj0 hj (by unfold Interior; omega)]

theorem lifeStep_ghostDead (n : Int) (f : Int → Int → Int) :
    (boardOf n (lifeStep n f)).GhostDead n :=
  boardOf_ghostDead n _ (fun i j _ _ _ _ h => by simp [lifeStep, h])

end GameOfLife

/-! ## The block still life -/

namespace GameOfLife

theorem lifeStep_block {n r c : Int} (hr1 : 1 ≤ r) (hr2 : r + 1 ≤ n) (hc1 : 1 ≤ c)
    (hc2 : c + 1 ≤ n) (i j : Int) :
    lifeStep n (blockCell r c) i j = blockCell r c i j := by
  unfold lifeStep
  by_cases hint : Interior n i j
  · rw [if_pos hint]; exact block_rule r c i j
  · rw [if_neg hint]
    unfold blockCell
    rw [if_neg (by unfold Interior at hint; omega)]

theorem sum_pairInd {n r : Int} (hr1 : 1 ≤ r) (hr2 : r + 1 ≤ n) :
    ∑ a ∈ Finset.Icc 1 n, pairInd r a = 2 := by
  unfold pairInd
  rw [Finset.sum_boole]
  have hfilter : Finset.filter (fun a => a = r ∨ a = r + 1) (Finset.Icc 1 n) = {r, r + 1} := by
    ext x
    simp only [Finset.mem_filter, Finset.mem_Icc, Finset.mem_insert, Finset.mem_singleton]
    omega
  rw [hfilter, Finset.card_pair (by omega)]
  rfl

/-- The alive count of an object whose front grid is a block is `4`. -/
theorem countAliveCells_block {g : GameOfLife} {n r c : Int} (hr1 : 1 ≤ r) (hr2 : r + 1 ≤ n)
    (hc1 : 1 ≤ c) (hc2 : c + 1 ≤ n) (hwf : g.WellFormed) (hsz : g.size = n)
    (hcur : g.current_board = blockBoard n r c) : countAliveCells g = some 4 := by
  subst hsz
  rw [countAliveCells_spec hwf]
  congr 1
  have hcell : ∀ a ∈ Finset.Icc 1 g.size, ∀ b ∈ Finset.Icc 1 g.size,
      g.current_board.cell a b = pairInd r a * pairInd c b := by
    intro a ha b hb
    rw [Finset.mem_Icc] at ha hb
    rw [← blockCell_eq_mul]
    apply Board.cell_of_read
    rw [hcur]
    exact boardOf_read _ _ (by omega) (by omega) (by omega) (by omega)
  rw [Finset.sum_congr rfl (fun a ha => Finset.sum_congr rfl (fun b hb => hcell a ha b hb)),
    ← Finset.sum_mul_sum, sum_pairInd hr1 hr2, sum_pairInd hc1 hc2]
  rfl

/-- The step of an object whose front grid is a block returns `0` and leaves
the block in both grids. -/
theorem step_block {g : GameOfLife} {n r c : Int} (hr1 : 1 ≤ r) (hr2 : r + 1 ≤ n)
    (hc1 : 1 ≤ c) (hc2 : c + 1 ≤ n) (hwf : g.WellFormed) (hsz : g.size = n)
    (hcur : g.current_board = blockBoard n r c) (hnext : g.next_board.GhostDead n) :
    ∃ g1, simulateGeneration g = some (0, g1) ∧ g1.WellFormed ∧ g1.size = n ∧
      g1.current_board = blockBoard n r c ∧ g1.next_board = blockBoard n r c := by
  obtain ⟨changes, g1, hrun, hsz1, hwf1, hcur1, hnext1, hch⟩ :=
    step_boardOf (blockCell r c) hwf hsz hcur hnext
  have hzero : changes = 0 := by
    rw [hch]
    apply Finset.sum_eq_zero
    intro a _
    apply Finset.sum_eq_zero
    intro b _
    rw [if_neg (by rw [lifeStep_block hr1 hr2 hc1 hc2]; simp)]
  rw [hzero] at hrun
  refine ⟨g1, hrun, hwf1, hsz1, hcur1, ?_⟩
  rw [hnext1]
  exact boardOf_congr n (fun i j _ _ _ _ => lifeStep_block hr1 hr2 hc1 hc2 i j)

theorem blockBoard_ghostDead {n r c : Int} (hr1 : 1 ≤ r) (hr2 : r + 1 ≤ n) (hc1 : 1 ≤ c)
    (hc2 : c + 1 ≤ n) : (blockBoard n r c).GhostDead n :=
  boardOf_ghostDead n _ (fun i j _ _ _ _ h => by
    unfold blockCell
    rw [if_neg (by unfold Interior at h; omega)])

/-- C10. Block still life: for every board size `n` and every `2 × 2` block with
top left corner `(r, c)` inside the interior (so `n ≥ 2`) of an otherwise dead
grid, `simulateGeneration` returns `0`, the driver loop ends Stable at
generation `1` for every `max_generations ≥ 1`, and the alive count is `4` after
any number of generations. -/
theorem block_still_life (n r c : Int) (hr1 : 1 ≤ r) (hr2 : r + 1 ≤ n)
    (hc1 : 1 ≤ c) (hc2 : c + 1 ≤ n) (g : GameOfLife) (hwf : g.WellFormed) (hsz : g.size = n)
    (hcur : g.current_board = blockBoard n r c) (hnext : g.next_board.GhostDead n) :
    (∃ g1, simulateGeneration g = some (0, g1)) ∧
      (∀ max_generations : Int, 1 ≤ max_generations →
        ∃ out, runLoop max_generations g = some out ∧ out.stable = true ∧
          out.generation = 1 ∧ countAliveCells out.game = some 4) ∧
      (∀ k : Nat, ∃ gk, configAfter k g = some gk ∧ countAliveCells gk = some 4) := by
  obtain ⟨g1, hrun, hwf1, hsz1, hcur1, hnext1⟩ := step_block hr1 hr2 hc1 hc2 hwf hsz hcur hnext
  refine ⟨⟨g1, hrun⟩, ?_, ?_⟩
  · intro max_generations hM
    obtain ⟨m, hm⟩ : ∃ m, max_generations.toNat = m + 1 :=
      ⟨max_generations.toNat - 1, by omega⟩
    refine ⟨⟨1, true, g1, 1, 0⟩, ?_, rfl, rfl,
      countAliveCells_block hr1 hr2 hc1 hc2 hwf1 hsz1 hcur1⟩
    unfold runLoop
    rw [hm]
    simp [simulationLoop, hrun]
  · intro k
    have key : ∀ (k : Nat) (g : GameOfLife), g.WellFormed → g.size = n →
        g.current_board = blockBoard n r c → g.next_board.GhostDead n →
        ∃ gk, configAfter k g = some gk ∧ gk.WellFormed ∧ gk.size = n ∧
          gk.current_board = blockBoard n r c := by
      intro k
      induction k with
      | zero =>
        intro g hwf hsz hcur _
        exact ⟨g, rfl, hwf, hsz, hcur⟩
      | succ k ih =>
        intro g hwf hsz hcur hnext
        obtain ⟨g1, hrun, hwf1, hsz1, hcur1, hnext1⟩ :=
          step_block hr1 hr2 hc1 hc2 hwf hsz hcur hnext
        obtain ⟨gk, hgk, hrest⟩ := ih (swapBoards g1) (swapBoards_wellFormed hwf1) hsz1 hnext1
          (by
            show g1.current_board.GhostDead n
            rw [hcur1]; exact blockBoard_ghostDead hr1 hr2 hc1 hc2)
        exact ⟨gk, by rw [configAfter_succ hrun]; exact hgk, hrest⟩
    obtain ⟨gk, hgk, hwfk, hszk, hcurk⟩ := key k g hwf hsz hcur hnext
    exact ⟨gk, hgk, countAliveCells_block hr1 hr2 hc1 hc2 hwfk hszk hcurk⟩

theorem replicate_ghostDead (n : Int) :
    Board.GhostDead (List.replicate (n + 2).toNat (List.replicate (n + 2).toNat 0)) n := by
  intro i j hi0 hi hj0 hj _
  exact replicate_read hi0 (by omega) hj0 (by omega)

theorem block_still_life_witness :
    (engine5 block5).WellFormed ∧ (engine5 block5).current_board = blockBoard 5 2 2 ∧
      (∃ g1, simulateGeneration (engine5 block5) = some (0, g1)) ∧
      (∀ max_generations : Int, 1 ≤ max_generations →
        ∃ out, runLoop max_generations (engine5 block5) = some out ∧ out.stable = true ∧
          out.generation = 1 ∧ countAliveCells out.game = some 4) ∧
      (∀ k : Nat, ∃ gk, configAfter k (engine5 block5) = some gk ∧
        countAliveCells gk = some 4) :=
  ⟨by decide, by decide,
    block_still_life 5 2 2 (by decide) (by decide) (by decide) (by decide)
      (engine5 block5) (by decide) rfl (by decide) (replicate_ghostDead 5)⟩

end GameOfLife

/-! ## Steps determined by the front grid -/

namespace GameOfLife

/-- A border check over finitely many indices gives `GhostDead`. -/
theorem ghostDead_of_forall (b : Board) (n : Int)
    (h : ∀ i ∈ List.range (n + 2).toNat, ∀ j ∈ List.range (n + 2).toNat,
      ((i : Int) = 0 ∨ (i : Int) = n + 1 ∨ (j : Int) = 0 ∨ (j : Int) = n + 1) →
        b.read i j = some 0) : b.GhostDead n := by
  intro i j hi0 hi hj0 hj hghost
  have := h i.toNat (List.mem_range.mpr (by omega)) j.toNat (List.mem_range.mpr (by omega))
    (by omega)
  have hic : ((i.toNat : Nat) : Int) = i := by omega
  have hjc : ((j.toNat : Nat) : Int) = j := by omega
  rwa [hic, hjc] at this

/-- The step of an object is determined by its size and its front grid, as
long as the ghost cells of the back grid are dead. -/
theorem step_eq_of_front {g g0 g0' : GameOfLife} {ch : Int} (hwf : g.WellFormed)
    (hwf0 : g0.WellFormed) (hsz : g.size = g0.size)
    (hcur : g.current_board = g0.current_board) (hgd : g.next_board.GhostDead g.size)
    (hgd0 : g0.next_board.GhostDead g0.size) (h0 : simulateGeneration g0 = some (ch, g0')) :
    ∃ g1, simulateGeneration g = some (ch, g1) ∧ g1.WellFormed ∧ g1.size = g0.size ∧
      g1.current_board = g0.current_board ∧ g1.next_board = g0'.next_board := by
  obtain ⟨g1, hrun, hst⟩ := simulateGeneration_spec hwf
  obtain ⟨g2, hrun0, hst0⟩ := simulateGeneration_spec hwf0
  rw [h0] at hrun0
  have hch := (Prod.mk.inj (Option.some.inj hrun0)).1
  have hg : g0' = g2 := (Prod.mk.inj (Option.some.inj hrun0)).2
  subst hg
  rw [sum_cellChange_congr hsz hcur, ← hch] at hrun
  refine ⟨g1, hrun, stepped_wellFormed hwf hst, by rw [hst.size_eq, hsz],
    by rw [hst.current_eq, hcur], ?_⟩
  have h0' := hwf.1
  apply Board.ext_read hst.next_shaped (by rw [hsz]; exact hst0.next_shaped)
  intro i j hi0 hi hj0 hj
  by_cases hint : Interior g.size i j
  · rw [hst.next_in i j hint, hst0.next_in i j (by rw [← hsz]; exact hint),
      nextCell_congr hcur]
  · have hghost : i = 0 ∨ i = g.size + 1 ∨ j = 0 ∨ j = g.size + 1 := by
      unfold Interior at hint; omega
    rw [hst.next_out i j hint, hst0.next_out i j (by rw [← hsz]; exact hint),
      hgd i j hi0 (by omega) hj0 (by omega) hghost,
      hgd0 i j hi0 (by omega) hj0 (by omega) (by rw [← hsz]; exact hghost)]

theorem countAliveCells_congr {g g0 : GameOfLife} (hwf : g.WellFormed) (hwf0 : g0.WellFormed)
    (hsz : g.size = g0.size) (hcur : g.current_board = g0.current_board) :
    countAliveCells g = countAliveCells g0 := by
  rw [countAliveCells_spec hwf, countAliveCells_spec hwf0, hsz, hcur]

end GameOfLife

/-! ## The blinker -/

namespace GameOfLife

theorem blinker5_ghostDead : blinker5.GhostDead 5 :=
  ghostDead_of_forall _ _ (by decide)

theorem vbar5_ghostDead : vbar5.GhostDead 5 :=
  ghostDead_of_forall _ _ (by decide)

/-- One step of an object of size `5` whose front grid is one of the two phases
of the blinker: the count is `4` and the back grid becomes the other phase. -/
theorem step_blinker {g : GameOfLife} (hwf : g.WellFormed) (hsz : g.size = 5)
    (hgd : GhostDeadBoth g) (hcur : g.current_board = blinker5 ∨ g.current_board = vbar5) :
    ∃ g1, simulateGeneration g = some (4, g1) ∧ g1.WellFormed ∧ g1.size = 5 ∧
      GhostDeadBoth g1 ∧ g1.current_board = g.current_board ∧
      (g.current_board = blinker5 → g1.next_board = vbar5) ∧
      (g.current_board = vbar5 → g1.next_board = blinker5) := by
  rcases hcur with hcur | hcur
  · have h0 : simulateGeneration (engine5 blinker5)
        = some (4, { engine5 blinker5 with next_board := vbar5 }) := by decide
    obtain ⟨g1, hrun, hwf1, hsz1, hcur1, hnext1⟩ := @step_eq_of_front g (engine5 blinker5) _ _
      hwf (by decide) hsz hcur hgd.2 (replicate_ghostDead 5) h0
    refine ⟨g1, hrun, hwf1, hsz1, ?_, by rw [hcur1, hcur]; rfl, fun _ => hnext1, ?_⟩
    · unfold GhostDeadBoth
      rw [hsz1, hcur1, hnext1]
      exact ⟨blinker5_ghostDead, vbar5_ghostDead⟩
    · intro h; rw [hcur] at h; exact absurd h (by decide)
  · have h0 : simulateGeneration (engine5 vbar5)
        = some (4, { engine5 vbar5 with next_board := blinker5 }) := by decide
    obtain ⟨g1, hrun, hwf1, hsz1, hcur1, hnext1⟩ := @step_eq_of_front g (engine5 vbar5) _ _
      hwf (by decide) hsz hcur hgd.2 (replicate_ghostDead 5) h0
    refine ⟨g1, hrun, hwf1, hsz1, ?_, by rw [hcur1, hcur]; rfl, ?_, fun _ => hnext1⟩
    · unfold GhostDeadBoth
      rw [hsz1, hcur1, hnext1]
      exact ⟨vbar5_ghostDead, blinker5_ghostDead⟩
    · intro h; rw [hcur] at h; exact absurd h (by decide)

end GameOfLife

/-! ## The lone cell and the dead grid -/

namespace GameOfLife

theorem deadBoard_eq_replicate (n : Int) :
    deadBoard n = List.replicate (n + 2).toNat (List.replicate (n + 2).toNat 0) := by
  apply Board.ext_read (boardOf_shaped n _) (replicate_shaped _)
  intro i j hi0 hi hj0 hj
  rw [boardOf_read n _ hi0 (by omega) hj0 (by omega), replicate_read hi0 hi hj0 hj]

theorem deadBoard_ghostDead (n : Int) : (deadBoard n).GhostDead n :=
  boardOf_ghostDead n _ (fun _ _ _ _ _ _ _ => rfl)

theorem lifeStep_dead (n : Int) : lifeStep n (fun _ _ => 0) = fun _ _ => 0 := by
  funext i j
  unfold lifeStep
  split_ifs
  · simp [nextState]
  · rfl

theorem eqInd_triple (r i : Int) :
    (eqInd r (i - 1) = 0 ∧ eqInd r i = 0 ∧ eqInd r (i + 1) = 0) ∨
    (eqInd r (i - 1) = 0 ∧ eqInd r i = 0 ∧ eqInd r (i + 1) = 1) ∨
    (eqInd r (i - 1) = 0 ∧ eqInd r i = 1 ∧ eqInd r (i + 1) = 0) ∨
    (eqInd r (i - 1) = 1 ∧ eqInd r i = 0 ∧ eqInd r (i + 1) = 0) := by
  unfold eqInd
  split_ifs <;> omega

theorem loneCell_eq_mul (i0 j0 i j : Int) : loneCell i0 j0 i j = eqInd i0 i * eqInd j0 j := by
  unfold loneCell eqInd
  split_ifs <;> simp_all

/-- The rule kills a lone cell and gives birth to nothing around it. -/
theorem lone_rule (i0 j0 i j : Int) :
    nextState (loneCell i0 j0 i j)
      (loneCell i0 j0 (i - 1) (j - 1) + loneCell i0 j0 (i - 1) j +
        loneCell i0 j0 (i - 1) (j + 1) + loneCell i0 j0 i (j - 1) + loneCell i0 j0 i (j + 1) +
        loneCell i0 j0 (i + 1) (j - 1) + loneCell i0 j0 (i + 1) j +
        loneCell i0 j0 (i + 1) (j + 1))
      = 0 := by
  simp only [loneCell_eq_mul]
  rcases eqInd_triple i0 i with ⟨h1, h2, h3⟩ | ⟨h1, h2, h3⟩ | ⟨h1, h2, h3⟩ | ⟨h1, h2, h3⟩ <;>
    rcases eqInd_triple j0 j with ⟨k1, k2, k3⟩ | ⟨k1, k2, k3⟩ | ⟨k1, k2, k3⟩ | ⟨k1, k2, k3⟩ <;>
    rw [h1, h2, h3, k1, k2, k3] <;> decide

theorem lifeStep_lone (n i0 j0 : Int) : lifeStep n (loneCell i0 j0) = fun _ _ => 0 := by
  funext i j
  unfold lifeStep
  split_ifs
  · exact lone_rule i0 j0 i j
  · rfl

theorem sum_eqInd {n r : Int} (hr1 : 1 ≤ r) (hr2 : r ≤ n) :
    ∑ a ∈ Finset.Icc 1 n, eqInd r a = 1 := by
  unfold eqInd
  rw [Finset.sum_ite_eq', if_pos (Finset.mem_Icc.mpr ⟨hr1, hr2⟩)]

/-- The alive count of an object whose front grid is all dead is `0`. -/
theorem countAliveCells_dead {g : GameOfLife} (hwf : g.WellFormed)
    (hcur : g.current_board = deadBoard g.size) : countAliveCells g = some 0 := by
  rw [countAliveCells_spec hwf]
  congr 1
  apply Finset.sum_eq_zero
  intro a ha
  apply Finset.sum_eq_zero
  intro c hc
  rw [Finset.mem_Icc] at ha hc
  apply Board.cell_of_read
  rw [hcur]
  exact boardOf_read _ _ (by omega) (by omega) (by omega) (by omega)

/-- The step of an object whose front grid is all dead returns `0` and leaves
the back grid all dead. -/
theorem step_dead {g : GameOfLife} (hwf : g.WellFormed)
    (hcur : g.current_board = deadBoard g.size) (hnext : g.next_board.GhostDead g.size) :
    ∃ g1, simulateGeneration g = some (0, g1) ∧ g1.WellFormed ∧ g1.size = g.size ∧
      g1.current_board = deadBoard g.size ∧ g1.next_board = deadBoard g.size := by
  obtain ⟨changes, g1, hrun, hsz1, hwf1, hcur1, hnext1, hch⟩ :=
    step_boardOf (fun _ _ => 0) hwf rfl hcur hnext
  rw [lifeStep_dead] at hnext1 hch
  simp only [ne_eq, not_true_eq_false, if_false, Finset.sum_const_zero] at hch
  rw [hch] at hrun
  exact ⟨g1, hrun, hwf1, hsz1, hcur1, hnext1⟩

/-- C12. Lone cell (Scenario C): for every board size and every interior
position, starting from the grid whose only alive cell is that position, step 1
returns `1` and produces an all-dead grid, step 2 returns `0`, and the driver
loop with any `max_generations ≥ 2` ends Stable at generation `2` with alive
count `0`. -/
theorem lone_cell_scenario (n i0 j0 : Int) (hij : Interior n i0 j0) (g : GameOfLife)
    (hwf : g.WellFormed) (hsz : g.size = n) (hcur : g.current_board = loneBoard n i0 j0)
    (hnext : g.next_board.GhostDead n) :
    (∃ g1 g2, simulateGeneration g = some (1, g1) ∧ g1.next_board = deadBoard n ∧
      simulateGeneration (swapBoards g1) = some (0, g2)) ∧
    (∀ max_generations : Int, 2 ≤ max_generations →
      ∃ out, runLoop max_generations g = some out ∧ out.stable = true ∧
        out.generation = 2 ∧ countAliveCells out.game = some 0) := by
  subst hsz
  obtain ⟨hi1, hi2, hj1, hj2⟩ := hij
  obtain ⟨changes, g1, hrun, hsz1, hwf1, hcur1, hnext1, hch⟩ :=
    step_boardOf (loneCell i0 j0) hwf rfl hcur hnext
  rw [lifeStep_lone] at hnext1 hch
  have hone : changes = 1 := by
    rw [hch]
    have hterm : ∀ a c : Int, (if loneCell i0 j0 a c ≠ 0 then (1 : Int) else 0)
        = eqInd i0 a * eqInd j0 c := by
      intro a c
      unfold loneCell eqInd
      split_ifs <;> simp_all
    simp only [hterm]
    rw [← Finset.sum_mul_sum, sum_eqInd hi1 hi2, sum_eqInd hj1 hj2]
    rfl
  rw [hone] at hrun
  have hgd1 : (swapBoards g1).next_board.GhostDead (swapBoards g1).size := by
    show g1.current_board.GhostDead g1.size
    rw [hcur1, hsz1]
    exact boardOf_ghostDead _ _ (fun i j _ _ _ _ h => by
      unfold loneCell
      rw [if_neg (by unfold Interior at h; omega)])
  have hc1 : (swapBoards g1).current_board = deadBoard (swapBoards g1).size := by
    show g1.next_board = deadBoard g1.size
    rw [hnext1, hsz1]; rfl
  obtain ⟨g2, hrun2, hwf2, hsz2, hcur2, _⟩ := step_dead (swapBoards_wellFormed hwf1) hc1 hgd1
  refine ⟨⟨g1, g2, hrun, hnext1, hrun2⟩, ?_⟩
  intro max_generations hM
  obtain ⟨m, hm⟩ : ∃ m, max_generations.toNat = m + 2 := ⟨max_generations.toNat - 2, by omega⟩
  refine ⟨⟨2, true, g2, 2, 1⟩, ?_, rfl, rfl, ?_⟩
  · unfold runLoop
    rw [hm]
    simp [simulationLoop, hrun, hrun2]
  · apply countAliveCells_dead hwf2
    rw [hcur2, hsz2]

theorem lone_cell_scenario_witness :
    Interior 5 3 3 ∧ (engine5 (loneBoard 5 3 3)).WellFormed ∧
    (∃ g1 g2, simulateGeneration (engine5 (loneBoard 5 3 3)) = some (1, g1) ∧
      g1.next_board = deadBoard 5 ∧ simulateGeneration (swapBoards g1) = some (0, g2)) ∧
    (∃ out, runLoop 2 (engine5 (loneBoard 5 3 3)) = some out ∧ out.stable = true ∧
        out.generation = 2 ∧ countAliveCells out.game = some 0) :=
  have h := lone_cell_scenario 5 3 3 (by decide) (engine5 (loneBoard 5 3 3)) (by decide) rfl rfl
    (replicate_ghostDead 5)
  ⟨by decide, by decide, h.1, h.2 2 (by decide)⟩

end GameOfLife

namespace GameOfLife

/-- C13. All dead (Scenario D): for every `N ≥ 1` the constructor returns an
object whose grids are all dead; on it `simulateGeneration` returns `0` and
leaves the back grid all dead, and the driver loop with any
`max_generations ≥ 1` ends Stable at generation `1` with alive count `0`. -/
theorem all_dead_scenario (n : Int) (hn : 1 ≤ n) :
    ∃ g, GameOfLife.new n = some g ∧ g.current_board = deadBoard n ∧
      g.next_board = deadBoard n ∧
      (∃ g1, simulateGeneration g = some (0, g1) ∧ g1.next_board = deadBoard n ∧
        ∀ i j : Int, 0 ≤ i → i ≤ n + 1 → 0 ≤ j → j ≤ n + 1 →
          g1.next_board.read i j = some 0) ∧
      (∀ max_generations : Int, 1 ≤ max_generations →
        ∃ out, runLoop max_generations g = some out ∧ out.stable = true ∧
          out.generation = 1 ∧ countAliveCells out.game = some 0) := by
  obtain ⟨g, hnew, hsz, hs⟩ := new_sound (n := n) (by omega)
  have hboards : g.current_board = deadBoard n ∧ g.next_board = deadBoard n := by
    have h := hnew
    unfold GameOfLife.new at h
    rw [if_neg (by omega)] at h
    rw [← Option.some.inj h, deadBoard_eq_replicate]
    exact ⟨rfl, rfl⟩
  subst hsz
  obtain ⟨g1, hrun, hwf1, hsz1, hcur1, hnext1⟩ := step_dead hs.1 hboards.1 hs.2.2.1
  refine ⟨g, hnew, hboards.1, hboards.2, ⟨g1, hrun, hnext1, ?_⟩, ?_⟩
  · intro i j hi0 hi hj0 hj
    rw [hnext1]
    exact boardOf_read _ _ hi0 (by omega) hj0 (by omega)
  · intro max_generations hM
    obtain ⟨m, hm⟩ : ∃ m, max_generations.toNat = m + 1 :=
      ⟨max_generations.toNat - 1, by omega⟩
    refine ⟨⟨1, true, g1, 1, 0⟩, ?_, rfl, rfl, ?_⟩
    · unfold runLoop
      rw [hm]
      simp [simulationLoop, hrun]
    · apply countAliveCells_dead hwf1
      rw [hcur1, hsz1]

theorem all_dead_scenario_witness :
    (1 : Int) ≤ 5 ∧
    ∃ g, GameOfLife.new 5 = some g ∧ g.current_board = deadBoard 5 ∧
      g.next_board = deadBoard 5 ∧
      (∃ g1, simulateGeneration g = some (0, g1) ∧ g1.next_board = deadBoard 5 ∧
        ∀ i j : Int, 0 ≤ i → i ≤ 5 + 1 → 0 ≤ j → j ≤ 5 + 1 →
          g1.next_board.read i j = some 0) ∧
      (∀ max_generations : Int, 1 ≤ max_generations →
        ∃ out, runLoop max_generations g = some out ∧ out.stable = true ∧
          out.generation = 1 ∧ countAliveCells out.game = some 0) :=
  ⟨by decide, all_dead_scenario 5 (by decide)⟩

end GameOfLife

/-! ## The blinker at the border -/

namespace GameOfLife

theorem rowShift_of_forall (b b' : Board)
    (h : ∀ i ∈ List.range 6, ∀ j ∈ List.range 7, b.read i j = b'.read ((i : Int) + 1) j) :
    RowShift b b' := by
  intro i j hi0 hi hj0 hj
  have := h i.toNat (List.mem_range.mpr (by omega)) j.toNat (List.mem_range.mpr (by omega))
  have hic : ((i.toNat : Nat) : Int) = i := by omega
  have hjc : ((j.toNat : Nat) : Int) = j := by omega
  rwa [hic, hjc] at this

theorem topbar5_ghostDead : topbar5.GhostDead 5 :=
  ghostDead_of_forall _ _ (by decide)

theorem hbar5_ghostDead : hbar5.GhostDead 5 :=
  ghostDead_of_forall _ _ (by decide)

/-- C14. Boundary adjacency (Scenario E): on the `N = 5` grid whose only alive
cells are `(1,3)`, `(2,3)`, `(3,3)`, step 1 returns `4` and produces the
horizontal bar `(2,2)`, `(2,3)`, `(2,4)`, and step 2 returns `4` and restores
the initial grid; the vertical blinker `(2,3)`, `(3,3)`, `(4,3)` in the middle
of the grid gives the same counts and the same grids translated by one row. -/
theorem boundary_adjacency (g gm : GameOfLife) (hwf : g.WellFormed) (hsz : g.size = 5)
    (hcur : g.current_board = topbar5) (hnext : g.next_board.GhostDead 5)
    (hwfm : gm.WellFormed) (hszm : gm.size = 5) (hcurm : gm.current_board = vbar5)
    (hnextm : gm.next_board.GhostDead 5) :
    ∃ g1 g2 m1 m2,
      simulateGeneration g = some (4, g1) ∧ g1.next_board = hbar5 ∧
      simulateGeneration (swapBoards g1) = some (4, g2) ∧ g2.next_board = topbar5 ∧
      simulateGeneration gm = some (4, m1) ∧
      simulateGeneration (swapBoards m1) = some (4, m2) ∧
      RowShift g.current_board gm.current_board ∧
      RowShift g1.next_board m1.next_board ∧
      RowShift g2.next_board m2.next_board := by
  have a1 : simulateGeneration (engine5 topbar5)
      = some (4, { engine5 topbar5 with next_board := hbar5 }) := by decide
  have a2 : simulateGeneration (engine5 hbar5)
      = some (4, { engine5 hbar5 with next_board := topbar5 }) := by decide
  have b1 : simulateGeneration (engine5 vbar5)
      = some (4, { engine5 vbar5 with next_board := blinker5 }) := by decide
  have b2 : simulateGeneration (engine5 blinker5)
      = some (4, { engine5 blinker5 with next_board := vbar5 }) := by decide
  obtain ⟨g1, hg1, hwf1, hsz1, hcur1, hnext1⟩ := @step_eq_of_front g (engine5 topbar5) _ _
    hwf (by decide) hsz hcur (by rw [hsz]; exact hnext) (replicate_ghostDead 5) a1
  obtain ⟨g2, hg2, _, _, _, hnext2⟩ := @step_eq_of_front (swapBoards g1) (engine5 hbar5) _ _
    (swapBoards_wellFormed hwf1) (by decide) hsz1 hnext1
    (by
      show g1.current_board.GhostDead g1.size
      rw [hcur1, hsz1]; exact topbar5_ghostDead)
    (replicate_ghostDead 5) a2
  obtain ⟨m1, hm1, hwfm1, hszm1, hcurm1, hnextm1⟩ := @step_eq_of_front gm (engine5 vbar5) _ _
    hwfm (by decide) hszm hcurm (by rw [hszm]; exact hnextm) (replicate_ghostDead 5) b1
  obtain ⟨m2, hm2, _, _, _, hnextm2⟩ :=
    @step_eq_of_front (swapBoards m1) (engine5 blinker5) _ _
      (swapBoards_wellFormed hwfm1) (by decide) hszm1 hnextm1
      (by
        show m1.current_board.GhostDead m1.size
        rw [hcurm1, hszm1]; exact vbar5_ghostDead)
      (replicate_ghostDead 5) b2
  refine ⟨g1, g2, m1, m2, hg1, hnext1, hg2, hnext2, hm1, hm2, ?_, ?_, ?_⟩
  · rw [hcur, hcurm]; exact rowShift_of_forall _ _ (by decide)
  · rw [hnext1, hnextm1]; exact rowShift_of_forall _ _ (by decide)
  · rw [hnext2, hnextm2]; exact rowShift_of_forall _ _ (by decide)

theorem boundary_adjacency_witness :
    (engine5 topbar5).WellFormed ∧ (engine5 vbar5).WellFormed ∧
    ∃ g1 g2 m1 m2,
      simulateGeneration (engine5 topbar5) = some (4, g1) ∧ g1.next_board = hbar5 ∧
      simulateGeneration (swapBoards g1) = some (4, g2) ∧ g2.next_board = topbar5 ∧
      simulateGeneration (engine5 vbar5) = some (4, m1) ∧
      simulateGeneration (swapBoards m1) = some (4, m2) ∧
      RowShift (engine5 topbar5).current_board (engine5 vbar5).current_board ∧
      RowShift g1.next_board m1.next_board ∧
      RowShift g2.next_board m2.next_board :=
  ⟨by decide, by decide,
    boundary_adjacency (engine5 topbar5) (engine5 vbar5) (by decide) rfl rfl
      (replicate_ghostDead 5) (by decide) rfl rfl (replicate_ghostDead 5)⟩

end GameOfLife

/-! ## The debug render -/

namespace GameOfLife

/-- The inner loop of `printBoard` on row `i`. -/
theorem printCells_spec {g : GameOfLife} (hwf : g.WellFormed) {i : Int} (hi1 : 1 ≤ i)
    (hi2 : i ≤ g.size) (out : List Char) :
    forRange (fun j => printCell g i j) 1 g.size.toNat out
      = some (out ++ ((List.range g.size.toNat).map (fun (j : Nat) =>
          [cellChar (g.current_board.cell i ((j : Int) + 1)), ' '])).flatten) := by
  have hsize := hwf.1
  obtain ⟨r, hrun, hr⟩ := forRange_inv (fun j => printCell g i j)
    (fun j o => o = out ++ ((List.range (j - 1).toNat).map (fun (c : Nat) =>
      [cellChar (g.current_board.cell i ((c : Int) + 1)), ' '])).flatten)
    g.size.toNat 1 out (by simp)
    (by
      intro k o hk1 hk2 ho
      obtain ⟨v, hv⟩ := Board.read_eq_some_of_shaped hwf.2.2.1 (i := i) (j := k)
        (by omega) (by omega) (by omega) (by omega)
      refine ⟨o ++ [cellChar v, ' '], by simp [printCell, hv], ?_⟩
      have hk : (k + 1 - 1).toNat = (k - 1).toNat + 1 := by omega
      have hkc : (((k - 1).toNat : Nat) : Int) + 1 = k := by omega
      show o ++ [cellChar v, ' '] = out ++ ((List.range (k + 1 - 1).toNat).map (fun (c : Nat) =>
        [cellChar (g.current_board.cell i ((c : Int) + 1)), ' '])).flatten
      have hkc' : ((k.toNat - 1 : Nat) : Int) + 1 = k := by omega
      rw [hk, List.range_succ, List.map_append, List.flatten_append, ho]
      simp [hkc', Board.cell_of_read hv])
  have hend : ((1 : Int) + (g.size.toNat : Int) - 1).toNat = g.size.toNat := by omega
  rw [hend] at hr
  rw [hrun, hr]

/-- The text `printBoard` writes on a well-formed object. -/
theorem printBoard_spec {g : GameOfLife} (hwf : g.WellFormed) :
    printBoard g = some (printedText g) := by
  have hsize := hwf.1
  obtain ⟨r, hrun, hr⟩ := forRange_inv (fun i => printRow g i)
    (fun i o => o = ("\nBoard state:\n").toList ++
      ((List.range (i - 1).toNat).map (fun (a : Nat) => printedLine g ((a : Int) + 1))).flatten)
    g.size.toNat 1 ("\nBoard state:\n").toList (by simp)
    (by
      intro k o hk1 hk2 ho
      have hk3 : k ≤ g.size := by omega
      refine ⟨o ++ printedLine g k, by
        simp [printRow, printCells_spec hwf hk1 hk3 o, printedLine], ?_⟩
      have hk : (k + 1 - 1).toNat = (k - 1).toNat + 1 := by omega
      have hkc : (((k - 1).toNat : Nat) : Int) + 1 = k := by omega
      show _ = ("\nBoard state:\n").toList ++ ((List.range (k + 1 - 1).toNat).map
        (fun (a : Nat) => printedLine g ((a : Int) + 1))).flatten
      have hkc' : ((k.toNat - 1 : Nat) : Int) + 1 = k := by omega
      rw [hk, List.range_succ, List.map_append, List.flatten_append, ho]
      simp [hkc'])
  have hend : ((1 : Int) + (g.size.toNat : Int) - 1).toNat = g.size.toNat := by omega
  rw [hend] at hr
  unfold printBoard printedText
  rw [hrun, hr]
  rfl

/-- C15, as the code has it. For every well-formed object the text written by
`printBoard` is the heading `"\nBoard state:\n"`, then one line per interior
row in order, each line made of the `N` cells of the row, `'*'` for a non-zero
cell and `'.'` for a zero cell, every cell followed by one space, and
terminated by a newline, then a closing newline. -/
theorem printBoard_format (g : GameOfLife) (hwf : g.WellFormed) :
    printBoard g = some (("\nBoard state:\n").toList ++
      ((List.range g.size.toNat).map (fun (i : Nat) =>
        ((List.range g.size.toNat).map (fun (j : Nat) =>
          [cellChar (g.current_board.cell ((i : Int) + 1) ((j : Int) + 1)), ' '])).flatten
          ++ ['\n'])).flatten ++ ['\n']) ∧
      (∀ c : Int, cellChar c = '*' ↔ c ≠ 0) ∧ (∀ c : Int, cellChar c = '.' ↔ c = 0) := by
  refine ⟨printBoard_spec hwf, ?_, ?_⟩
  · intro c
    by_cases h : c = 0
    · subst h; decide
    · simp [cellChar, h]
  · intro c
    by_cases h : c = 0
    · subst h; decide
    · simp only [cellChar, ne_eq, h, not_false_eq_true, if_true, iff_false]
      decide

theorem printBoard_format_witness :
    (engine5 block5).WellFormed ∧
    printBoard (engine5 block5)
      = some ("\nBoard state:\n. . . . . \n. * * . . \n. * * . . \n. . . . . \n. . . . . \n\n").toList :=
  ⟨by decide, (printBoard_format (engine5 block5) (by decide)).1.trans (by decide)⟩

/-- C15, as stated, fails: on the `N = 5` block grid the text written by
`printBoard` is not the picture of the interior with cells separated by single
spaces; it starts with a heading, and the line of the second row is
`". * * . . "` with a space before the newline. -/
theorem printBoard_not_picture :
    printBoard (engine5 block5) ≠ some (renderPicture (engine5 block5)) ∧
    renderLine (engine5 block5) 2 = (". * * . .\n").toList ∧
    printedLine (engine5 block5) 2 = (". * * . . \n").toList ∧
    printBoard (engine5 block5)
      = some (("\nBoard state:\n").toList ++ printedLine (engine5 block5) 1 ++
          printedLine (engine5 block5) 2 ++ printedLine (engine5 block5) 3 ++
          printedLine (engine5 block5) 4 ++ printedLine (engine5 block5) 5 ++ ['\n']) := by
  decide

end GameOfLife

/-! ## Shape -/

namespace GameOfLife

theorem seeded_wellFormed {g g1 : GameOfLife} {r : Int → Int → Prop} (hwf : g.WellFormed)
    (hst : Seeded g r g1) : g1.WellFormed := by
  refine ⟨?_, ?_, ?_, ?_⟩
  · rw [hst.size_eq]; exact hwf.1
  · rw [hst.size_eq, hst.actual_size_eq]; exact hwf.2.1
  · rw [hst.size_eq]; exact hst.current_shaped
  · rw [hst.size_eq, hst.next_eq]; exact hwf.2.2.2

/-- Every configuration the generations lead to is well formed, of the same size. -/
theorem configAfter_wellFormed (k : Nat) :
    ∀ g : GameOfLife, g.WellFormed →
      ∃ gk, configAfter k g = some gk ∧ gk.WellFormed ∧ gk.size = g.size := by
  induction k with
  | zero => intro g hwf; exact ⟨g, rfl, hwf, rfl⟩
  | succ k ih =>
    intro g hwf
    obtain ⟨g1, hrun, hst⟩ := simulateGeneration_spec hwf
    obtain ⟨gk, hgk, hwfk, hszk⟩ :=
      ih (swapBoards g1) (swapBoards_wellFormed (stepped_wellFormed hwf hst))
    refine ⟨gk, by rw [configAfter_succ hrun]; exact hgk, hwfk, ?_⟩
    rw [hszk]; exact hst.size_eq

/-- C16. Conservation of shape: after construction with `N ≥ 1` both grids have
`N + 2` rows of `N + 2` cells; `initialize`, `simulateGeneration` and
`swapBoards` return and keep both grids `(N + 2) × (N + 2)`; so do all the
configurations of the driver loop and the object the loop leaves. -/
theorem shape_conservation (n : Int) (hn : 1 ≤ n) :
    (∃ g, GameOfLife.new n = some g ∧ g.size = n ∧ g.actual_size = n + 2 ∧
      g.current_board.Shaped (n + 2).toNat ∧ g.next_board.Shaped (n + 2).toNat) ∧
    (∀ g : GameOfLife, g.size = n → g.actual_size = n + 2 →
      g.current_board.Shaped (n + 2).toNat → g.next_board.Shaped (n + 2).toNat →
      (∀ rand : Nat → Int, ∃ g1, initializeWith rand g = some g1 ∧
        g1.size = n ∧ g1.actual_size = n + 2 ∧
        g1.current_board.Shaped (n + 2).toNat ∧ g1.next_board.Shaped (n + 2).toNat) ∧
      (∃ changes g1, simulateGeneration g = some (changes, g1) ∧
        g1.size = n ∧ g1.actual_size = n + 2 ∧
        g1.current_board.Shaped (n + 2).toNat ∧ g1.next_board.Shaped (n + 2).toNat) ∧
      ((swapBoards g).size = n ∧ (swapBoards g).actual_size = n + 2 ∧
        (swapBoards g).current_board.Shaped (n + 2).toNat ∧
        (swapBoards g).next_board.Shaped (n + 2).toNat) ∧
      (∀ k : Nat, ∃ gk, configAfter k g = some gk ∧
        gk.size = n ∧ gk.actual_size = n + 2 ∧
        gk.current_board.Shaped (n + 2).toNat ∧ gk.next_board.Shaped (n + 2).toNat) ∧
      (∀ max_generations : Int, ∃ out, runLoop max_generations g = some out ∧
        out.game.size = n ∧ out.game.actual_size = n + 2 ∧
        out.game.current_board.Shaped (n + 2).toNat ∧
        out.game.next_board.Shaped (n + 2).toNat)) := by
  have unpack : ∀ g : GameOfLife, g.WellFormed → g.size = n →
      g.size = n ∧ g.actual_size = n + 2 ∧
        g.current_board.Shaped (n + 2).toNat ∧ g.next_board.Shaped (n + 2).toNat := by
    intro g hwf hsz
    have h := hwf.2
    rw [hsz] at h
    exact ⟨hsz, h⟩
  refine ⟨?_, ?_⟩
  · obtain ⟨g, hnew, hsz, hs⟩ := new_sound (n := n) (by omega)
    exact ⟨g, hnew, unpack g hs.1 hsz⟩
  · intro g hsz hact hcb hnb
    have hwf : g.WellFormed := by
      subst hsz
      exact ⟨by omega, hact, hcb, hnb⟩
    refine ⟨?_, ?_, ?_, ?_, ?_⟩
    · intro rand
      obtain ⟨g1, hrun, hst⟩ := initializeWith_spec rand hwf
      exact ⟨g1, hrun, unpack g1 (seeded_wellFormed hwf hst) (by rw [hst.size_eq, hsz])⟩
    · obtain ⟨g1, hrun, hst⟩ := simulateGeneration_spec hwf
      exact ⟨_, g1, hrun, unpack g1 (stepped_wellFormed hwf hst) (by rw [hst.size_eq, hsz])⟩
    · exact unpack _ (swapBoards_wellFormed hwf) hsz
    · intro k
      obtain ⟨gk, hgk, hwfk, hszk⟩ := configAfter_wellFormed k g hwf
      exact ⟨gk, hgk, unpack gk hwfk (by rw [hszk, hsz])⟩
    · intro max_generations
      obtain ⟨out, hout, hwfo, hszo⟩ := simulationLoop_inv (fun g => g.WellFormed ∧ g.size = n)
        (by
          rintro g ⟨hwf, hsz⟩
          obtain ⟨g1, hrun, hst⟩ := simulateGeneration_spec hwf
          exact ⟨_, g1, hrun, stepped_wellFormed hwf hst, by rw [hst.size_eq, hsz]⟩)
        (by
          rintro g ⟨hwf, hsz⟩
          exact ⟨swapBoards_wellFormed hwf, hsz⟩)
        max_generations.toNat 1 g 0 0 ⟨hwf, hsz⟩
      exact ⟨out, hout, unpack _ hwfo hszo⟩

theorem shape_conservation_witness :
    (1 : Int) ≤ 5 ∧
    ∃ g, GameOfLife.new 5 = some g ∧ g.size = 5 ∧ g.actual_size = 5 + 2 ∧
      g.current_board.Shaped (5 + 2 : Int).toNat ∧ g.next_board.Shaped (5 + 2 : Int).toNat :=
  ⟨by decide, (shape_conservation 5 (by decide)).1⟩

end GameOfLife

/-! ## Early exit -/

namespace GameOfLife

/-- A square board is the board of its own cells. -/
theorem board_eq_boardOf_cell {b : Board} {n : Int} (hb : b.Shaped (n + 2).toNat) :
    b = boardOf n b.cell := by
  apply Board.ext_read hb (boardOf_shaped n _)
  intro i j hi0 hi hj0 hj
  rw [boardOf_read n _ hi0 (by omega) hj0 (by omega)]
  obtain ⟨v, hv⟩ := Board.read_eq_some_of_shaped hb hi0 hi hj0 hj
  rw [hv, Board.cell_of_read hv]

/-- The Life step depends only on the cells of the `(n + 2) × (n + 2)` grid. -/
theorem lifeStep_congr (n : Int) {f f' : Int → Int → Int}
    (h : ∀ i j, 0 ≤ i → i ≤ n + 1 → 0 ≤ j → j ≤ n + 1 → f i j = f' i j) :
    lifeStep n f = lifeStep n f' := by
  funext i j
  unfold lifeStep
  by_cases hint : Interior n i j
  · obtain ⟨hi1, hi2, hj1, hj2⟩ := hint
    rw [if_pos ⟨hi1, hi2, hj1, hj2⟩, if_pos ⟨hi1, hi2, hj1, hj2⟩,
      h i j (by omega) (by omega) (by omega) (by omega),
      h (i - 1) (j - 1) (by omega) (by omega) (by omega) (by omega),
      h (i - 1) j (by omega) (by omega) (by omega) (by omega),
      h (i - 1) (j + 1) (by omega) (by omega) (by omega) (by omega),
      h i (j - 1) (by omega) (by omega) (by omega) (by omega),
      h i (j + 1) (by omega) (by omega) (by omega) (by omega),
      h (i + 1) (j - 1) (by omega) (by omega) (by omega) (by omega),
      h (i + 1) j (by omega) (by omega) (by omega) (by omega),
      h (i + 1) (j + 1) (by omega) (by omega) (by omega) (by omega)]
  · rw [if_neg hint, if_neg hint]

/-- The front grid after `k` generations is the `k`-th iterate of the Life step. -/
theorem configAfter_boardOf (k : Nat) :
    ∀ (g : GameOfLife) (f : Int → Int → Int), g.WellFormed → GhostDeadBoth g →
      g.current_board = boardOf g.size f →
      ∃ gk, configAfter k g = some gk ∧ gk.WellFormed ∧ gk.size = g.size ∧
        GhostDeadBoth gk ∧
        gk.current_board = boardOf g.size ((lifeStep g.size)^[k] f) := by
  induction k with
  | zero => intro g f hwf hgd hcur; exact ⟨g, rfl, hwf, rfl, hgd, hcur⟩
  | succ k ih =>
    intro g f hwf hgd hcur
    obtain ⟨changes, g1, hrun, hsz1, hwf1, hcur1, hnext1, _⟩ :=
      step_boardOf f hwf rfl hcur hgd.2
    have hgd1 : GhostDeadBoth (swapBoards g1) := by
      constructor
      · show g1.next_board.GhostDead g1.size
        rw [hnext1, hsz1]; exact lifeStep_ghostDead _ _
      · show g1.current_board.GhostDead g1.size
        rw [hcur1, hsz1, ← hcur]; exact hgd.1
    obtain ⟨gk, hgk, hwfk, hszk, hgdk, hcurk⟩ := ih (swapBoards g1) (lifeStep g.size f)
      (swapBoards_wellFormed hwf1) hgd1 (by
        show g1.next_board = boardOf g1.size (lifeStep g.size f)
        rw [hnext1, hsz1])
    have hsz' : (swapBoards g1).size = g.size := hsz1
    rw [hsz'] at hszk hcurk
    exact ⟨gk, by rw [configAfter_succ hrun]; exact hgk, hwfk, hszk, hgdk, by
      rw [hcurk, Function.iterate_succ_apply]⟩

/-- A grid fixed by the Life step is fixed by all its iterates. -/
theorem iterate_lifeStep_fixed (n : Int) {f : Int → Int → Int}
    (h : ∀ i j, 0 ≤ i → i ≤ n + 1 → 0 ≤ j → j ≤ n + 1 → lifeStep n f i j = f i j) (m : Nat) :
    ∀ i j, 0 ≤ i → i ≤ n + 1 → 0 ≤ j → j ≤ n + 1 → (lifeStep n)^[m] f i j = f i j := by
  induction m with
  | zero => intro i j _ _ _ _; rfl
  | succ m ih =>
    intro i j hi0 hi hj0 hj
    rw [Function.iterate_succ_apply', lifeStep_congr n ih]
    exact h i j hi0 hi hj0 hj

/-- A step that returns `0` on a grid with dead ghost cells: the grid is fixed
by the Life step. -/
theorem lifeStep_fixed_of_no_change {g g1 : GameOfLife} (f : Int → Int → Int)
    (hwf : g.WellFormed) (hgd : GhostDeadBoth g) (hcur : g.current_board = boardOf g.size f)
    (hrun : simulateGeneration g = some (0, g1)) :
    ∀ i j, 0 ≤ i → i ≤ g.size + 1 → 0 ≤ j → j ≤ g.size + 1 →
      lifeStep g.size f i j = f i j := by
  obtain ⟨changes, g2, hrun2, _, _, _, _, hch⟩ := step_boardOf f hwf rfl hcur hgd.2
  rw [hrun] at hrun2
  have hzero : changes = 0 := ((Prod.mk.inj (Option.some.inj hrun2)).1).symm
  rw [hzero] at hch
  intro i j hi0 hi hj0 hj
  by_cases hint : Interior g.size i j
  · obtain ⟨hi1, hi2, hj1, hj2⟩ := hint
    have hrow := (Finset.sum_eq_zero_iff_of_nonneg (fun a _ =>
      Finset.sum_nonneg (fun c _ => by split_ifs <;> simp))).mp hch.symm i
      (Finset.mem_Icc.mpr ⟨hi1, hi2⟩)
    have hcell := (Finset.sum_eq_zero_iff_of_nonneg (fun c _ => by split_ifs <;> simp)).mp
      hrow j (Finset.mem_Icc.mpr ⟨hj1, hj2⟩)
    by_contra hne
    rw [if_pos (fun h' => hne h'.symm)] at hcell
    exact one_ne_zero hcell
  · have hread := hgd.1 i j hi0 hi hj0 hj (by unfold Interior at hint; omega)
    rw [hcur, boardOf_read _ _ hi0 (by omega) hj0 (by omega)] at hread
    rw [Option.some.inj hread]
    simp [lifeStep, hint]

end GameOfLife

namespace GameOfLife

end GameOfLife

/-! ## The ghost border and explicit boundary checks -/

namespace GameOfLife

theorem bareRead_interiorOf (n : Int) (b : Board) (a c : Int) :
    bareRead n (interiorOf n b) a c
      = if 0 ≤ a ∧ a < n ∧ 0 ≤ c ∧ c < n then b.cell (a + 1) (c + 1) else 0 := by
  unfold bareRead
  by_cases h : 0 ≤ a ∧ a < n ∧ 0 ≤ c ∧ c < n
  · rw [if_pos h, if_pos h]
    have ha : a.toNat < n.toNat := by omega
    have hc : c.toNat < n.toNat := by omega
    have hac : ((a.toNat : Nat) : Int) = a := by omega
    have hcc : ((c.toNat : Nat) : Int) = c := by omega
    simp [interiorOf, List.getElem?_map, List.getElem?_range ha, List.getElem?_range hc, hac,
      hcc]
  · rw [if_neg h, if_neg h]

/-- With dead ghost cells, a cell of the padded board is the boundary-checked
cell of the bare grid. -/
theorem cell_eq_bareRead {b : Board} {n : Int} (hgd : b.GhostDead n) {x y : Int}
    (hx0 : 0 ≤ x) (hx : x ≤ n + 1) (hy0 : 0 ≤ y) (hy : y ≤ n + 1) :
    b.cell x y = bareRead n (interiorOf n b) (x - 1) (y - 1) := by
  rw [bareRead_interiorOf]
  by_cases h : 0 ≤ x - 1 ∧ x - 1 < n ∧ 0 ≤ y - 1 ∧ y - 1 < n
  · rw [if_pos h, sub_add_cancel, sub_add_cancel]
  · rw [if_neg h]
    exact Board.cell_of_read (hgd x y hx0 hx hy0 hy (by omega))

theorem cell_eq_interior {b : Board} {n : Int} (hgd : b.GhostDead n) {x y : Int}
    (hx0 : 0 ≤ x) (hx : x ≤ n + 1) (hy0 : 0 ≤ y) (hy : y ≤ n + 1) :
    b.cell x y = if Interior n x y then b.cell x y else 0 := by
  by_cases h : Interior n x y
  · rw [if_pos h]
  · rw [if_neg h]
    exact Board.cell_of_read (hgd x y hx0 hx hy0 hy (by unfold Interior at h; omega))

theorem mooreSum_eq_interiorSum {b : Board} {n : Int} (hgd : b.GhostDead n) {i j : Int}
    (hij : Interior n i j) : b.mooreSum i j = b.interiorSum n i j := by
  obtain ⟨hi1, hi2, hj1, hj2⟩ := hij
  have e1 := cell_eq_interior hgd (x := i - 1) (y := j - 1)
    (by omega) (by omega) (by omega) (by omega)
  have e2 := cell_eq_interior hgd (x := i - 1) (y := j) (by omega) (by omega) (by omega) (by omega)
  have e3 := cell_eq_interior hgd (x := i - 1) (y := j + 1)
    (by omega) (by omega) (by omega) (by omega)
  have e4 := cell_eq_interior hgd (x := i) (y := j - 1) (by omega) (by omega) (by omega) (by omega)
  have e5 := cell_eq_interior hgd (x := i) (y := j + 1) (by omega) (by omega) (by omega) (by omega)
  have e6 := cell_eq_interior hgd (x := i + 1) (y := j - 1)
    (by omega) (by omega) (by omega) (by omega)
  have e7 := cell_eq_interior hgd (x := i + 1) (y := j) (by omega) (by omega) (by omega) (by omega)
  have e8 := cell_eq_interior hgd (x := i + 1) (y := j + 1)
    (by omega) (by omega) (by omega) (by omega)
  unfold Board.mooreSum Board.interiorSum
  rw [← e1, ← e2, ← e3, ← e4, ← e5, ← e6, ← e7, ← e8]

theorem mooreSum_eq_bareNeighbors {b : Board} {n : Int} (hgd : b.GhostDead n) {a c : Int}
    (ha0 : 0 ≤ a) (ha : a < n) (hc0 : 0 ≤ c) (hc : c < n) :
    b.mooreSum (a + 1) (c + 1) = bareNeighbors n (interiorOf n b) a c := by
  have key : ∀ x y x' y' : Int, 0 ≤ x → x ≤ n + 1 → 0 ≤ y → y ≤ n + 1 → x' = x - 1 →
      y' = y - 1 → b.cell x y = bareRead n (interiorOf n b) x' y' := by
    intro x y x' y' hx0 hx hy0 hy hx' hy'
    rw [hx', hy']
    exact cell_eq_bareRead hgd hx0 hx hy0 hy
  unfold Board.mooreSum bareNeighbors
  rw [key (a + 1 - 1) (c + 1 - 1) (a - 1) (c - 1) (by omega) (by omega) (by omega) (by omega)
      (by omega) (by omega),
    key (a + 1 - 1) (c + 1) (a - 1) c (by omega) (by omega) (by omega) (by omega)
      (by omega) (by omega),
    key (a + 1 - 1) (c + 1 + 1) (a - 1) (c + 1) (by omega) (by omega) (by omega) (by omega)
      (by omega) (by omega),
    key (a + 1) (c + 1 - 1) a (c - 1) (by omega) (by omega) (by omega) (by omega)
      (by omega) (by omega),
    key (a + 1) (c + 1 + 1) a (c + 1) (by omega) (by omega) (by omega) (by omega)
      (by omega) (by omega),
    key (a + 1 + 1) (c + 1 - 1) (a + 1) (c - 1) (by omega) (by omega) (by omega) (by omega)
      (by omega) (by omega),
    key (a + 1 + 1) (c + 1) (a + 1) c (by omega) (by omega) (by omega) (by omega)
      (by omega) (by omega),
    key (a + 1 + 1) (c + 1 + 1) (a + 1) (c + 1) (by omega) (by omega) (by omega) (by omega)
      (by omega) (by omega)]

theorem sum_Ico_eq_list (F : Int → Int) (m : Nat) :
    ∑ a ∈ Finset.Ico 1 (1 + (m : Int)), F a
      = ((List.range m).map (fun (k : Nat) => F ((k : Int) + 1))).sum := by
  induction m with
  | zero => simp
  | succ m ih =>
    have h1 : (1 : Int) + ((m + 1 : Nat) : Int) = (1 + (m : Int)) + 1 := by push_cast; ring
    rw [h1, sum_Ico_succ F (by omega : (1 : Int) ≤ 1 + (m : Int)), ih, List.range_succ,
      List.map_append, List.sum_append]
    simp [add_comm]

/-- The value the step computes for an interior cell, in bare coordinates. -/
theorem nextCell_eq_bareNext {g : GameOfLife} (hwf : g.WellFormed)
    (hgd : g.current_board.GhostDead g.size) {a c : Int} (ha0 : 0 ≤ a) (ha : a < g.size)
    (hc0 : 0 ≤ c) (hc : c < g.size) :
    g.current_board.read (a + 1) (c + 1)
        = some (bareRead g.size (interiorOf g.size g.current_board) a c) ∧
      nextCell g (a + 1) (c + 1)
        = some (bareNext g.size (interiorOf g.size g.current_board) a c) := by
  have hint : Interior g.size (a + 1) (c + 1) := ⟨by omega, by omega, by omega, by omega⟩
  obtain ⟨v, s, hv, hs, hnext⟩ := nextCell_eq_some hwf.1 hwf.2.2.1 hint
  have hs' := countNeighbors_eq_mooreSum hwf.1 hwf.2.2.1 hint
  rw [hs] at hs'
  have hsum : s = bareNeighbors g.size (interiorOf g.size g.current_board) a c := by
    rw [Option.some.inj hs', mooreSum_eq_bareNeighbors hgd ha0 ha hc0 hc]
  have hcell : v = bareRead g.size (interiorOf g.size g.current_board) a c := by
    rw [bareRead_interiorOf, if_pos ⟨ha0, ha, hc0, hc⟩, Board.cell_of_read hv]
  refine ⟨by rw [hv, hcell], ?_⟩
  rw [hnext, hsum, hcell]
  rfl

end GameOfLife

namespace GameOfLife

/-- C18. Ghost border refines explicit boundary checks: on a well-formed object
whose front grid has dead ghost cells, `countNeighbors` of an interior cell is
the sum over those of its eight Moore neighbours that are interior cells; and
`simulateGeneration` computes the same back-grid interior and the same change
count as the kernel on the bare `N × N` grid that reads out-of-range neighbours
as dead. -/
theorem ghost_border_refines (g : GameOfLife) (hwf : g.WellFormed)
    (hgd : g.current_board.GhostDead g.size) :
    (∀ i j, Interior g.size i j →
      countNeighbors g i j = some (g.current_board.interiorSum g.size i j)) ∧
    ∃ changes g1, simulateGeneration g = some (changes, g1) ∧
      interiorOf g.size g1.next_board
        = (bareKernel g.size (interiorOf g.size g.current_board)).1 ∧
      changes = (bareKernel g.size (interiorOf g.size g.current_board)).2 := by
  refine ⟨?_, ?_⟩
  · intro i j hij
    rw [countNeighbors_eq_mooreSum hwf.1 hwf.2.2.1 hij, mooreSum_eq_interiorSum hgd hij]
  · obtain ⟨g1, hrun, hst⟩ := simulateGeneration_spec hwf
    have hsize := hwf.1
    have hbound : ∀ k ∈ List.range g.size.toNat, (0 : Int) ≤ (k : Int) ∧ (k : Int) < g.size := by
      intro k hk
      rw [List.mem_range] at hk
      omega
    refine ⟨_, g1, hrun, ?_, ?_⟩
    · unfold interiorOf bareKernel
      apply List.map_congr_left
      intro a ha
      apply List.map_congr_left
      intro c hc
      obtain ⟨ha0, ha1⟩ := hbound a ha
      obtain ⟨hc0, hc1⟩ := hbound c hc
      apply Board.cell_of_read
      rw [hst.next_in _ _ ⟨by omega, by omega, by omega, by omega⟩]
      exact (nextCell_eq_bareNext hwf hgd ha0 ha1 hc0 hc1).2
    · have hend : g.size + 1 = 1 + ((g.size.toNat : Nat) : Int) := by omega
      rw [hend, sum_Ico_eq_list]
      unfold bareKernel
      congr 1
      apply List.map_congr_left
      intro a ha
      rw [sum_Ico_eq_list]
      congr 1
      apply List.map_congr_left
      intro c hc
      obtain ⟨ha0, ha1⟩ := hbound a ha
      obtain ⟨hc0, hc1⟩ := hbound c hc
      obtain ⟨hread, hnext⟩ := nextCell_eq_bareNext hwf hgd ha0 ha1 hc0 hc1
      unfold cellChange
      rw [hread, hnext]
      by_cases h : bareRead g.size (interiorOf g.size g.current_board) a c
          = bareNext g.size (interiorOf g.size g.current_board) a c
      · rw [if_neg (by simpa using h), if_neg (by simpa using h)]
      · rw [if_pos (by simpa using h), if_pos (by simpa using h)]

theorem ghost_border_refines_witness :
    (engine5 blinker5).WellFormed ∧
    countNeighbors (engine5 blinker5) 1 1
      = some ((engine5 blinker5).current_board.interiorSum 5 1 1) ∧
    ∃ changes g1, simulateGeneration (engine5 blinker5) = some (changes, g1) ∧
      interiorOf 5 g1.next_board = (bareKernel 5 (interiorOf 5 blinker5)).1 ∧
      changes = (bareKernel 5 (interiorOf 5 blinker5)).2 :=
  have h := ghost_border_refines (engine5 blinker5) (by decide) blinker5_ghostDead
  ⟨by decide, h.1 1 1 (by decide), h.2⟩

end GameOfLife

/-! ## Index safety -/

namespace GameOfLife

/-- The reads of `countNeighbors` are the reads at `neighborIndices`. -/
theorem countNeighbors_eq_readAll (g : GameOfLife) (row col : Int) :
    countNeighbors g row col
      = (g.current_board.readAll (neighborIndices row col)).map List.sum := by
  unfold countNeighbors neighborIndices
  simp only [Board.readAll]
  cases g.current_board.read (row - 1) (col - 1) with
  | none => rfl
  | some v1 =>
  cases g.current_board.read (row - 1) col with
  | none => rfl
  | some v2 =>
  cases g.current_board.read (row - 1) (col + 1) with
  | none => rfl
  | some v3 =>
  cases g.current_board.read row (col - 1) with
  | none => rfl
  | some v4 =>
  cases g.current_board.read row (col + 1) with
  | none => rfl
  | some v5 =>
  cases g.current_board.read (row + 1) (col - 1) with
  | none => rfl
  | some v6 =>
  cases g.current_board.read (row + 1) col with
  | none => rfl
  | some v7 =>
  cases g.current_board.read (row + 1) (col + 1) with
  | none => rfl
  | some v8 =>
    simp only [Option.bind_eq_bind, Option.some_bind, Option.map_some', List.sum_cons,
      List.sum_nil, add_zero, Option.some.injEq]
    ring

theorem Board.write_bounds {b : Board} {n : Nat} (hb : b.Shaped n) {i j v : Int} {b' : Board}
    (h : b.write i j v = some b') : 0 ≤ i ∧ i < n ∧ 0 ≤ j ∧ j < n := by
  obtain ⟨hlen, hrows⟩ := hb
  unfold Board.write at h
  split at h
  · rename_i h0
    split at h
    · rename_i row hrow
      have hmem : row ∈ b := List.getElem?_mem hrow
      have hi : i.toNat < b.length := (List.getElem?_eq_some_iff.mp hrow).1
      have := hrows row hmem
      split at h
      · omega
      · simp at h
    · simp at h
  · simp at h

end GameOfLife

namespace GameOfLife

/-- C19. Index safety: on an object whose grids are both
`(N + 2) × (N + 2)`, a read or a write succeeds exactly when its row and column
are in `0..N+1`; the eight reads of `countNeighbors` on an interior cell, and
the read and the write of the loop body of `simulateGeneration`, have their
indices in that range; and `countNeighbors` on interior cells,
`simulateGeneration` and `countAliveCells` return. -/
theorem index_safety (g : GameOfLife) (hwf : g.WellFormed) :
    (∀ i j, (∃ v, g.current_board.read i j = some v) ↔
      (0 ≤ i ∧ i ≤ g.size + 1 ∧ 0 ≤ j ∧ j ≤ g.size + 1)) ∧
    (∀ i j v, (∃ nb, g.next_board.write i j v = some nb) ↔
      (0 ≤ i ∧ i ≤ g.size + 1 ∧ 0 ≤ j ∧ j ≤ g.size + 1)) ∧
    (∀ i j, Interior g.size i j →
      (∀ p ∈ neighborIndices i j,
        0 ≤ p.1 ∧ p.1 ≤ g.size + 1 ∧ 0 ≤ p.2 ∧ p.2 ≤ g.size + 1) ∧
      (∃ vs, g.current_board.readAll (neighborIndices i j) = some vs) ∧
      (∃ s, countNeighbors g i j = some s) ∧
      (∀ changes : Int, ∃ r, cellStep i j (changes, g) = some r)) ∧
    (∃ changes g1, simulateGeneration g = some (changes, g1)) ∧
    (∃ count, countAliveCells g = some count) := by
  obtain ⟨hsize, hact, hcb, hnb⟩ := hwf
  have hcast : (((g.size + 2).toNat : Nat) : Int) = g.size + 2 := by omega
  refine ⟨?_, ?_, ?_, ?_, ?_⟩
  · intro i j
    constructor
    · rintro ⟨v, hv⟩
      have := Board.read_bounds hcb hv
      omega
    · rintro ⟨h1, h2, h3, h4⟩
      exact Board.read_eq_some_of_shaped hcb h1 (by omega) h3 (by omega)
  · intro i j v
    constructor
    · rintro ⟨nb, hw⟩
      have := Board.write_bounds hnb hw
      omega
    · rintro ⟨h1, h2, h3, h4⟩
      obtain ⟨nb, hw, _⟩ := Board.write_spec hnb v h1 (by omega : i < _) h3 (by omega : j < _)
      exact ⟨nb, hw⟩
  · intro i j hij
    have hs := countNeighbors_eq_some hsize hcb hij
    refine ⟨?_, ?_, hs, ?_⟩
    · obtain ⟨hi1, hi2, hj1, hj2⟩ := hij
      intro p hp
      simp only [neighborIndices, List.mem_cons, List.mem_singleton, List.not_mem_nil,
        or_false] at hp
      rcases hp with h | h | h | h | h | h | h | h <;> subst h <;> simp only <;> omega
    · obtain ⟨s, hs⟩ := hs
      rw [countNeighbors_eq_readAll] at hs
      cases hall : g.current_board.readAll (neighborIndices i j) with
      | none => rw [hall] at hs; simp at hs
      | some vs => exact ⟨vs, rfl⟩
    · intro changes
      obtain ⟨nb, hstep, _⟩ := cellStep_spec (g := g) (n := g.size) hsize rfl hcb hnb hij changes
      exact ⟨_, hstep⟩
  · obtain ⟨g1, hrun, _⟩ := simulateGeneration_spec ⟨hsize, hact, hcb, hnb⟩
    exact ⟨_, g1, hrun⟩
  · exact ⟨_, countAliveCells_spec ⟨hsize, hact, hcb, hnb⟩⟩

theorem index_safety_witness :
    (engine5 blinker5).WellFormed ∧
    (∃ changes g1, simulateGeneration (engine5 blinker5) = some (changes, g1)) ∧
    (∃ count, countAliveCells (engine5 blinker5) = some count) :=
  have h := index_safety (engine5 blinker5) (by decide)
  ⟨by decide, h.2.2.2.1, h.2.2.2.2⟩

end GameOfLife

/-! ## Cell values -/

namespace GameOfLife

theorem stepped_binary {g g1 : GameOfLife} (hwf : g.WellFormed)
    (hst : Stepped g (Interior g.size) g1) (hbc : g.current_board.Binary)
    (hbn : g.next_board.Binary) : g1.current_board.Binary ∧ g1.next_board.Binary := by
  refine ⟨by rw [hst.current_eq]; exact hbc, ?_⟩
  rw [Board.binary_iff_read]
  intro i j v hv
  by_cases hint : Interior g.size i j
  · rw [hst.next_in i j hint] at hv
    obtain ⟨c, s, _, _, hnext⟩ := nextCell_eq_some hwf.1 hwf.2.2.1 hint
    rw [hnext] at hv
    rw [← Option.some.inj hv]
    exact nextState_binary c s
  · rw [hst.next_out i j hint] at hv
    exact (Board.binary_iff_read _).mp hbn i j v hv

theorem seeded_binary {g g1 : GameOfLife} (hst : Seeded g (Interior g.size) g1)
    (hbc : g.current_board.Binary) (hbn : g.next_board.Binary) :
    g1.current_board.Binary ∧ g1.next_board.Binary := by
  refine ⟨?_, by rw [hst.next_eq]; exact hbn⟩
  rw [Board.binary_iff_read]
  intro i j v hv
  by_cases hint : Interior g.size i j
  · rcases hst.current_in i j hint with h | h <;> rw [h] at hv <;> simp at hv <;> omega
  · rw [hst.current_out i j hint] at hv
    exact (Board.binary_iff_read _).mp hbc i j v hv

theorem sum_map_ite_eq_length {α : Type} (P : α → Prop) [DecidablePred P] (l : List α) :
    (l.map (fun p => if P p then (1 : Int) else 0)).sum = ((l.filter (fun p => P p)).length : Int) := by
  induction l with
  | nil => simp
  | cons a l ih =>
    by_cases h : P a
    · simp [h, ih]; ring
    · simp [h, ih]

theorem mooreSum_eq_sum_map (b : Board) (i j : Int) :
    b.mooreSum i j = ((neighborIndices i j).map (fun p => b.cell p.1 p.2)).sum := by
  simp only [Board.mooreSum, neighborIndices, List.map_cons, List.map_nil, List.sum_cons,
    List.sum_nil]
  ring

/-- With `0`/`1` cells the Moore sum is the number of alive neighbours. -/
theorem mooreSum_eq_alive {b : Board} (hb : b.Binary) (i j : Int) :
    b.mooreSum i j
      = (((neighborIndices i j).filter (fun p => b.read p.1 p.2 = some 1)).length : Int) := by
  rw [mooreSum_eq_sum_map, ← sum_map_ite_eq_length]
  congr 1
  apply List.map_congr_left
  intro p _
  unfold Board.cell
  cases h : b.read p.1 p.2 with
  | none => simp
  | some v =>
    rcases (Board.binary_iff_read b).mp hb p.1 p.2 v h with hv | hv <;> simp [hv]

/-- C20. Cell-value invariant: every cell of both grids is `0` or `1` after
construction; `initialize` (for every random stream), `simulateGeneration` and
`swapBoards` keep it so; and in every reachable state the neighbour sum of an
interior cell is the number of its alive neighbours, between `0` and `8`. -/
theorem cell_value_invariant (n : Int) (hn : 1 ≤ n) :
    (∃ g, GameOfLife.new n = some g ∧ g.current_board.Binary ∧ g.next_board.Binary) ∧
    (∀ g : GameOfLife, g.WellFormed → g.size = n → g.current_board.Binary →
      g.next_board.Binary →
      (∀ rand : Nat → Int, ∃ g1, initializeWith rand g = some g1 ∧
        g1.current_board.Binary ∧ g1.next_board.Binary) ∧
      (∃ changes g1, simulateGeneration g = some (changes, g1) ∧
        g1.current_board.Binary ∧ g1.next_board.Binary) ∧
      ((swapBoards g).current_board.Binary ∧ (swapBoards g).next_board.Binary)) ∧
    (∀ g : GameOfLife, Reachable g → g.size = n →
      g.current_board.Binary ∧ g.next_board.Binary ∧
      ∀ i j, Interior n i j →
        ∃ s, countNeighbors g i j = some s ∧
          s = (((neighborIndices i j).filter
            (fun p => g.current_board.read p.1 p.2 = some 1)).length : Int) ∧
          0 ≤ s ∧ s ≤ 8) := by
  refine ⟨?_, ?_, ?_⟩
  · obtain ⟨g, hnew, _, hs⟩ := new_sound (n := n) (by omega)
    exact ⟨g, hnew, hs.2.2.2.1, hs.2.2.2.2⟩
  · intro g hwf _ hbc hbn
    refine ⟨?_, ?_, hbn, hbc⟩
    · intro rand
      obtain ⟨g1, hrun, hst⟩ := initializeWith_spec rand hwf
      exact ⟨g1, hrun, seeded_binary hst hbc hbn⟩
    · obtain ⟨g1, hrun, hst⟩ := simulateGeneration_spec hwf
      exact ⟨_, g1, hrun, stepped_binary hwf hst hbc hbn⟩
  · intro g hr hsz
    obtain ⟨hwf, _, _, hbc, hbn⟩ := reachable_sound hr
    refine ⟨hbc, hbn, ?_⟩
    intro i j hij
    subst hsz
    refine ⟨_, countNeighbors_eq_mooreSum hwf.1 hwf.2.2.1 hij, mooreSum_eq_alive hbc i j, ?_, ?_⟩
    · rw [mooreSum_eq_alive hbc]; exact Int.natCast_nonneg _
    · rw [mooreSum_eq_alive hbc]
      have hlen := List.length_filter_le
        (fun p => decide (g.current_board.read p.1 p.2 = some 1)) (neighborIndices i j)
      have h8 : (neighborIndices i j).length = 8 := rfl
      omega

theorem cell_value_invariant_witness :
    (1 : Int) ≤ 5 ∧
    ∃ g, GameOfLife.new 5 = some g ∧ g.current_board.Binary ∧ g.next_board.Binary :=
  ⟨by decide, (cell_value_invariant 5 (by decide)).1⟩

end GameOfLife

/-! ## The counters at machine width -/

namespace GameOfLife

theorem wrapInt_of_range {x : Int} (h1 : -2147483648 ≤ x) (h2 : x ≤ 2147483647) :
    wrapInt x = x := by
  unfold wrapInt; omega

theorem wrapInt_le (x : Int) : wrapInt x ≤ 2147483647 := by
  unfold wrapInt; omega

theorem wrapInt_wrapInt_add (x y : Int) : wrapInt (wrapInt x + y) = wrapInt (x + y) := by
  unfold wrapInt; omega

theorem wrapInt_eq_zero {x : Int} (h1 : 0 ≤ x) (h2 : x < 4294967296) (h : wrapInt x = 0) :
    x = 0 := by
  unfold wrapInt at h; omega

/-- A loop whose state is a function of the state of another loop, iteration
by iteration, ends in the state that function gives. -/
theorem forRange_map {σ τ : Type} (φ : σ → τ) (body : Int → σ → Option σ)
    (body' : Int → τ → Option τ) (h : ∀ k s, body' k (φ s) = (body k s).map φ) :
    ∀ (cnt : Nat) (lo : Int) (s : σ),
      forRange body' lo cnt (φ s) = (forRange body lo cnt s).map φ := by
  intro cnt
  induction cnt with
  | zero => intro lo s; rfl
  | succ n ih =>
    intro lo s
    simp only [forRange, h]
    cases body lo s with
    | none => rfl
    | some s1 => simp [ih]

theorem cellStep32_map (i j : Int) (st : Int × GameOfLife) :
    cellStep32 i j (wrapInt st.1, st.2)
      = (cellStep i j st).map (fun r => (wrapInt r.1, r.2)) := by
  cases h1 : countNeighbors st.2 i j with
  | none => simp [cellStep32, cellStep, h1]
  | some s =>
  cases h2 : st.2.current_board.read i j with
  | none => simp [cellStep32, cellStep, h1, h2]
  | some c =>
  cases h3 : st.2.next_board.write i j (nextState c s) with
  | none => simp [cellStep32, cellStep, h1, h2, h3]
  | some nb =>
    by_cases h : c = nextState c s
    · simp [cellStep32, cellStep, h1, h2, h3, ← h]
    · simp [cellStep32, cellStep, h1, h2, h3, h, wrapInt_wrapInt_add]

/-- The 32-bit kernel computes the same object as the exact one and returns
its count reduced to the `int` range. -/
theorem simulateGeneration32_eq (g : GameOfLife) :
    simulateGeneration32 g = (simulateGeneration g).map (fun r => (wrapInt r.1, r.2)) := by
  have inner : ∀ (i : Int) (st : Int × GameOfLife),
      (fun i st => forRange (fun j => cellStep32 i j) 1 st.2.size.toNat st) i
          ((fun r : Int × GameOfLife => (wrapInt r.1, r.2)) st)
        = ((fun i st => forRange (fun j => cellStep i j) 1 st.2.size.toNat st) i st).map
            (fun r => (wrapInt r.1, r.2)) := by
    intro i st
    exact forRange_map (fun r : Int × GameOfLife => (wrapInt r.1, r.2)) (fun j => cellStep i j)
      (fun j => cellStep32 i j) (fun k s => cellStep32_map i k s) st.2.size.toNat 1 st
  have outer := forRange_map (fun r : Int × GameOfLife => (wrapInt r.1, r.2))
    (fun i st => forRange (fun j => cellStep i j) 1 st.2.size.toNat st)
    (fun i st => forRange (fun j => cellStep32 i j) 1 st.2.size.toNat st) inner
    g.size.toNat 1 (0, g)
  exact outer

/-- The 32-bit alive count is the exact one reduced to the `int` range. -/
theorem countAliveCells32_eq (g : GameOfLife) :
    countAliveCells32 g = (countAliveCells g).map wrapInt := by
  have inner : ∀ (i : Int) (count : Int),
      forRange (fun j => aliveCell32 g i j) 1 g.size.toNat (wrapInt count)
        = (forRange (fun j => aliveCell g i j) 1 g.size.toNat count).map wrapInt := by
    intro i count
    exact forRange_map wrapInt (fun j => aliveCell g i j) (fun j => aliveCell32 g i j)
      (fun k s => by
        cases h : g.current_board.read i k with
        | none => simp [aliveCell32, aliveCell, h]
        | some c => simp [aliveCell32, aliveCell, h, wrapInt_wrapInt_add])
      g.size.toNat 1 count
  exact forRange_map wrapInt
    (fun i count => forRange (fun j => aliveCell g i j) 1 g.size.toNat count)
    (fun i count => forRange (fun j => aliveCell32 g i j) 1 g.size.toNat count) inner
    g.size.toNat 1 0

end GameOfLife

/-! ## The change count at machine width -/

namespace GameOfLife

theorem sum_cellChange_bounds {g g1 : GameOfLife} (hwf : g.WellFormed)
    (hst : Stepped g (Interior g.size) g1) :
    0 ≤ ∑ a ∈ Finset.Ico 1 (g.size + 1), ∑ c ∈ Finset.Ico 1 (g.size + 1), cellChange g a c ∧
      ∑ a ∈ Finset.Ico 1 (g.size + 1), ∑ c ∈ Finset.Ico 1 (g.size + 1), cellChange g a c
        ≤ g.size * g.size := by
  rw [changes_eq_card hst]
  refine ⟨Int.natCast_nonneg _, ?_⟩
  rw [← card_Icc_prod g.size hwf.1]
  exact_mod_cast Finset.card_filter_le _ _

theorem fullEngine_wellFormed {n : Int} (hn : 0 ≤ n) : (fullEngine n).WellFormed :=
  ⟨hn, rfl, boardOf_shaped n (fullCell n), boardOf_shaped n (fun _ _ => 0)⟩

theorem fullCell_eq_mul (n i j : Int) : fullCell n i j = inRange n i * inRange n j := by
  unfold fullCell inRange Interior
  split_ifs <;> first | rfl | omega

theorem inRange_triple {n a : Int} (hn : 2 ≤ n) (h1 : 1 ≤ a) (h2 : a ≤ n) :
    (inRange n (a - 1) = 0 ∧ inRange n a = 1 ∧ inRange n (a + 1) = 1 ∧ cornerInd n a = 1) ∨
    (inRange n (a - 1) = 1 ∧ inRange n a = 1 ∧ inRange n (a + 1) = 0 ∧ cornerInd n a = 1) ∨
    (inRange n (a - 1) = 1 ∧ inRange n a = 1 ∧ inRange n (a + 1) = 1 ∧ cornerInd n a = 0) := by
  unfold inRange cornerInd
  split_ifs <;> omega

/-- On the full grid the rule keeps the four corner cells and kills the rest. -/
theorem full_rule {n a c : Int} (hn : 2 ≤ n) (hac : Interior n a c) :
    lifeStep n (fullCell n) a c = cornerInd n a * cornerInd n c := by
  unfold lifeStep
  rw [if_pos hac]
  obtain ⟨ha1, ha2, hc1, hc2⟩ := hac
  simp only [fullCell_eq_mul]
  rcases inRange_triple hn ha1 ha2 with ⟨h1, h2, h3, h4⟩ | ⟨h1, h2, h3, h4⟩ | ⟨h1, h2, h3, h4⟩ <;>
    rcases inRange_triple hn hc1 hc2 with ⟨k1, k2, k3, k4⟩ | ⟨k1, k2, k3, k4⟩ |
      ⟨k1, k2, k3, k4⟩ <;>
    rw [h1, h2, h3, h4, k1, k2, k3, k4] <;> decide

theorem sum_cornerInd {n : Int} (hn : 2 ≤ n) : ∑ a ∈ Finset.Icc 1 n, cornerInd n a = 2 := by
  unfold cornerInd
  rw [Finset.sum_boole]
  have hfilter : Finset.filter (fun a => a = 1 ∨ a = n) (Finset.Icc 1 n) = {1, n} := by
    ext x
    simp only [Finset.mem_filter, Finset.mem_Icc, Finset.mem_insert, Finset.mem_singleton]
    omega
  rw [hfilter, Finset.card_pair (by omega)]
  rfl

theorem sum_one_Icc {n : Int} (hn : 0 ≤ n) : ∑ _a ∈ Finset.Icc 1 n, (1 : Int) = n := by
  rw [Finset.sum_const, Int.card_Icc]
  simp only [smul_eq_mul, mul_one, nsmul_eq_mul]
  omega

/-- The step of the full grid of size `n ≥ 2` changes `n * n - 4` cells. -/
theorem step_full {n : Int} (hn : 2 ≤ n) :
    ∃ g1, simulateGeneration (fullEngine n) = some (n * n - 4, g1) ∧
      Stepped (fullEngine n) (Interior n) g1 := by
  have hwf := fullEngine_wellFormed (n := n) (by omega)
  obtain ⟨g1, hrun, hst⟩ := simulateGeneration_spec hwf
  obtain ⟨changes, g2, hrun2, _, _, _, _, hch⟩ :=
    step_boardOf (g := fullEngine n) (n := n) (fullCell n) hwf rfl rfl (deadBoard_ghostDead n)
  have hval : changes = n * n - 4 := by
    rw [hch]
    have hterm : ∀ a ∈ Finset.Icc 1 n, ∀ c ∈ Finset.Icc 1 n,
        (if fullCell n a c ≠ lifeStep n (fullCell n) a c then (1 : Int) else 0)
          = 1 - cornerInd n a * cornerInd n c := by
      intro a ha c hc
      rw [Finset.mem_Icc] at ha hc
      have hint : Interior n a c := ⟨ha.1, ha.2, hc.1, hc.2⟩
      rw [full_rule hn hint]
      have hfull : fullCell n a c = 1 := by unfold fullCell; rw [if_pos hint]
      rw [hfull]
      unfold cornerInd
      split_ifs <;> simp_all
    rw [Finset.sum_congr rfl (fun a ha => Finset.sum_congr rfl (fun c hc => hterm a ha c hc))]
    simp only [Finset.sum_sub_distrib]
    rw [← Finset.sum_mul_sum, sum_cornerInd hn]
    simp only [sum_one_Icc (by omega : (0 : Int) ≤ n), Finset.sum_const, Int.card_Icc]
    simp only [smul_eq_mul, nsmul_eq_mul]
    have hcast : (((n + 1 - 1).toNat : Nat) : Int) = n := by omega
    rw [hcast]
    ring
  rw [hrun] at hrun2
  have hsum := (Prod.mk.inj (Option.some.inj hrun2)).1
  rw [hsum, hval] at hrun
  exact ⟨g1, hrun, hst⟩

end GameOfLife

namespace GameOfLife

/-- C2, as the code has it. On a well-formed object `simulateGeneration`
returns the number of interior cells whose value in the back grid after the
call differs from their value in the front grid, reduced to the 32-bit `int`
range; when `N * N ≤ 2147483647` it returns that number itself, which lies
between `0` and `N * N`. -/
theorem simulateGeneration32_changes (g : GameOfLife) (hwf : g.WellFormed) :
    ∃ changes g1, simulateGeneration32 g = some (changes, g1) ∧
      changes = wrapInt (((Finset.Icc 1 g.size ×ˢ Finset.Icc 1 g.size).filter
          (fun p => g1.next_board.read p.1 p.2 ≠ g.current_board.read p.1 p.2)).card : Int) ∧
      (g.size * g.size ≤ 2147483647 →
        changes = (((Finset.Icc 1 g.size ×ˢ Finset.Icc 1 g.size).filter
          (fun p => g1.next_board.read p.1 p.2 ≠ g.current_board.read p.1 p.2)).card : Int) ∧
        0 ≤ changes ∧ changes ≤ g.size * g.size) := by
  obtain ⟨g1, hrun, hst⟩ := simulateGeneration_spec hwf
  obtain ⟨h0, hle⟩ := sum_cellChange_bounds hwf hst
  rw [changes_eq_card hst] at hrun h0 hle
  refine ⟨_, g1, by rw [simulateGeneration32_eq, hrun]; rfl, rfl, ?_⟩
  intro hbound
  have hw := wrapInt_of_range (x := (((Finset.Icc 1 g.size ×ˢ Finset.Icc 1 g.size).filter
      (fun p => g1.next_board.read p.1 p.2 ≠ g.current_board.read p.1 p.2)).card : Int))
    (by omega) (by omega)
  rw [hw]
  exact ⟨rfl, h0, hle⟩

theorem simulateGeneration32_changes_witness :
    (engine5 blinker5).WellFormed ∧ (5 : Int) * 5 ≤ 2147483647 ∧
    ∃ changes g1, simulateGeneration32 (engine5 blinker5) = some (changes, g1) ∧
      changes = (((Finset.Icc 1 (engine5 blinker5).size ×ˢ
          Finset.Icc 1 (engine5 blinker5).size).filter
          (fun p => g1.next_board.read p.1 p.2 ≠
            (engine5 blinker5).current_board.read p.1 p.2)).card : Int) ∧
      0 ≤ changes ∧ changes ≤ (engine5 blinker5).size * (engine5 blinker5).size :=
  ⟨by decide, by decide,
    (simulateGeneration32_changes (engine5 blinker5) (by decide)).imp
      (fun _ h => h.imp (fun _ h' => ⟨h'.1, h'.2.2 (by decide)⟩))⟩

/-- C2, as stated, fails: on the grid of size `46341` whose interior cells are
all alive, `2147488277` interior cells change, more than an `int` holds, and
`simulateGeneration` returns `-2147479019`, which is neither that number nor
between `0` and `N * N`. -/
theorem simulateGeneration32_overflow :
    ∃ g1, simulateGeneration32 (fullEngine 46341) = some (-2147479019, g1) ∧
      (((Finset.Icc 1 (fullEngine 46341).size ×ˢ Finset.Icc 1 (fullEngine 46341).size).filter
          (fun p => g1.next_board.read p.1 p.2 ≠
            (fullEngine 46341).current_board.read p.1 p.2)).card : Int) = 2147488277 ∧
      ¬ (0 ≤ (-2147479019 : Int)) := by
  obtain ⟨g1, hrun, hst⟩ := step_full (n := 46341) (by decide)
  obtain ⟨g2, hrun2, _⟩ := simulateGeneration_spec (fullEngine_wellFormed (n := 46341) (by decide))
  rw [hrun] at hrun2
  have hsum := (Prod.mk.inj (Option.some.inj hrun2)).1
  refine ⟨g1, ?_, ?_, by decide⟩
  · rw [simulateGeneration32_eq, hrun]
    show some (wrapInt (46341 * 46341 - 4), g1) = some (-2147479019, g1)
    have : wrapInt (46341 * 46341 - 4) = -2147479019 := by unfold wrapInt; norm_num
    rw [this]
  · rw [← changes_eq_card hst, ← hsum]
    norm_num

end GameOfLife

/-! ## The alive count at machine width -/

namespace GameOfLife

/-- With `0`/`1` cells the sum of the interior cells is the number of interior
cells that hold `1`. -/
theorem sum_cells_eq_card {b : Board} (hbin : b.Binary) (n : Int) :
    ∑ a ∈ Finset.Icc 1 n, ∑ c ∈ Finset.Icc 1 n, b.cell a c
      = (((Finset.Icc 1 n ×ˢ Finset.Icc 1 n).filter
          (fun p => b.read p.1 p.2 = some 1)).card : Int) := by
  rw [Finset.card_filter, Finset.sum_product]
  push_cast
  apply Finset.sum_congr rfl
  intro a _
  apply Finset.sum_congr rfl
  intro c _
  unfold Board.cell
  cases h : b.read a c with
  | none => simp
  | some v =>
    rcases (Board.binary_iff_read _).mp hbin a c v h with hv | hv <;> simp [hv]

theorem card_alive_bounds (b : Board) {n : Int} (hn : 0 ≤ n) :
    (((Finset.Icc 1 n ×ˢ Finset.Icc 1 n).filter
        (fun p => b.read p.1 p.2 = some 1)).card : Int) ≤ n * n := by
  rw [← card_Icc_prod n hn]
  exact_mod_cast Finset.card_filter_le _ _

/-- C9, as the code has it. The method `countAliveCells` returns the sum of the
`N * N` interior cells of the current grid reduced to the 32-bit `int` range;
when every cell is `0` or `1` and `N * N ≤ 2147483647` it returns the sum
itself, which is the number of alive interior cells and lies between `0` and
`N * N`; it returns `0` on a freshly constructed engine. -/
theorem countAliveCells32_sum (n : Int) (hn : 1 ≤ n) :
    (∀ g : GameOfLife, g.WellFormed → g.size = n →
      countAliveCells32 g
          = some (wrapInt (∑ a ∈ Finset.Icc 1 n, ∑ c ∈ Finset.Icc 1 n,
              g.current_board.cell a c)) ∧
        (g.current_board.Binary → n * n ≤ 2147483647 →
          ∃ alive : Int, countAliveCells32 g = some alive ∧
            alive = ∑ a ∈ Finset.Icc 1 n, ∑ c ∈ Finset.Icc 1 n, g.current_board.cell a c ∧
            alive = (((Finset.Icc 1 n ×ˢ Finset.Icc 1 n).filter
              (fun p => g.current_board.read p.1 p.2 = some 1)).card : Int) ∧
            0 ≤ alive ∧ alive ≤ n * n)) ∧
      (∃ g0, GameOfLife.new n = some g0 ∧ countAliveCells32 g0 = some 0) := by
  refine ⟨?_, ?_⟩
  · intro g hwf hsz
    subst hsz
    have hrun : countAliveCells32 g
        = some (wrapInt (∑ a ∈ Finset.Icc 1 g.size, ∑ c ∈ Finset.Icc 1 g.size,
            g.current_board.cell a c)) := by
      rw [countAliveCells32_eq, countAliveCells_spec hwf]; rfl
    refine ⟨hrun, ?_⟩
    intro hbin hbound
    have hcard := sum_cells_eq_card hbin g.size
    have hle := card_alive_bounds g.current_board hwf.1
    have h0 : (0 : Int) ≤ (((Finset.Icc 1 g.size ×ˢ Finset.Icc 1 g.size).filter
        (fun p => g.current_board.read p.1 p.2 = some 1)).card : Int) := Int.natCast_nonneg _
    rw [← hcard] at hle h0
    refine ⟨_, hrun, wrapInt_of_range (by omega) (by omega), ?_, ?_, ?_⟩
    · rw [wrapInt_of_range (by omega) (by omega)]; exact hcard
    · rw [wrapInt_of_range (by omega) (by omega)]; exact h0
    · rw [wrapInt_of_range (by omega) (by omega)]; exact hle
  · obtain ⟨g0, hnew, hsz, hs⟩ := new_sound (n := n) (by omega)
    refine ⟨g0, hnew, ?_⟩
    have hdead : g0.current_board = deadBoard g0.size := by
      have h := hnew
      unfold GameOfLife.new at h
      rw [if_neg (by omega)] at h
      rw [hsz, ← Option.some.inj h, deadBoard_eq_replicate]
    rw [countAliveCells32_eq, countAliveCells_dead hs.1 hdead]
    rfl

theorem countAliveCells32_sum_witness :
    (1 : Int) ≤ 5 ∧ (engine5 block5).WellFormed ∧ (engine5 block5).current_board.Binary ∧
      (5 : Int) * 5 ≤ 2147483647 ∧
      ∃ alive : Int, countAliveCells32 (engine5 block5) = some alive ∧
        alive = ∑ a ∈ Finset.Icc 1 5, ∑ c ∈ Finset.Icc 1 5,
          (engine5 block5).current_board.cell a c ∧
        alive = (((Finset.Icc 1 5 ×ˢ Finset.Icc 1 5).filter
          (fun p => (engine5 block5).current_board.read p.1 p.2 = some 1)).card : Int) ∧
        0 ≤ alive ∧ alive ≤ 5 * 5 :=
  ⟨by decide, by decide, by decide, by decide,
    ((countAliveCells32_sum 5 (by decide)).1 (engine5 block5) (by decide) rfl).2
      (by decide) (by decide)⟩

theorem fullEngine_binary (n : Int) : (fullEngine n).current_board.Binary := by
  show (boardOf n (fullCell n)).Binary
  rw [Board.binary_iff_read]
  intro i j v hv
  have hb := Board.read_bounds (boardOf_shaped n (fullCell n)) hv
  rw [boardOf_read n _ hb.1 (by omega) hb.2.2.1 (by omega)] at hv
  rw [← Option.some.inj hv]
  unfold fullCell
  split_ifs <;> simp

theorem sum_fullCell {n : Int} (hn : 0 ≤ n) :
    ∑ a ∈ Finset.Icc 1 n, ∑ c ∈ Finset.Icc 1 n, (fullEngine n).current_board.cell a c
      = n * n := by
  have hcell : ∀ a ∈ Finset.Icc 1 n, ∀ c ∈ Finset.Icc 1 n,
      (fullEngine n).current_board.cell a c = 1 := by
    intro a ha c hc
    rw [Finset.mem_Icc] at ha hc
    apply Board.cell_of_read
    show (boardOf n (fullCell n)).read a c = some 1
    rw [boardOf_read n _ (by omega) (by omega) (by omega) (by omega)]
    unfold fullCell
    rw [if_pos ⟨ha.1, ha.2, hc.1, hc.2⟩]
  rw [Finset.sum_congr rfl (fun a ha => Finset.sum_congr rfl (fun c hc => hcell a ha c hc))]
  simp only [sum_one_Icc hn, Finset.sum_const, Int.card_Icc, smul_eq_mul, nsmul_eq_mul]
  have hcast : (((n + 1 - 1).toNat : Nat) : Int) = n := by omega
  rw [hcast]

/-- C9, as stated, fails: with the cells `2147483647` and `1` the method
returns `-2147483648` while the sum of the interior cells is `2147483648`; and
on the `0`/`1` grid of size `46341` whose interior cells are all alive it
returns `-2147479015` while `2147488281` cells are alive. -/
theorem countAliveCells32_overflow :
    countAliveCells32 bigCellEngine = some (-2147483648) ∧
      ∑ a ∈ Finset.Icc 1 2, ∑ c ∈ Finset.Icc 1 2, bigCellEngine.current_board.cell a c
        = 2147483648 ∧
      (fullEngine 46341).current_board.Binary ∧
      countAliveCells32 (fullEngine 46341) = some (-2147479015) ∧
      ∑ a ∈ Finset.Icc 1 46341, ∑ c ∈ Finset.Icc 1 46341,
        (fullEngine 46341).current_board.cell a c = 2147488281 := by
  have hwf : (fullEngine 46341).WellFormed := fullEngine_wellFormed (by decide)
  have hsum : ∑ a ∈ Finset.Icc 1 46341, ∑ c ∈ Finset.Icc 1 46341,
      (fullEngine 46341).current_board.cell a c = 2147488281 := by
    rw [sum_fullCell (by decide)]
    norm_num
  refine ⟨by decide, ?_, fullEngine_binary 46341, ?_, hsum⟩
  · have h1 : countAliveCells bigCellEngine = some 2147483648 := by decide
    have h2 := countAliveCells_spec (g := bigCellEngine) (by decide)
    rw [h1] at h2
    exact (Option.some.inj h2).symm
  · rw [countAliveCells32_eq, countAliveCells_spec hwf]
    have hsz : (fullEngine 46341).size = 46341 := rfl
    rw [hsz, hsum]
    have : wrapInt 2147488281 = -2147479015 := by unfold wrapInt; norm_num
    rw [Option.map_some', this]

end GameOfLife

/-! ## The driver loop at machine width -/

namespace GameOfLife

theorem simulateGeneration32_of_exact {g g1 : GameOfLife} {ch : Int}
    (h : simulateGeneration g = some (ch, g1)) :
    simulateGeneration32 g = some (wrapInt ch, g1) := by
  rw [simulateGeneration32_eq, h]; rfl

theorem changesOfStep32_one {g g1 : GameOfLife} {ch : Int}
    (h : simulateGeneration32 g = some (ch, g1)) : changesOfStep32 g 1 = some ch := by
  simp [changesOfStep32, configAfter, h]

theorem changesOfStep32_succ {g g1 : GameOfLife} {ch : Int}
    (h : simulateGeneration g = some (ch, g1)) {k : Nat} (hk : 1 ≤ k) :
    changesOfStep32 g (k + 1) = changesOfStep32 (swapBoards g1) k := by
  obtain ⟨m, rfl⟩ : ∃ m, k = m + 1 := ⟨k - 1, by omega⟩
  simp [changesOfStep32, configAfter, generationStep, h]

/-- The 32-bit simulation loop on a well-formed object, for
`max_generations ≤ 2147483646` and with fuel for all the iterations left: it
returns, either after the last iteration, having met no zero count, or at the
first step that returns zero. -/
theorem simulationLoop32_spec (max_generations : Int) (hM : max_generations ≤ 2147483646) :
    ∀ (remaining : Nat) (generation : Int) (fuel : Nat) (g : GameOfLife) (steps swaps : Nat),
      1 ≤ generation → generation + remaining = max_generations + 1 → remaining < fuel →
      g.WellFormed →
      ∃ out, simulationLoop32 max_generations fuel generation g steps swaps = some out ∧
        ((out.stable = false ∧ out.generation = max_generations + 1 ∧
            out.steps = steps + remaining ∧ out.swaps = swaps + remaining ∧
            (∀ k, 1 ≤ k → k ≤ remaining → changesOfStep32 g k ≠ some 0) ∧
            configAfter remaining g = some out.game) ∨
          (∃ k, 1 ≤ k ∧ k ≤ remaining ∧ out.stable = true ∧
            out.generation = generation + ((k : Int) - 1) ∧
            out.steps = steps + k ∧ out.swaps + 1 = swaps + k ∧
            changesOfStep32 g k = some 0 ∧
            (∀ k', 1 ≤ k' → k' < k → changesOfStep32 g k' ≠ some 0) ∧
            (configAfter (k - 1) g).bind simulateGeneration32 = some (0, out.game))) := by
  intro remaining
  induction remaining with
  | zero =>
    intro generation fuel g steps swaps hgen hsum hfuel _
    obtain ⟨f, rfl⟩ : ∃ f, fuel = f + 1 := ⟨fuel - 1, by omega⟩
    have hnot : ¬ generation ≤ max_generations := by push_cast at hsum; omega
    refine ⟨⟨generation, false, g, steps, swaps⟩, by simp [simulationLoop32, hnot],
      Or.inl ⟨rfl, by push_cast at hsum; simpa using hsum, rfl, rfl, ?_, rfl⟩⟩
    intro k h1 h2; omega
  | succ n ih =>
    intro generation fuel g steps swaps hgen hsum hfuel hwf
    obtain ⟨f, rfl⟩ : ∃ f, fuel = f + 1 := ⟨fuel - 1, by omega⟩
    have hle : generation ≤ max_generations := by push_cast at hsum; omega
    obtain ⟨g1, hrun, hst⟩ := simulateGeneration_spec hwf
    generalize ∑ a ∈ Finset.Ico 1 (g.size + 1), ∑ c ∈ Finset.Ico 1 (g.size + 1),
      cellChange g a c = ch at hrun
    have hrun32 := simulateGeneration32_of_exact hrun
    by_cases hch : wrapInt ch = 0
    · rw [hch] at hrun32
      refine ⟨⟨generation, true, g1, steps + 1, swaps⟩,
        by simp [simulationLoop32, hle, hrun32],
        Or.inr ⟨1, le_refl _, by omega, rfl, by simp, rfl, rfl, changesOfStep32_one hrun32,
          ?_, ?_⟩⟩
      · intro k' h1 h2; omega
      · simp [configAfter, hrun32]
    · have hnext : wrapInt (generation + 1) = generation + 1 :=
        wrapInt_of_range (by omega) (by omega)
      obtain ⟨out, hout, hcases⟩ := ih (generation + 1) f (swapBoards g1) (steps + 1)
        (swaps + 1) (by omega) (by push_cast at hsum ⊢; omega) (by omega)
        (swapBoards_wellFormed (stepped_wellFormed hwf hst))
      refine ⟨out, by simp [simulationLoop32, hle, hrun32, hch, hnext, hout], ?_⟩
      have hfirst : changesOfStep32 g 1 ≠ some 0 := by
        rw [changesOfStep32_one hrun32]; simpa using hch
      rcases hcases with ⟨h1, h2, h3, h4, h5, h6⟩ | ⟨k, hk1, hk2, h1, h2, h3, h4, h5, h6, h7⟩
      · refine Or.inl ⟨h1, h2, by omega, by omega, ?_, ?_⟩
        · intro k hk1 hk2
          by_cases hk : k = 1
          · rw [hk]; exact hfirst
          · obtain ⟨m, rfl⟩ : ∃ m, k = m + 1 := ⟨k - 1, by omega⟩
            rw [changesOfStep32_succ hrun (by omega)]
            exact h5 m (by omega) (by omega)
        · rw [configAfter_succ hrun]; exact h6
      · refine Or.inr ⟨k + 1, by omega, by omega, h1, by rw [h2]; push_cast; ring, by omega,
          by omega, ?_, ?_, ?_⟩
        · rw [changesOfStep32_succ hrun hk1]; exact h5
        · intro k' hk'1 hk'2
          by_cases hk : k' = 1
          · rw [hk]; exact hfirst
          · obtain ⟨m, rfl⟩ : ∃ m, k' = m + 1 := ⟨k' - 1, by omega⟩
            rw [changesOfStep32_succ hrun (by omega)]
            exact h6 m (by omega) (by omega)
        · obtain ⟨m, rfl⟩ : ∃ m, k = m + 1 := ⟨k - 1, by omega⟩
          simp only [Nat.add_sub_cancel] at h7 ⊢
          rw [configAfter_succ hrun]; exact h7

/-- At `max_generations = 2147483647` the test `generation <= max_generations`
never fails, so a loop none of whose steps returns zero has not ended after
any number of iterations. -/
theorem simulationLoop32_never_ends (Q : GameOfLife → Prop)
    (hstep : ∀ g, Q g → ∃ ch g1, simulateGeneration32 g = some (ch, g1) ∧ ch ≠ 0 ∧
      Q (swapBoards g1)) :
    ∀ (fuel : Nat) (generation : Int) (g : GameOfLife) (steps swaps : Nat), Q g →
      generation ≤ 2147483647 →
      simulationLoop32 2147483647 fuel generation g steps swaps = none := by
  intro fuel
  induction fuel with
  | zero => intro generation g steps swaps _ _; rfl
  | succ f ih =>
    intro generation g steps swaps hQ hgen
    obtain ⟨ch, g1, hrun, hch, hQ1⟩ := hstep g hQ
    have := ih (wrapInt (generation + 1)) (swapBoards g1) (steps + 1) (swaps + 1) hQ1
      (wrapInt_le _)
    simp [simulationLoop32, hgen, hrun, hch, this]

/-- For `max_generations ≤ 2147483646` a 32-bit loop none of whose steps
returns zero ends after `max_generations` steps with the stable flag false. -/
theorem simulationLoop32_never_stable (Q : GameOfLife → Prop)
    (hstep : ∀ g, Q g → ∃ ch g1, simulateGeneration32 g = some (ch, g1) ∧ ch ≠ 0 ∧
      Q (swapBoards g1))
    (max_generations : Int) (hM : max_generations ≤ 2147483646) :
    ∀ (remaining : Nat) (generation : Int) (fuel : Nat) (g : GameOfLife) (steps swaps : Nat),
      1 ≤ generation → generation + remaining = max_generations + 1 → remaining < fuel →
      Q g →
      ∃ out, simulationLoop32 max_generations fuel generation g steps swaps = some out ∧
        out.stable = false ∧ Q out.game ∧ out.steps = steps + remaining ∧
        out.swaps = swaps + remaining := by
  intro remaining
  induction remaining with
  | zero =>
    intro generation fuel g steps swaps hgen hsum hfuel hQ
    obtain ⟨f, rfl⟩ : ∃ f, fuel = f + 1 := ⟨fuel - 1, by omega⟩
    have hnot : ¬ generation ≤ max_generations := by push_cast at hsum; omega
    exact ⟨⟨generation, false, g, steps, swaps⟩, by simp [simulationLoop32, hnot], rfl, hQ,
      rfl, rfl⟩
  | succ n ih =>
    intro generation fuel g steps swaps hgen hsum hfuel hQ
    obtain ⟨f, rfl⟩ : ∃ f, fuel = f + 1 := ⟨fuel - 1, by omega⟩
    have hle : generation ≤ max_generations := by push_cast at hsum; omega
    obtain ⟨ch, g1, hrun, hch, hQ1⟩ := hstep g hQ
    have hnext : wrapInt (generation + 1) = generation + 1 :=
      wrapInt_of_range (by omega) (by omega)
    obtain ⟨out, hout, h1, h2, h3, h4⟩ := ih (generation + 1) f (swapBoards g1) (steps + 1)
      (swaps + 1) (by omega) (by push_cast at hsum ⊢; omega) (by omega) hQ1
    exact ⟨out, by simp [simulationLoop32, hle, hrun, hch, hnext, hout], h1, h2, by omega,
      by omega⟩

end GameOfLife

namespace GameOfLife

/-- More fuel does not change what the loop returns. -/
theorem simulationLoop32_mono (max_generations : Int) :
    ∀ (fuel d : Nat) (generation : Int) (g : GameOfLife) (steps swaps : Nat) (out : Outcome),
      simulationLoop32 max_generations fuel generation g steps swaps = some out →
      simulationLoop32 max_generations (fuel + d) generation g steps swaps = some out := by
  intro fuel
  induction fuel with
  | zero =>
    intro d generation g steps swaps out h
    simp [simulationLoop32] at h
  | succ f ih =>
    intro d generation g steps swaps out h
    have hfd : f + 1 + d = (f + d) + 1 := by omega
    rw [hfd]
    by_cases hc : generation ≤ max_generations
    · cases hr : simulateGeneration32 g with
      | none => simp [simulationLoop32, hc, hr] at h
      | some r =>
        obtain ⟨ch, g1⟩ := r
        by_cases hz : ch = 0
        · simp only [simulationLoop32, hc, hr, hz, if_true] at h ⊢
          exact h
        · simp only [simulationLoop32, hc, hr, hz, if_true, if_false] at h ⊢
          exact ih d _ _ _ _ out h
    · simp only [simulationLoop32, hc, if_false] at h ⊢
      exact h

/-- A step of an object of size `5` whose front grid is one of the two phases
`a`, `b` of an oscillator: the count, and the other phase in the back grid. -/
theorem oscPhase_step {a b : Board} {c : Int} (hwfa : (engine5 a).WellFormed)
    (hwfb : (engine5 b).WellFormed) (hga : a.GhostDead 5) (hgb : b.GhostDead 5)
    (ha : simulateGeneration (engine5 a) = some (c, { engine5 a with next_board := b }))
    (hb : simulateGeneration (engine5 b) = some (c, { engine5 b with next_board := a }))
    {g : GameOfLife} (h : OscPhase a b g) :
    ∃ g1, simulateGeneration g = some (c, g1) ∧ OscPhase a b (swapBoards g1) := by
  obtain ⟨hwf, hsz, hgd, hcur⟩ := h
  rcases hcur with hcur | hcur
  · obtain ⟨g1, hrun, hwf1, hsz1, hcur1, hnext1⟩ := @step_eq_of_front g (engine5 a) _ _
      hwf hwfa hsz hcur hgd.2 (replicate_ghostDead 5) ha
    refine ⟨g1, hrun, swapBoards_wellFormed hwf1, hsz1, ⟨?_, ?_⟩, Or.inr hnext1⟩
    · show g1.next_board.GhostDead g1.size
      rw [hnext1, hsz1]; exact hgb
    · show g1.current_board.GhostDead g1.size
      rw [hcur1, hsz1]; exact hga
  · obtain ⟨g1, hrun, hwf1, hsz1, hcur1, hnext1⟩ := @step_eq_of_front g (engine5 b) _ _
      hwf hwfb hsz hcur hgd.2 (replicate_ghostDead 5) hb
    refine ⟨g1, hrun, swapBoards_wellFormed hwf1, hsz1, ⟨?_, ?_⟩, Or.inl hnext1⟩
    · show g1.next_board.GhostDead g1.size
      rw [hnext1, hsz1]; exact hga
    · show g1.current_board.GhostDead g1.size
      rw [hcur1, hsz1]; exact hgb

/-- Every step of the blinker returns `4`, in either phase. -/
theorem blinkerPhase_step {g : GameOfLife} (h : OscPhase blinker5 vbar5 g) :
    ∃ g1, simulateGeneration g = some (4, g1) ∧ OscPhase blinker5 vbar5 (swapBoards g1) :=
  oscPhase_step (by decide) (by decide) blinker5_ghostDead vbar5_ghostDead (by decide)
    (by decide) h

/-- Every step of the blinker at the top border returns `4`, in either phase. -/
theorem topPhase_step {g : GameOfLife} (h : OscPhase topbar5 hbar5 g) :
    ∃ g1, simulateGeneration g = some (4, g1) ∧ OscPhase topbar5 hbar5 (swapBoards g1) :=
  oscPhase_step (by decide) (by decide) topbar5_ghostDead hbar5_ghostDead (by decide)
    (by decide) h

theorem oscPhase_step32 {a b : Board}
    (hstep : ∀ g, OscPhase a b g →
      ∃ g1, simulateGeneration g = some (4, g1) ∧ OscPhase a b (swapBoards g1)) :
    ∀ g, OscPhase a b g →
      ∃ ch g1, simulateGeneration32 g = some (ch, g1) ∧ ch ≠ 0 ∧ OscPhase a b (swapBoards g1) := by
  intro g h
  obtain ⟨g1, hrun, h1⟩ := hstep g h
  exact ⟨4, g1, simulateGeneration32_of_exact hrun, by decide, h1⟩

/-- Every step of an oscillator whose steps all return `4` returns `4`. -/
theorem oscPhase_changes {a b : Board}
    (hstep : ∀ g, OscPhase a b g →
      ∃ g1, simulateGeneration g = some (4, g1) ∧ OscPhase a b (swapBoards g1)) :
    ∀ (k : Nat) (g : GameOfLife), OscPhase a b g → changesOfStep32 g (k + 1) = some 4 := by
  intro k
  induction k with
  | zero =>
    intro g h
    obtain ⟨g1, hrun, _⟩ := hstep g h
    exact changesOfStep32_one (simulateGeneration32_of_exact hrun)
  | succ k ih =>
    intro g h
    obtain ⟨g1, hrun, h1⟩ := hstep g h
    rw [changesOfStep32_succ hrun (by omega)]
    exact ih _ h1

end GameOfLife

namespace GameOfLife

/-- C5, as the code has it. On a well-formed object and for
`1 ≤ max_generations ≤ 2147483646` the driver loop ends; it reports Stable at
generation `k` exactly when `k` is the least index in `1..max_generations`
whose step returns zero; it ends with the stable flag false exactly when there
is no such index, and then it made `max_generations` steps and
`max_generations` swaps; it never makes more than `max_generations` steps. -/
theorem driver_loop_outcome32 (g : GameOfLife) (hwf : g.WellFormed) (max_generations : Int)
    (hM : 1 ≤ max_generations) (hM2 : max_generations ≤ 2147483646) :
    ∃ out, (∀ fuel : Nat, max_generations.toNat < fuel →
        runLoop32 fuel max_generations g = some out) ∧
      (∀ k : Nat, (out.stable = true ∧ out.generation = k) ↔
        (1 ≤ k ∧ (k : Int) ≤ max_generations ∧ changesOfStep32 g k = some 0 ∧
          ∀ k', 1 ≤ k' → k' < k → changesOfStep32 g k' ≠ some 0)) ∧
      (out.stable = false ↔
        ¬ ∃ k : Nat, 1 ≤ k ∧ (k : Int) ≤ max_generations ∧ changesOfStep32 g k = some 0) ∧
      (out.stable = false →
        (out.steps : Int) = max_generations ∧ (out.swaps : Int) = max_generations) ∧
      (out.steps : Int) ≤ max_generations := by
  obtain ⟨out, hout, hcases⟩ := simulationLoop32_spec max_generations hM2
    max_generations.toNat 1 (max_generations.toNat + 1) g 0 0 (le_refl _) (by omega)
    (by omega) hwf
  have hfuel : ∀ fuel : Nat, max_generations.toNat < fuel →
      runLoop32 fuel max_generations g = some out := by
    intro fuel hf
    obtain ⟨d, rfl⟩ : ∃ d, fuel = max_generations.toNat + 1 + d :=
      ⟨fuel - (max_generations.toNat + 1), by omega⟩
    exact simulationLoop32_mono max_generations _ d 1 g 0 0 out hout
  refine ⟨out, hfuel, ?_⟩
  rcases hcases with ⟨h1, h2, h3, h4, h5, _⟩ | ⟨k, hk1, hk2, h1, h2, h3, h4, h5, h6, _⟩
  · refine ⟨?_, ?_, ?_, by omega⟩
    · intro k
      constructor
      · rintro ⟨hs, _⟩
        rw [h1] at hs; exact absurd hs (by simp)
      · rintro ⟨hk1, hk2, hk3, _⟩
        exact absurd hk3 (h5 k hk1 (by omega))
    · constructor
      · rintro _ ⟨k, hk1, hk2, hk3⟩
        exact h5 k hk1 (by omega) hk3
      · intro _; exact h1
    · intro _; constructor <;> omega
  · refine ⟨?_, ?_, ?_, by omega⟩
    · intro k0
      constructor
      · rintro ⟨_, hgen⟩
        have hkk : k0 = k := by rw [h2] at hgen; omega
        subst hkk
        exact ⟨hk1, by omega, h5, h6⟩
      · rintro ⟨hk01, hk02, hk03, hk04⟩
        have hkk : k0 = k := by
          rcases Nat.lt_trichotomy k0 k with hlt | heq | hgt
          · exact absurd hk03 (h6 k0 hk01 hlt)
          · exact heq
          · exact absurd h5 (hk04 k hk1 hgt)
        subst hkk
        exact ⟨h1, by rw [h2]; omega⟩
    · constructor
      · intro hs; rw [h1] at hs; exact absurd hs (by simp)
      · intro hno
        exact absurd ⟨k, hk1, by omega, h5⟩ hno
    · intro hs; rw [h1] at hs; exact absurd hs (by simp)

theorem driver_loop_outcome32_witness :
    (engine5 blinker5).WellFormed ∧ (1 : Int) ≤ 3 ∧ (3 : Int) ≤ 2147483646 ∧
      ∃ out, (∀ fuel : Nat, (3 : Int).toNat < fuel →
          runLoop32 fuel 3 (engine5 blinker5) = some out) ∧
        (out.steps : Int) ≤ 3 :=
  ⟨by decide, by decide, by decide,
    (driver_loop_outcome32 (engine5 blinker5) (by decide) 3 (by decide) (by decide)).imp
      (fun _ h => ⟨h.1, h.2.2.2.2⟩)⟩

theorem vbar_phase : OscPhase blinker5 vbar5 (engine5 vbar5) :=
  ⟨by decide, rfl, ⟨vbar5_ghostDead, replicate_ghostDead 5⟩, Or.inr rfl⟩

/-- C5, as stated, fails: at `max_generations = 2147483647`, on the grid of
size `5` holding the vertical bar, every step returns `4`, so no step returns
zero, and yet the loop does not end with the stable flag false: the test
`generation <= max_generations` never fails and the loop does not end at all. -/
theorem driver_loop_never_ends :
    (1 : Int) ≤ 2147483647 ∧ (engine5 vbar5).WellFormed ∧
      (∀ k : Nat, 1 ≤ k → changesOfStep32 (engine5 vbar5) k = some 4) ∧
      ¬ ∃ fuel out, runLoop32 fuel 2147483647 (engine5 vbar5) = some out := by
  refine ⟨by decide, by decide, ?_, ?_⟩
  · intro k hk
    obtain ⟨m, rfl⟩ : ∃ m, k = m + 1 := ⟨k - 1, by omega⟩
    exact oscPhase_changes (fun g h => blinkerPhase_step h) m _ vbar_phase
  · rintro ⟨fuel, out, h⟩
    have hnone := simulationLoop32_never_ends (OscPhase blinker5 vbar5)
      (oscPhase_step32 (fun g h => blinkerPhase_step h)) fuel 1 (engine5 vbar5) 0 0
      vbar_phase (by decide)
    unfold runLoop32 at h
    rw [hnone] at h
    exact absurd h (by simp)

end GameOfLife

namespace GameOfLife

/-- C11, as the code has it. Blinker (Scenario B): on the `N = 5` grid whose
only alive cells are `(3,2)`, `(3,3)`, `(3,4)`, step 1 returns `4` and produces
the vertical bar `(2,3)`, `(3,3)`, `(4,3)`; step 2 returns `4` and restores the
initial grid; the front grid after every even number of generations is the
initial one; and the driver loop with `max_generations = 10`, indeed with any
`1 ≤ max_generations ≤ 2147483646`, makes `max_generations` steps and ends
with the stable flag false and alive count `3`. -/
theorem blinker_scenario32 (g : GameOfLife) (hwf : g.WellFormed) (hsz : g.size = 5)
    (hcur : g.current_board = blinker5) (hnext : g.next_board.GhostDead 5) :
    (∃ g1 g2, simulateGeneration32 g = some (4, g1) ∧ g1.next_board = vbar5 ∧
      simulateGeneration32 (swapBoards g1) = some (4, g2) ∧ g2.next_board = blinker5) ∧
    (∀ k : Nat, ∃ gk, configAfter (2 * k) g = some gk ∧ gk.current_board = blinker5) ∧
    (∀ max_generations : Int, 1 ≤ max_generations → max_generations ≤ 2147483646 →
      ∃ out, (∀ fuel : Nat, max_generations.toNat < fuel →
          runLoop32 fuel max_generations g = some out) ∧
        out.stable = false ∧ (out.steps : Int) = max_generations ∧
        countAliveCells32 out.game = some 3) := by
  have hgd : GhostDeadBoth g := by
    unfold GhostDeadBoth
    rw [hsz, hcur]
    exact ⟨blinker5_ghostDead, hnext⟩
  have two : ∀ g : GameOfLife, g.WellFormed → g.size = 5 → GhostDeadBoth g →
      g.current_board = blinker5 →
      ∃ g1 g2, simulateGeneration g = some (4, g1) ∧ g1.next_board = vbar5 ∧
        simulateGeneration (swapBoards g1) = some (4, g2) ∧ g2.next_board = blinker5 ∧
        g2.WellFormed ∧ g2.size = 5 ∧ GhostDeadBoth g2 := by
    intro g hwf hsz hgd hcur
    obtain ⟨g1, hrun1, hwf1, hsz1, hgd1, hcur1, hn1, _⟩ := step_blinker hwf hsz hgd (Or.inl hcur)
    have hc1 : (swapBoards g1).current_board = vbar5 := hn1 hcur
    obtain ⟨g2, hrun2, hwf2, hsz2, hgd2, hcur2, _, hn2⟩ :=
      step_blinker (swapBoards_wellFormed hwf1) hsz1 ⟨hgd1.2, hgd1.1⟩ (Or.inr hc1)
    exact ⟨g1, g2, hrun1, hn1 hcur, hrun2, hn2 hc1, hwf2, hsz2, hgd2⟩
  refine ⟨?_, ?_, ?_⟩
  · obtain ⟨g1, g2, h1, h2, h3, h4, _⟩ := two g hwf hsz hgd hcur
    exact ⟨g1, g2, simulateGeneration32_of_exact h1, h2, simulateGeneration32_of_exact h3, h4⟩
  · intro k
    have key : ∀ (k : Nat) (g : GameOfLife), g.WellFormed → g.size = 5 → GhostDeadBoth g →
        g.current_board = blinker5 →
        ∃ gk, configAfter (2 * k) g = some gk ∧ gk.current_board = blinker5 := by
      intro k
      induction k with
      | zero => intro g _ _ _ hcur; exact ⟨g, rfl, hcur⟩
      | succ k ih =>
        intro g hwf hsz hgd hcur
        obtain ⟨g1, g2, h1, _, h3, h4, hwf2, hsz2, hgd2⟩ := two g hwf hsz hgd hcur
        obtain ⟨gk, hgk, hcurk⟩ := ih (swapBoards g2) (swapBoards_wellFormed hwf2) hsz2
          ⟨hgd2.2, hgd2.1⟩ h4
        refine ⟨gk, ?_, hcurk⟩
        have : 2 * (k + 1) = (2 * k + 1) + 1 := by omega
        rw [this, configAfter_succ h1, configAfter_succ h3]
        exact hgk
    exact key k g hwf hsz hgd hcur
  · intro max_generations hM hM2
    obtain ⟨out, hout, hstable, ⟨hwfo, hszo, _, hcuro⟩, hsteps, _⟩ :=
      simulationLoop32_never_stable (OscPhase blinker5 vbar5)
        (oscPhase_step32 (fun g h => blinkerPhase_step h)) max_generations hM2
        max_generations.toNat 1 (max_generations.toNat + 1) g 0 0 (le_refl _) (by omega)
        (by omega) ⟨hwf, hsz, hgd, Or.inl hcur⟩
    refine ⟨out, ?_, hstable, by omega, ?_⟩
    · intro fuel hf
      obtain ⟨d, rfl⟩ : ∃ d, fuel = max_generations.toNat + 1 + d :=
        ⟨fuel - (max_generations.toNat + 1), by omega⟩
      exact simulationLoop32_mono max_generations _ d 1 g 0 0 out hout
    · rw [countAliveCells32_eq]
      rcases hcuro with h | h
      · rw [@countAliveCells_congr out.game (engine5 blinker5) hwfo (by decide) hszo h]
        decide
      · rw [@countAliveCells_congr out.game (engine5 vbar5) hwfo (by decide) hszo h]
        decide

theorem blinker_scenario32_witness :
    (engine5 blinker5).WellFormed ∧
    (∃ g1 g2, simulateGeneration32 (engine5 blinker5) = some (4, g1) ∧ g1.next_board = vbar5 ∧
      simulateGeneration32 (swapBoards g1) = some (4, g2) ∧ g2.next_board = blinker5) ∧
    (∃ out, (∀ fuel : Nat, (10 : Int).toNat < fuel →
        runLoop32 fuel 10 (engine5 blinker5) = some out) ∧
      out.stable = false ∧ (out.steps : Int) = 10 ∧ countAliveCells32 out.game = some 3) :=
  have h := blinker_scenario32 (engine5 blinker5) (by decide) rfl rfl (replicate_ghostDead 5)
  ⟨by decide, h.1, h.2.2 10 (by decide) (by decide)⟩

/-- C11, as stated, fails for `max_generations = 2147483647`: on the blinker
the test `generation <= max_generations` never fails and no step returns
zero, so the driver loop does not end, for any number of iterations. -/
theorem blinker_loop_never_ends :
    (1 : Int) ≤ 2147483647 ∧ (engine5 blinker5).WellFormed ∧
      (engine5 blinker5).current_board = blinker5 ∧
      ¬ ∃ fuel out, runLoop32 fuel 2147483647 (engine5 blinker5) = some out := by
  refine ⟨by decide, by decide, rfl, ?_⟩
  rintro ⟨fuel, out, h⟩
  have hnone := simulationLoop32_never_ends (OscPhase blinker5 vbar5)
    (oscPhase_step32 (fun g h => blinkerPhase_step h)) fuel 1 (engine5 blinker5) 0 0
    ⟨by decide, rfl, ⟨blinker5_ghostDead, replicate_ghostDead 5⟩, Or.inl rfl⟩ (by decide)
  unfold runLoop32 at h
  rw [hnone] at h
  exact absurd h (by simp)

end GameOfLife

/-! ## Early exit at machine width -/

namespace GameOfLife

theorem configAfter_sound (k : Nat) :
    ∀ g : GameOfLife, g.Sound → ∃ gk, configAfter k g = some gk ∧ gk.Sound := by
  induction k with
  | zero => intro g hs; exact ⟨g, rfl, hs⟩
  | succ k ih =>
    intro g hs
    obtain ⟨g1, hrun, hst⟩ := simulateGeneration_spec hs.1
    obtain ⟨gk, hgk, hsk⟩ := ih (swapBoards g1) (swapBoards_sound (stepped_sound hs hst))
    exact ⟨gk, by rw [configAfter_succ hrun]; exact hgk, hsk⟩

/-- The alive count of an object whose front grid is the `0`/`1` grid given by
`f`, when `N * N` fits an `int`. -/
theorem countAliveCells32_boardOf {g : GameOfLife} (f : Int → Int → Int) (hwf : g.WellFormed)
    (hbin : g.current_board.Binary) (hcur : g.current_board = boardOf g.size f)
    (hN : g.size * g.size ≤ 2147483647) :
    countAliveCells32 g = some (aliveCount g.size f) := by
  have hcard := sum_cells_eq_card hbin g.size
  have hle := card_alive_bounds g.current_board hwf.1
  have h0 : (0 : Int) ≤ (((Finset.Icc 1 g.size ×ˢ Finset.Icc 1 g.size).filter
      (fun p => g.current_board.read p.1 p.2 = some 1)).card : Int) := Int.natCast_nonneg _
  have hfilter : (Finset.Icc 1 g.size ×ˢ Finset.Icc 1 g.size).filter
        (fun p => g.current_board.read p.1 p.2 = some 1)
      = (Finset.Icc 1 g.size ×ˢ Finset.Icc 1 g.size).filter (fun p => f p.1 p.2 = 1) := by
    apply Finset.filter_congr
    intro p hp
    rw [Finset.mem_product, Finset.mem_Icc, Finset.mem_Icc] at hp
    rw [hcur, boardOf_read _ _ (by omega) (by omega) (by omega) (by omega)]
    simp
  rw [countAliveCells32_eq, countAliveCells_spec hwf, hcard]
  unfold aliveCount
  rw [← hfilter]
  show some (wrapInt _) = some _
  rw [wrapInt_of_range (by omega) (by omega)]

/-- C17, as the code has it. Early exit is sound: on an object that satisfies
the invariant of the reachable states, with `N * N ≤ 2147483647` and
`max_generations ≤ 2147483646`, the driver loop ends, and the front grid it
leaves, whether it stopped early or not, is the front grid after
`max_generations` generations run with no stability check, which is the
`max_generations`-th iterate of the Life step on the initial grid; the alive
count reported is the number of alive interior cells of that grid. -/
theorem early_exit_sound32 (g : GameOfLife) (hs : g.Sound) (max_generations : Int)
    (hM2 : max_generations ≤ 2147483646) (hN : g.size * g.size ≤ 2147483647) :
    ∃ out gM, (∀ fuel : Nat, max_generations.toNat < fuel →
        runLoop32 fuel max_generations g = some out) ∧
      configAfter max_generations.toNat g = some gM ∧
      out.game.current_board = gM.current_board ∧
      out.game.current_board
        = boardOf g.size ((lifeStep g.size)^[max_generations.toNat] g.current_board.cell) ∧
      countAliveCells32 out.game
        = some (aliveCount g.size
            ((lifeStep g.size)^[max_generations.toNat] g.current_board.cell)) := by
  have hwf := hs.1
  have hgd : GhostDeadBoth g := ⟨hs.2.1, hs.2.2.1⟩
  have hcur : g.current_board = boardOf g.size g.current_board.cell :=
    board_eq_boardOf_cell hwf.2.2.1
  obtain ⟨gM, hgM, hwfM, hszM, _, hcurM⟩ :=
    configAfter_boardOf max_generations.toNat g _ hwf hgd hcur
  obtain ⟨gM', hgM', hsM⟩ := configAfter_sound max_generations.toNat g hs
  rw [hgM] at hgM'
  have hbinM : gM.current_board.Binary := by
    rw [Option.some.inj hgM']; exact hsM.2.2.2.1
  have hbase : max_generations.toNat < max_generations.toNat + 1 := by omega
  rcases Int.lt_or_le max_generations 1 with hlt | hM
  · -- the test fails at once: no step is made
    have hzero : max_generations.toNat = 0 := by omega
    have hnot : ¬ (1 : Int) ≤ max_generations := by omega
    rw [hzero] at hgM hcurM
    have hg : gM = g := (Option.some.inj hgM).symm
    subst hg
    refine ⟨⟨1, false, gM, 0, 0⟩, gM, ?_, by rw [hzero]; rfl, rfl, by rw [hzero]; exact hcurM,
      ?_⟩
    · intro fuel hf
      obtain ⟨f, rfl⟩ : ∃ f, fuel = f + 1 := ⟨fuel - 1, by omega⟩
      simp [runLoop32, simulationLoop32, hnot]
    · rw [hzero]
      exact countAliveCells32_boardOf _ hwf hs.2.2.2.1 hcurM hN
  obtain ⟨out, hout, hcases⟩ := simulationLoop32_spec max_generations hM2
    max_generations.toNat 1 (max_generations.toNat + 1) g 0 0 (le_refl _) (by omega)
    hbase hwf
  have finish : out.game.WellFormed → out.game.size = g.size →
      out.game.current_board = gM.current_board →
      ∃ out gM, (∀ fuel : Nat, max_generations.toNat < fuel →
          runLoop32 fuel max_generations g = some out) ∧
        configAfter max_generations.toNat g = some gM ∧
        out.game.current_board = gM.current_board ∧
        out.game.current_board
          = boardOf g.size ((lifeStep g.size)^[max_generations.toNat] g.current_board.cell) ∧
        countAliveCells32 out.game
          = some (aliveCount g.size
              ((lifeStep g.size)^[max_generations.toNat] g.current_board.cell)) := by
    intro hwfo hszo hcuro
    refine ⟨out, gM, ?_, hgM, hcuro, by rw [hcuro, hcurM], ?_⟩
    · intro fuel hf
      obtain ⟨d, rfl⟩ : ∃ d, fuel = max_generations.toNat + 1 + d :=
        ⟨fuel - (max_generations.toNat + 1), by omega⟩
      exact simulationLoop32_mono max_generations _ d 1 g 0 0 out hout
    · have h := countAliveCells32_boardOf (g := out.game)
        ((lifeStep g.size)^[max_generations.toNat] g.current_board.cell) hwfo
        (by rw [hcuro]; exact hbinM) (by rw [hszo, hcuro, hcurM]) (by rw [hszo]; exact hN)
      rw [hszo] at h
      exact h
  rcases hcases with ⟨_, _, _, _, _, hconf⟩ | ⟨k, hk1, hk2, _, _, _, _, _, _, hconf⟩
  · rw [hgM] at hconf
    have hg : gM = out.game := Option.some.inj hconf
    exact finish (by rw [← hg]; exact hwfM) (by rw [← hg]; exact hszM) (by rw [hg])
  · obtain ⟨gk, hgk, hwfk, hszk, hgdk, hcurk⟩ :=
      configAfter_boardOf (k - 1) g _ hwf hgd hcur
    rw [hgk] at hconf
    have hrun32 : simulateGeneration32 gk = some (0, out.game) := hconf
    obtain ⟨g2, hrun2, hst⟩ := simulateGeneration_spec hwfk
    obtain ⟨hb0, hb1⟩ := sum_cellChange_bounds hwfk hst
    generalize ∑ a ∈ Finset.Ico 1 (gk.size + 1), ∑ c ∈ Finset.Ico 1 (gk.size + 1),
      cellChange gk a c = ch at hrun2 hb0 hb1
    rw [simulateGeneration32_of_exact hrun2] at hrun32
    have hw : wrapInt ch = 0 := (Prod.mk.inj (Option.some.inj hrun32)).1
    have hg : out.game = g2 := ((Prod.mk.inj (Option.some.inj hrun32)).2).symm
    have hch : ch = 0 := wrapInt_eq_zero hb0 (by rw [hszk] at hb1; omega) hw
    rw [hch, ← hg] at hrun2
    have hfix := lifeStep_fixed_of_no_change _ hwfk hgdk (by rw [hszk]; exact hcurk) hrun2
    rw [hszk] at hfix
    have hsplit : max_generations.toNat = (max_generations.toNat - (k - 1)) + (k - 1) := by
      omega
    refine finish (by rw [hg]; exact stepped_wellFormed hwfk hst)
      (by rw [hg, hst.size_eq, hszk]) ?_
    rw [hg, hst.current_eq, hcurk, hcurM, hsplit, Function.iterate_add_apply]
    exact (boardOf_congr g.size (fun i j hi0 hi hj0 hj =>
      iterate_lifeStep_fixed g.size hfix _ i j hi0 (by omega) hj0 (by omega))).symm

end GameOfLife

namespace GameOfLife

theorem early_exit_sound32_witness :
    (engine5 block5).Sound ∧ (10 : Int) ≤ 2147483646 ∧
    (engine5 block5).size * (engine5 block5).size ≤ 2147483647 ∧
    ∃ out gM, (∀ fuel : Nat, (10 : Int).toNat < fuel →
        runLoop32 fuel 10 (engine5 block5) = some out) ∧
      configAfter (10 : Int).toNat (engine5 block5) = some gM ∧
      out.game.current_board = gM.current_board ∧
      out.game.current_board
        = boardOf (engine5 block5).size
            ((lifeStep (engine5 block5).size)^[(10 : Int).toNat]
              (engine5 block5).current_board.cell) ∧
      countAliveCells32 out.game
        = some (aliveCount (engine5 block5).size
            ((lifeStep (engine5 block5).size)^[(10 : Int).toNat]
              (engine5 block5).current_board.cell)) :=
  have hs : (engine5 block5).Sound :=
    ⟨by decide,
      blockBoard_ghostDead (n := 5) (r := 2) (c := 2) (by decide) (by decide) (by decide)
        (by decide),
      replicate_ghostDead 5, by decide, by decide⟩
  ⟨hs, by decide, by decide, early_exit_sound32 (engine5 block5) hs 10 (by decide) (by decide)⟩

/-- C17, as stated, fails for `max_generations = 2147483647`: the grid of size
`5` with the bar `(1,3)`, `(2,3)`, `(3,3)` is reached by construction and
seeding, no step on it returns zero and the test
`generation <= max_generations` never fails, so the driver loop does not end
and leaves no grid and no alive count. -/
theorem early_exit_never_ends :
    Reachable (engine5 topbar5) ∧ (1 : Int) ≤ 2147483647 ∧
      ¬ ∃ fuel out, runLoop32 fuel 2147483647 (engine5 topbar5) = some out := by
  refine ⟨?_, by decide, ?_⟩
  · exact Reachable.seed topbarRand (engine5 (List.replicate 7 (List.replicate 7 0))) _
      (Reachable.construct 5 _ (by decide) (by decide)) (by decide)
  · rintro ⟨fuel, out, h⟩
    have hnone := simulationLoop32_never_ends (OscPhase topbar5 hbar5)
      (oscPhase_step32 (fun g h => topPhase_step h)) fuel 1 (engine5 topbar5) 0 0
      ⟨by decide, rfl, ⟨topbar5_ghostDead, replicate_ghostDead 5⟩, Or.inl rfl⟩ (by decide)
    unfold runLoop32 at h
    rw [hnone] at h
    exact absurd h (by simp)

end GameOfLife
